import Mathlib

/-!
# fire-rs-saop: fire front data and plan utility

A shallow embedding of `FireData` (fire_rs/planning-cpp/src/fire_data.h), of the
coordinate mapping of `Raster` and `LRaster` (fire_rs/planning-cpp/src/raster.h) and of
the construction, the radial utility, the mutation operators and the post-processing of
`Plan` (cpp/src/vns/plan.hpp).

Conventions of the embedding.

* A `double` that holds a time, an ignition date or a coordinate is a rational
  number: arithmetic is exact, no rounding and no overflow. The definitions
  `prop_dx_double` and `prop_dy_double` are the exception: they round the result of each
  operation of the gradient to the nearest double.
* A raster is a shape, an affine cell-to-world mapping and a total function from
  integer cell coordinates to values. The source never reads a raster outside its
  shape, so what the function returns there is irrelevant.
* A recursive or looping source function that may fail to terminate takes a fuel
  argument; the outer `none` of its result means that the fuel ran out.
* The angle stored in `propagation_directions` is kept as the pair of arguments of
  `atan2`, from which the eight-way quantization is computed exactly.
* A cell of a utility map is a rational number or NaN; NaN is `none` and absorbs
  in additions.
* The C function `sqrt`, the euclidean distance, the ghost fire mapper and the function
  `segment_trace`, which the sources only call, are parameters of the definitions that
  use them.
* The classes `UAV` and `Trajectory`, which the sources only use, are modelled from
  their description in the specification; a trajectory is its configuration and the
  list of its maneuvers, from which the start times are computed. A mutation of a
  trajectory that touches a fixed slot or exceeds the maximal duration fails, as the
  specification says.
* A method of the plan returns an `Outcome`: `none` when the fuel runs out, a fault when a
  read is past the end of a trajectory or when the trajectory refuses a mutation, which ends
  the method as a failed assertion does, or the plan it leaves.
* The loops of the post-processing compare the index `seg_id`, a `size_t`, with
  `last_modifiable_maneuver()`: the comparison is the one of `size_t`, in which `-1` is
  `2 ^ 64 - 1`.
-/

namespace SAOP

/-! ## Data model -/

/-- The constant `numeric_limits<double>::max()`, that is `(2 - 2^-52) * 2^1023`. -/
def DBL_MAX : ℚ := (2 ^ 53 - 1) * 2 ^ 971

/-- A raster cell, `Cell{x, y}`. -/
structure Cell where
  x : Int
  y : Int
deriving DecidableEq, Repr

/-- A world position, `Position{x, y}`. -/
structure Position where
  x : ℚ
  y : ℚ
deriving DecidableEq

/-- The struct `TimeWindow{start, end}`; its member `end` is the field `stop`. -/
structure TimeWindow where
  start : ℚ
  stop : ℚ
deriving DecidableEq

/-- The struct `PositionTime{pt, time}`. -/
structure PositionTime where
  pt : Position
  time : ℚ
deriving DecidableEq

/-- The struct `PointTimeWindow{pt, tw}`. -/
structure PointTimeWindow where
  pt : Position
  tw : TimeWindow
deriving DecidableEq

/-- The raster of raster.h: `x_width`, `y_height`, `x_offset`, `y_offset`, `cell_width` and the
cell values, read by `operator()(x, y)`. -/
structure GenRaster (α : Type) where
  x_width : Nat
  y_height : Nat
  x_offset : ℚ
  y_offset : ℚ
  cell_width : ℚ
  data : Int → Int → α

/-- A raster of doubles, `Raster` in fire_data.h. -/
abbrev Raster := GenRaster ℚ

/-- The angle `atan2(dy, dx)`, kept as the two arguments of `atan2`: the value stored in
`propagation_directions`. The angle `0` is `atan2(0, 1)`. -/
structure Direction where
  dy : ℚ
  dx : ℚ
deriving DecidableEq

namespace GenRaster

variable {α : Type}

/-- A freshly allocated raster with the shape and mapping of `r`, every cell holding `v`:
`Raster ie(x_width, y_height, x_offset, y_offset, cell_width)` and `GenRaster<T>(r, v)`. -/
def like {β : Type} (r : GenRaster β) (v : α) : GenRaster α :=
  { x_width := r.x_width, y_height := r.y_height, x_offset := r.x_offset,
    y_offset := r.y_offset, cell_width := r.cell_width, data := fun _ _ => v }

/-- The write `r.set(x, y, v)`. -/
def set (r : GenRaster α) (x y : Int) (v : α) : GenRaster α :=
  { r with data := fun a b => if a = x ∧ b = y then v else r.data a b }

/-- The read `r(cell)`. -/
def get (r : GenRaster α) (c : Cell) : α := r.data c.x c.y

/-- Modelled from the spec: `is_in(cell)`, declared in core/raster.hpp which is not part of the
sources; a cell is in the raster when both its indices are within the shape. -/
def is_in (r : GenRaster α) (c : Cell) : Prop :=
  0 ≤ c.x ∧ c.x < r.x_width ∧ 0 ≤ c.y ∧ c.y < r.y_height

instance (r : GenRaster α) (c : Cell) : Decidable (r.is_in c) := by
  unfold is_in; infer_instance

/-- The accessor `x_coords(x_index)` of raster.h. -/
def x_coords (r : GenRaster α) (x_index : Int) : ℚ := r.x_offset + r.cell_width * x_index

/-- The accessor `y_coords(y_index)` of raster.h. -/
def y_coords (r : GenRaster α) (y_index : Int) : ℚ := r.y_offset + r.cell_width * y_index

end GenRaster

/-- The C function `lround`: the nearest integer, halfway cases away from zero. -/
def lround (q : ℚ) : Int := if 0 ≤ q then ⌊q + 1 / 2⌋ else -⌊-q + 1 / 2⌋

namespace GenRaster

variable {α : Type}

/-- The accessor `x_index(x_coord)` of raster.h. The index stays an integer: the conversion of
a negative one to `size_t`, which gives an index beyond any shape, is left out. -/
def x_index (r : GenRaster α) (x_coord : ℚ) : Int := lround ((x_coord - r.x_offset) / r.cell_width)

/-- The accessor `y_index(y_coord)` of raster.h. -/
def y_index (r : GenRaster α) (y_coord : ℚ) : Int := lround ((y_coord - r.y_offset) / r.cell_width)

/-- Modelled from the spec: `as_cell(position)`, declared in core/raster.hpp which is not part of
the sources; the spec has the raster map world coordinates to integer cells by rounding, which
is `x_index` and `y_index` of raster.h. -/
def as_cell (r : GenRaster α) (p : Position) : Cell := ⟨r.x_index p.x, r.y_index p.y⟩

/-- Modelled from the spec: `as_position(cell)`, declared in core/raster.hpp which is not part of
the sources; the world coordinates of a cell are `x_coords` and `y_coords` of raster.h. -/
def as_position (r : GenRaster α) (c : Cell) : Position := ⟨r.x_coords c.x, r.y_coords c.y⟩

end GenRaster

/-- The struct `LRaster` of raster.h, a raster of `long`. -/
abbrev LRaster := GenRaster Int

/-- The accessor `LRaster::x_index(x_coord)` of raster.h: `none` when its assertion fails. -/
def LRaster.x_index (r : LRaster) (x_coord : ℚ) : Option Int :=
  if r.x_offset - r.cell_width / 2 ≤ x_coord ∧ x_coord ≤ r.x_offset + r.cell_width * r.x_width
  then some (lround ((x_coord - r.x_offset) / r.cell_width))
  else none

/-- The accessor `LRaster::y_index(y_coord)` of raster.h: `none` when its assertion fails. -/
def LRaster.y_index (r : LRaster) (y_coord : ℚ) : Option Int :=
  if r.y_offset - r.cell_width / 2 ≤ y_coord ∧ y_coord ≤ r.y_offset + r.cell_width * r.y_height
  then some (lround ((y_coord - r.y_offset) / r.cell_width))
  else none

/-! ## FireData -/

/-- The class `FireData`: the ignition raster and the two rasters derived from it. -/
structure FireData where
  ignitions : Raster
  traversal_end : Raster
  propagation_directions : GenRaster Direction

namespace FireData

/-- The inner double loop of `compute_traversal_ends` over `dx, dy` in `-1..1`: the variable
`max_neighbor` after the loops, for the cell `(x, y)`. -/
def max_neighbor (ignitions : Raster) (x y : Nat) : ℚ :=
  ([-1, 0, 1] : List Int).foldl (fun max_neighbor dx =>
    ([-1, 0, 1] : List Int).foldl (fun max_neighbor dy =>
      if dx = 0 ∧ dy = 0 then max_neighbor
      else if x = 0 ∧ dx < 0 then max_neighbor
      else if (x : Int) + dx ≥ ignitions.x_width then max_neighbor
      else if y = 0 ∧ dy < 0 then max_neighbor
      else if (y : Int) + dy ≥ ignitions.y_height then max_neighbor
      else if ignitions.data (x + dx) (y + dy) ≥ DBL_MAX / 2 then max_neighbor
      else max max_neighbor (ignitions.data (x + dx) (y + dy))) max_neighbor) 0

/-- The body of the loops of `compute_traversal_ends` for the cell `(x, y)`: the value given
to `ie.set(x, y, _)`. -/
def traversal_end_value (ignitions : Raster) (x y : Nat) : ℚ :=
  if ignitions.data x y < DBL_MAX / 2 then
    if max_neighbor ignitions x y ≤ ignitions.data x y then ignitions.data x y + 180
    else max_neighbor ignitions x y
  else ignitions.data x y

/-- The function `FireData::compute_traversal_ends`. The raster `ie` starts from zeros: the
loops write every cell of it. -/
def compute_traversal_ends (ignitions : Raster) : Raster :=
  (List.range ignitions.x_width).foldl (fun ie (x : Nat) =>
    (List.range ignitions.y_height).foldl (fun ie (y : Nat) =>
      ie.set x y (traversal_end_value ignitions x y)) ie) (GenRaster.like ignitions 0)

/-- The lambda `default_ignition` of `compute_propagation_direction`. -/
def default_ignition (ignitions : Raster) (x y : Nat) (dx dy : Int) : ℚ :=
  let default := ignitions.data x y
  if x = 0 ∧ dx < 0 then default
  else if (x : Int) + dx ≥ ignitions.x_width then default
  else if y = 0 ∧ dy < 0 then default
  else if (y : Int) + dy ≥ ignitions.y_height then default
  else if ignitions.data (x + dx) (y + dy) ≥ DBL_MAX / 2 then default
  else ignitions.data (x + dx) (y + dy)

/-- The local `prop_dx` of `compute_propagation_direction` at the cell `(x, y)`. -/
def prop_dx (ignitions : Raster) (x y : Nat) : ℚ :=
  let ign := default_ignition ignitions x y
  ign 1 (-1) + 2 * ign 1 0 + ign 1 1 - ign (-1) (-1) - 2 * ign (-1) 0 - ign (-1) 1

/-- The local `prop_dy` of `compute_propagation_direction` at the cell `(x, y)`. -/
def prop_dy (ignitions : Raster) (x y : Nat) : ℚ :=
  let ign := default_ignition ignitions x y
  ign 1 1 + 2 * ign 0 1 + ign (-1) 1 - ign 1 (-1) - 2 * ign 0 (-1) - ign (-1) (-1)

/-- The body of the loops of `compute_propagation_direction` for the cell `(x, y)`: the value
given to `pd.set(x, y, _)`, `atan2(prop_dy, prop_dx)` or the angle `0`. -/
def propagation_direction_value (ignitions : Raster) (x y : Nat) : Direction :=
  if ignitions.data x y < DBL_MAX / 2 then ⟨prop_dy ignitions x y, prop_dx ignitions x y⟩
  else ⟨0, 1⟩

/-- The function `FireData::compute_propagation_direction`. The raster `pd` starts from the
angle 0: the loops write every cell of it. -/
def compute_propagation_direction (ignitions : Raster) : GenRaster Direction :=
  (List.range ignitions.x_width).foldl (fun pd (x : Nat) =>
    (List.range ignitions.y_height).foldl (fun pd (y : Nat) =>
      pd.set x y (propagation_direction_value ignitions x y)) pd)
    (GenRaster.like ignitions ⟨0, 1⟩)

/-- The constructor `FireData(const Raster& ignitions)`. -/
def new (ignitions : Raster) : FireData :=
  { ignitions := ignitions
    traversal_end := compute_traversal_ends ignitions
    propagation_directions := compute_propagation_direction ignitions }

/-- The method `FireData::eventually_ignited`. -/
def eventually_ignited (fd : FireData) (cell : Cell) : Prop :=
  fd.ignitions.get cell < DBL_MAX / 2

instance (fd : FireData) (cell : Cell) : Decidable (fd.eventually_ignited cell) := by
  unfold eventually_ignited; infer_instance

/-- The quantized direction of `project_on_fire_front`,
`lround(positive_modulo(atan2(dy, dx), 2π) / (π/4)) % 8`, computed exactly. The angle is within
`π/8` of the x axis when `|dy| < tan(π/8)·|dx|`, and `tan(π/8) = √2 - 1` makes this
`(|dx| + |dy|)² < 2·dx²`; likewise for the y axis; what remains is a diagonal, chosen by the
signs. As `√2` is irrational no rational pair other than `(0, 0)` lies on a rounding boundary,
and `atan2(0, 0) = 0`. The theorem `discrete_dir_eq_round` proves that this is the index of the
source, computed on the real numbers. -/
def discrete_dir (d : Direction) : Int :=
  if (|d.dx| + |d.dy|) ^ 2 < 2 * d.dx ^ 2 then (if 0 < d.dx then 0 else 4)
  else if (|d.dx| + |d.dy|) ^ 2 < 2 * d.dy ^ 2 then (if 0 < d.dy then 2 else 6)
  else if d.dx = 0 ∧ d.dy = 0 then 0
  else if 0 < d.dx then (if 0 < d.dy then 1 else 7)
  else (if 0 < d.dy then 3 else 5)

/-- The local `dx` of `project_on_fire_front`, from the quantized direction. -/
def step_dx (discrete_dir : Int) : Int :=
  if discrete_dir = 0 ∨ discrete_dir = 1 ∨ discrete_dir = 7 then 1
  else if discrete_dir = 3 ∨ discrete_dir = 4 ∨ discrete_dir = 5 then -1
  else 0

/-- The local `dy` of `project_on_fire_front`, from the quantized direction. -/
def step_dy (discrete_dir : Int) : Int :=
  if discrete_dir = 1 ∨ discrete_dir = 2 ∨ discrete_dir = 3 then 1
  else if discrete_dir = 5 ∨ discrete_dir = 6 ∨ discrete_dir = 7 then -1
  else 0

/-- The first `if` after `Cell next_cell;` in `project_on_fire_front`: the cell one step along
the propagation direction (when `time` is after the traversal end) or against it, or `none`
when that branch executes `return {}`. -/
def next_cell (fd : FireData) (cell : Cell) (time : ℚ) : Option Cell :=
  let discrete_dir := discrete_dir (fd.propagation_directions.get cell)
  let dx := step_dx discrete_dir
  let dy := step_dy discrete_dir
  if time > fd.traversal_end.get cell then
    let next_cell : Cell := ⟨cell.x + dx, cell.y + dy⟩
    if ¬ fd.ignitions.is_in next_cell ∨ fd.ignitions.get cell > fd.ignitions.get next_cell then none
    else some next_cell
  else
    let next_cell : Cell := ⟨cell.x - dx, cell.y - dy⟩
    if ¬ fd.ignitions.is_in next_cell ∨ fd.ignitions.get cell < fd.ignitions.get next_cell then none
    else some next_cell

/-- The method `FireData::project_on_fire_front(cell, time)`, with fuel for the recursion: `none`
when the fuel runs out, `some none` for the empty optional, `some (some r)` for the cell `r`. -/
def project_on_fire_front (fd : FireData) : Nat → Cell → ℚ → Option (Option Cell)
  | 0, _, _ => none
  | fuel + 1, cell, time =>
    if time ≥ fd.ignitions.get cell ∧ time ≤ fd.traversal_end.get cell then some (some cell)
    else
      match fd.next_cell cell time with
      | none => some none
      | some next_cell =>
        if ¬ fd.ignitions.is_in next_cell ∨ ¬ fd.eventually_ignited next_cell then some none
        else project_on_fire_front fd fuel next_cell time

end FireData

/-! ## Plan -/

/-- Modelled from the spec: `Position::dist_squared`, declared in a header that is not part of
the sources; the squared euclidean distance of two positions. -/
def Position.dist_squared (p q : Position) : ℚ := (p.x - q.x) ^ 2 + (p.y - q.y) ^ 2

/-- A `double` that may be the quiet NaN, which is `none`: the cells of a utility map. -/
abbrev NaNDouble := Option ℚ

/-- The addition of two doubles: NaN when either is NaN. -/
def NaNDouble.add : NaNDouble → NaNDouble → NaNDouble
  | some a, some b => some (a + b)
  | _, _ => none

/-- Modelled from the spec: the range `begin() .. end()` of a `GenRaster`, declared in
core/raster.hpp which is not part of the sources; the values of all the cells of the raster,
row after row. -/
def GenRaster.values {α : Type} (r : GenRaster α) : List α :=
  (List.range r.y_height).flatMap (fun (y : Nat) =>
    (List.range r.x_width).map (fun (x : Nat) => r.data x y))

/-- The struct `Plan`. The type `Tr` is the one of a trajectory: core/trajectory.hpp and
core/trajectories.hpp are not part of the sources. -/
structure Plan (Tr : Type) where
  time_window : TimeWindow
  trajectories : List Tr
  firedata : FireData
  possible_observations : List PointTimeWindow
  observed_previously : List PositionTime

namespace Plan

variable {Tr : Type}

/-- The body of the constructor `Plan::Plan`: `obs_prev_cells` and the two loops over the cells
that fill `possible_observations`. -/
def possible_observations_init (firedata : FireData) (time_window : TimeWindow)
    (observed_previously : List PositionTime) : List PointTimeWindow :=
  let obs_prev_cells : List Cell :=
    observed_previously.map (fun pt => firedata.ignitions.as_cell pt.pt)
  (List.range firedata.ignitions.x_width).foldl (fun possible_observations (x : Nat) =>
    (List.range firedata.ignitions.y_height).foldl (fun possible_observations (y : Nat) =>
      let t := firedata.ignitions.data x y
      if time_window.start ≤ t ∧ t ≤ time_window.stop then
        let c : Cell := ⟨x, y⟩
        if c ∉ obs_prev_cells then
          possible_observations ++
            [⟨firedata.ignitions.as_position c,
              ⟨firedata.ignitions.get c, firedata.traversal_end.get c⟩⟩]
        else possible_observations
      else possible_observations) possible_observations) []

/-- The constructor `Plan::Plan(traj_confs, fire_data, tw, observed_previously)`. The member
`trajectories(traj_confs)` is taken as built; the assertion on the start times of the
configurations is a precondition on them. -/
def new (trajectories : List Tr) (fire_data : FireData) (tw : TimeWindow)
    (observed_previously : List PositionTime) : Plan Tr :=
  { time_window := tw
    trajectories := trajectories
    firedata := fire_data
    possible_observations := possible_observations_init fire_data tw observed_previously
    observed_previously := observed_previously }

/-- The method `Plan::observations_full`. The argument `ghost` is the injected ghost fire
mapper: `ghost firedata tr` is what `GhostFireMapper(firedata).observed_fire_locations` returns
on the trajectory `tr` sampled with `sampled_with_time(50)`. -/
def observations_full (ghost : FireData → Tr → List PositionTime) (p : Plan Tr) :
    List PositionTime :=
  p.trajectories.foldl (fun result tr => result ++ ghost p.firedata tr) []

/-- The constant `MAX_INFORMATIVE_DISTANCE`. -/
def MAX_INFORMATIVE_DISTANCE : ℚ := 500

/-- The constant `REDUNDANT_OBS_DIST`. -/
def REDUNDANT_OBS_DIST : ℚ := 50

/-- The inner loop of `utility_comp_radial`: the variable `min_dist` after the loop over the
done observations. -/
def min_dist (possible_obs : PointTimeWindow) (done_obs : List PositionTime) : ℚ :=
  done_obs.foldl (fun min_dist obs => min min_dist (possible_obs.pt.dist_squared obs.pt))
    (MAX_INFORMATIVE_DISTANCE ^ 2)

/-- The value given to `u_map.set` in `utility_comp_radial`. The argument `sqrt` is the C
function `sqrt`, which no function on the rationals computes: it is a parameter, and each
theorem states what it needs of it. -/
def radial_utility (sqrt : ℚ → ℚ) (possible_obs : PointTimeWindow)
    (done_obs : List PositionTime) : ℚ :=
  (max (sqrt (min_dist possible_obs done_obs)) REDUNDANT_OBS_DIST - REDUNDANT_OBS_DIST) /
    (MAX_INFORMATIVE_DISTANCE - REDUNDANT_OBS_DIST)

/-- The method `Plan::utility_comp_radial`. -/
def utility_comp_radial (sqrt : ℚ → ℚ) (ghost : FireData → Tr → List PositionTime)
    (p : Plan Tr) : GenRaster NaNDouble :=
  let u_map : GenRaster NaNDouble := GenRaster.like p.firedata.ignitions none
  let done_obs := observations_full ghost p
  p.possible_observations.foldl (fun u_map possible_obs =>
    u_map.set (u_map.as_cell possible_obs.pt).x (u_map.as_cell possible_obs.pt).y
      (some (radial_utility sqrt possible_obs done_obs))) u_map

/-- The method `Plan::utility_map`. -/
def utility_map (sqrt : ℚ → ℚ) (ghost : FireData → Tr → List PositionTime) (p : Plan Tr) :
    GenRaster NaNDouble :=
  utility_comp_radial sqrt ghost p

/-- The method `Plan::utility`: `std::accumulate` over all the cells of the utility map, from
`0.`. -/
def utility (sqrt : ℚ → ℚ) (ghost : FireData → Tr → List PositionTime) (p : Plan Tr) :
    NaNDouble :=
  (utility_map sqrt ghost p).values.foldl NaNDouble.add (some 0)

end Plan

/-! ## Waypoints, segments, UAV and trajectories -/

/-- The struct `Waypoint3d{x, y, z, dir}`. -/
structure Waypoint3d where
  x : ℚ
  y : ℚ
  z : ℚ
  dir : ℚ
deriving DecidableEq, Inhabited

/-- The ground position of a waypoint, as the rasters read it. -/
def Waypoint3d.position (w : Waypoint3d) : Position := ⟨w.x, w.y⟩

/-- The struct `Segment3d{start, end, length}`; its member `end` is the field `stop`. -/
structure Segment3d where
  start : Waypoint3d
  stop : Waypoint3d
  length : ℚ
deriving DecidableEq, Inhabited

/-- Modelled from the spec: the class `UAV`, declared in uav.h which is not part of the sources;
"pure geometry/kinematics, no state". Its operations are the fields: the speed `v`,
`travel_distance(from, to)`, `visibilty_center(seg)` (as the sources spell it) and
`observation_segment(x, y, heading, length)`. -/
structure UAV where
  speed : ℚ
  travel_distance : Waypoint3d → Waypoint3d → ℚ
  visibilty_center : Segment3d → Waypoint3d
  observation_segment : ℚ → ℚ → ℚ → ℚ → Segment3d

/-- Modelled from the spec: the struct `TrajectoryConfig`, declared in core/trajectory.hpp which
is not part of the sources; `{ uav, start_time, max_duration, fixed_prefix?, fixed_suffix? }`. -/
structure TrajectoryConfig where
  uav : UAV
  start_time : ℚ
  max_duration : ℚ
  fixed_prefix : Option Segment3d
  fixed_suffix : Option Segment3d

/-- The ways in which a call ends without returning normally. A read of `traj[i]` or of
`trajectories[i]` past the end is `out_of_range`; a mutation that the trajectory refuses is
`trajectory_infeasible`. -/
inductive Fault where
  | out_of_range
  | trajectory_infeasible
deriving DecidableEq

/-- The outcome of a call that may loop: `none` when the fuel runs out, a fault, or the value
returned. -/
abbrev Outcome (α : Type) := Option (Except Fault α)

/-- The sequence of two calls: the second one runs when the first one returns. -/
def Outcome.and_then {α β : Type} (o : Outcome α) (f : α → Outcome β) : Outcome β :=
  match o with
  | none => none
  | some (Except.error e) => some (Except.error e)
  | some (Except.ok a) => f a

/-- The value of a signed index in a comparison with a `size_t`, to which it is converted: a
negative index wraps around by 2^64. The sizes are below 2^64, so that an index that is not
negative is unchanged. -/
def to_size_t (z : Int) : Nat := if z < 0 then (z + 2 ^ 64).toNat else z.toNat

/-- Modelled from the spec: the class `Trajectory`, declared in core/trajectory.hpp which is not
part of the sources; an ordered sequence of maneuvers bound to one configuration. The start
times are not stored: the spec has them recomputed from the maneuvers after any mutation. -/
structure Trajectory where
  conf : TrajectoryConfig
  maneuvers : List Segment3d

namespace Trajectory

/-- Modelled from the spec: `size()`. -/
def size (traj : Trajectory) : Nat := traj.maneuvers.length

/-- Modelled from the spec: `traj[i].maneuver`, for an index within the size. -/
def maneuver (traj : Trajectory) (i : Nat) : Segment3d := traj.maneuvers.getD i default

/-- Modelled from the spec: `first_modifiable_maneuver()`; the index 0 is reserved when the
fixed prefix is set. -/
def first_modifiable_maneuver (traj : Trajectory) : Nat :=
  if traj.conf.fixed_prefix.isSome then 1 else 0

/-- Modelled from the spec: `last_modifiable_maneuver()`; the index `size() - 1` is reserved
when the fixed suffix is set. It is an integer, which is `-1` on an empty trajectory. -/
def last_modifiable_maneuver (traj : Trajectory) : Int :=
  (traj.size : Int) - 1 - (if traj.conf.fixed_suffix.isSome then 1 else 0)

/-- Modelled from the spec: `start_time(i)`; the start time of the configuration for the first
maneuver, then "accumulating `travel_distance(prev.end, next.start) / v + segment.length / v`
between consecutive maneuvers". -/
def start_time (traj : Trajectory) : Nat → ℚ
  | 0 => traj.conf.start_time
  | i + 1 =>
    start_time traj i + (traj.maneuver i).length / traj.conf.uav.speed
      + traj.conf.uav.travel_distance (traj.maneuver i).stop (traj.maneuver (i + 1)).start
          / traj.conf.uav.speed

/-- Modelled from the spec: `end_time(i)`. -/
def end_time (traj : Trajectory) (i : Nat) : ℚ :=
  traj.start_time i + (traj.maneuver i).length / traj.conf.uav.speed

/-- Modelled from the spec: `duration()`, the time from the start of the trajectory to the end
of its last maneuver. -/
def duration (traj : Trajectory) : ℚ :=
  if traj.size = 0 then 0 else traj.end_time (traj.size - 1) - traj.conf.start_time

/-- The trajectory with other maneuvers and the same configuration. -/
def with_maneuvers (traj : Trajectory) (maneuvers : List Segment3d) : Trajectory :=
  { traj with maneuvers := maneuvers }

/-- Modelled from the spec: the trajectory that `insert_segment(seg, at)` builds, with the
segment at the index `at` and the maneuvers from this index on moved up by one. -/
def inserted (traj : Trajectory) (seg : Segment3d) (at_index : Nat) : Trajectory :=
  traj.with_maneuvers (traj.maneuvers.take at_index ++ seg :: traj.maneuvers.drop at_index)

/-- Modelled from the spec: the trajectory that `erase_segment(at)` builds, without the
maneuver at the index `at`. -/
def erased (traj : Trajectory) (at_index : Nat) : Trajectory :=
  traj.with_maneuvers (traj.maneuvers.eraseIdx at_index)

/-- Modelled from the spec: the trajectory that `replace_segment(at, new)` builds, with the
segment in place of the maneuver at the index `at`. -/
def replaced (traj : Trajectory) (at_index : Nat) (by_segment : Segment3d) : Trajectory :=
  traj.with_maneuvers (traj.maneuvers.set at_index by_segment)

/-- Modelled from the spec: the outcome of a mutation that builds the trajectory `edited`; "any
mutation violating `duration ≤ max_duration` or touching a fixed slot fails with
trajectory-infeasible", and the trajectory is then left as it was. The argument `slot_free`
says that no fixed slot is touched. -/
def mutation (traj edited : Trajectory) (slot_free : Prop) [Decidable slot_free] :
    Except Fault Trajectory :=
  if slot_free ∧ edited.duration ≤ traj.conf.max_duration then Except.ok edited
  else Except.error Fault.trajectory_infeasible

/-- Modelled from the spec: `insert_segment(seg, at)`. The new maneuver may take any place from
the first modifiable one to the one after the last modifiable one. -/
def insert_segment (traj : Trajectory) (seg : Segment3d) (at_index : Nat) :
    Except Fault Trajectory :=
  traj.mutation (traj.inserted seg at_index)
    (traj.first_modifiable_maneuver ≤ at_index
      ∧ (at_index : Int) ≤ traj.last_modifiable_maneuver + 1)

/-- Modelled from the spec: `erase_segment(at)`, of a modifiable maneuver. -/
def erase_segment (traj : Trajectory) (at_index : Nat) : Except Fault Trajectory :=
  traj.mutation (traj.erased at_index)
    (traj.first_modifiable_maneuver ≤ at_index ∧ (at_index : Int) ≤ traj.last_modifiable_maneuver)

/-- Modelled from the spec: `replace_segment(at, new)`, of a modifiable maneuver. -/
def replace_segment (traj : Trajectory) (at_index : Nat) (by_segment : Segment3d) :
    Except Fault Trajectory :=
  traj.mutation (traj.replaced at_index by_segment)
    (traj.first_modifiable_maneuver ≤ at_index ∧ (at_index : Int) ≤ traj.last_modifiable_maneuver)

end Trajectory

/-- Modelled from the spec: `is_in(position)`, declared in core/raster.hpp which is not part of
the sources; a position is in the raster when its cell is. -/
def GenRaster.is_in_position {α : Type} (r : GenRaster α) (p : Position) : Prop :=
  r.is_in (r.as_cell p)

instance {α : Type} (r : GenRaster α) (p : Position) : Decidable (r.is_in_position p) := by
  unfold GenRaster.is_in_position; infer_instance

/-- The method `FireData::project_on_firefront(seg, uav, time)`, with the fuel of the walk of
`project_on_fire_front`: `none` when the fuel runs out, `some none` for the empty optional. -/
def FireData.project_on_firefront (fd : FireData) (fuel : Nat) (seg : Segment3d) (uav : UAV)
    (time : ℚ) : Option (Option Segment3d) :=
  let center := uav.visibilty_center seg
  if ¬ fd.ignitions.is_in_position center.position then some none
  else
    let cell := fd.ignitions.as_cell center.position
    match fd.project_on_fire_front fuel cell time with
    | none => none
    | some (some projected_cell) =>
      some (some (uav.observation_segment (fd.ignitions.x_coords projected_cell.x)
        (fd.ignitions.y_coords projected_cell.y) seg.start.dir seg.length))
    | some none => some none

/-- The test `a / b > c` of two finite doubles against a finite bound: when `b` is zero the
quotient is infinite with the sign of `a`, or NaN when `a` is zero too, and a comparison with
NaN is false. -/
def div_gt (a b c : ℚ) : Prop := if b = 0 then 0 < a else a / b > c

instance (a b c : ℚ) : Decidable (div_gt a b c) := by
  unfold div_gt; infer_instance

namespace Plan

/-- The loop `for (auto& traj : trajectories.trajectories)` over calls that change the
trajectory in place: it stops at the first call that does not return. -/
def for_each_trajectory (f : Trajectory → Outcome Trajectory) :
    List Trajectory → Outcome (List Trajectory)
  | [] => some (Except.ok [])
  | traj :: rest =>
    Outcome.and_then (f traj) (fun result =>
      Outcome.and_then (for_each_trajectory f rest) (fun results =>
        some (Except.ok (result :: results))))

/-- The plan with other trajectories. -/
def with_trajectories (p : Plan Trajectory) (trajectories : List Trajectory) : Plan Trajectory :=
  { p with trajectories := trajectories }

/-- The loop `while (seg_id <= traj.last_modifiable_maneuver())` of
`Plan::project_on_fire_front` on one trajectory, from the index `seg_id`. The comparison is the
one of `size_t`. The fuel counts the executions of the body, and is also the fuel of each walk
on the cells. -/
def project_on_fire_front_loop (fd : FireData) (walk_fuel : Nat) :
    Nat → Trajectory → Nat → Outcome Trajectory
  | 0, traj, seg_id =>
    if seg_id ≤ to_size_t traj.last_modifiable_maneuver then none else some (Except.ok traj)
  | fuel + 1, traj, seg_id =>
    if seg_id ≤ to_size_t traj.last_modifiable_maneuver then
      if traj.size ≤ seg_id then some (Except.error Fault.out_of_range)
      else
        let seg := traj.maneuver seg_id
        let t := traj.start_time seg_id
        match fd.project_on_firefront walk_fuel seg traj.conf.uav t with
        | none => none
        | some (some projected) =>
          if projected ≠ seg then
            match traj.replace_segment seg_id projected with
            | Except.error e => some (Except.error e)
            | Except.ok replaced =>
              project_on_fire_front_loop fd walk_fuel fuel replaced (seg_id + 1)
          else project_on_fire_front_loop fd walk_fuel fuel traj (seg_id + 1)
        | some none =>
          match traj.erase_segment seg_id with
          | Except.error e => some (Except.error e)
          | Except.ok erased => project_on_fire_front_loop fd walk_fuel fuel erased seg_id
    else some (Except.ok traj)

/-- The method `Plan::project_on_fire_front()`. -/
def project_on_fire_front (fuel : Nat) (p : Plan Trajectory) : Outcome (Plan Trajectory) :=
  Outcome.and_then (for_each_trajectory (fun traj =>
      project_on_fire_front_loop p.firedata fuel fuel traj traj.first_modifiable_maneuver)
      p.trajectories)
    (fun trajectories => some (Except.ok (p.with_trajectories trajectories)))

/-- The loop `while (seg_id < traj.last_modifiable_maneuver())` of `Plan::smooth_trajectory` on
one trajectory, from the index `seg_id`. The comparison is the one of `size_t`. The fuel counts
the executions of the body. The argument `dist` is the euclidean distance
`a.as_point().dist(b.as_point())`, which the sources only call. -/
def smooth_trajectory_loop (dist : Waypoint3d → Waypoint3d → ℚ) :
    Nat → Trajectory → Nat → Outcome Trajectory
  | 0, traj, seg_id =>
    if seg_id < to_size_t traj.last_modifiable_maneuver then none else some (Except.ok traj)
  | fuel + 1, traj, seg_id =>
    if seg_id < to_size_t traj.last_modifiable_maneuver then
      if traj.size ≤ seg_id + 1 then some (Except.error Fault.out_of_range)
      else
        let current := traj.maneuver seg_id
        let next := traj.maneuver (seg_id + 1)
        let euclidian_dist_to_next := dist current.stop next.start
        let dubins_dist_to_next := traj.conf.uav.travel_distance current.stop next.start
        if div_gt dubins_dist_to_next euclidian_dist_to_next 2 then
          match traj.erase_segment (seg_id + 1) with
          | Except.error e => some (Except.error e)
          | Except.ok erased => smooth_trajectory_loop dist fuel erased seg_id
        else smooth_trajectory_loop dist fuel traj (seg_id + 1)
    else some (Except.ok traj)

/-- The method `Plan::smooth_trajectory()`. -/
def smooth_trajectory (dist : Waypoint3d → Waypoint3d → ℚ) (fuel : Nat) (p : Plan Trajectory) :
    Outcome (Plan Trajectory) :=
  Outcome.and_then (for_each_trajectory (fun traj =>
      smooth_trajectory_loop dist fuel traj traj.first_modifiable_maneuver) p.trajectories)
    (fun trajectories => some (Except.ok (p.with_trajectories trajectories)))

/-- The method `Plan::post_process()`. -/
def post_process (dist : Waypoint3d → Waypoint3d → ℚ) (fuel : Nat) (p : Plan Trajectory) :
    Outcome (Plan Trajectory) :=
  Outcome.and_then (project_on_fire_front fuel p) (smooth_trajectory dist fuel)

/-- The plan in which the trajectory `traj_id` has become `traj`: the other trajectories are
untouched. -/
def set_trajectory (p : Plan Trajectory) (traj_id : Nat) (traj : Trajectory) : Plan Trajectory :=
  p.with_trajectories (p.trajectories.set traj_id traj)

/-- The call `trajectories[traj_id].f(..)` of a mutation `f` of the trajectory, followed by
`post_process()` when `do_post_processing` is set. -/
def mutate_trajectory (dist : Waypoint3d → Waypoint3d → ℚ) (fuel : Nat) (p : Plan Trajectory)
    (traj_id : Nat) (f : Trajectory → Except Fault Trajectory) (do_post_processing : Bool) :
    Outcome (Plan Trajectory) :=
  match p.trajectories[traj_id]? with
  | none => some (Except.error Fault.out_of_range)
  | some traj =>
    match f traj with
    | Except.error e => some (Except.error e)
    | Except.ok edited =>
      if do_post_processing then post_process dist fuel (p.set_trajectory traj_id edited)
      else some (Except.ok (p.set_trajectory traj_id edited))

/-- The method `Plan::insert_segment(traj_id, seg, insert_loc, do_post_processing)`; its two
assertions are preconditions. -/
def insert_segment (dist : Waypoint3d → Waypoint3d → ℚ) (fuel : Nat) (p : Plan Trajectory)
    (traj_id : Nat) (seg : Segment3d) (insert_loc : Nat) (do_post_processing : Bool) :
    Outcome (Plan Trajectory) :=
  mutate_trajectory dist fuel p traj_id (fun traj => traj.insert_segment seg insert_loc)
    do_post_processing

/-- The method `Plan::erase_segment(traj_id, at_index, do_post_processing)`; its two assertions
are preconditions. -/
def erase_segment (dist : Waypoint3d → Waypoint3d → ℚ) (fuel : Nat) (p : Plan Trajectory)
    (traj_id : Nat) (at_index : Nat) (do_post_processing : Bool) : Outcome (Plan Trajectory) :=
  mutate_trajectory dist fuel p traj_id (fun traj => traj.erase_segment at_index)
    do_post_processing

/-- The loop `for (i < n_replaced) erase_segment(traj_id, at_index, false)` of
`Plan::replace_segment`, with `n` iterations left. -/
def replace_segment_erasures (dist : Waypoint3d → Waypoint3d → ℚ) (fuel : Nat) (traj_id : Nat)
    (at_index : Nat) : Nat → Plan Trajectory → Outcome (Plan Trajectory)
  | 0, p => some (Except.ok p)
  | n + 1, p =>
    Outcome.and_then (erase_segment dist fuel p traj_id at_index false)
      (replace_segment_erasures dist fuel traj_id at_index n)

/-- The loop `for (i < segments.size()) insert_segment(traj_id, segments.at(i), at_index + i,
false)` of `Plan::replace_segment`, from the index `i` with the segments left. -/
def replace_segment_insertions (dist : Waypoint3d → Waypoint3d → ℚ) (fuel : Nat) (traj_id : Nat)
    (at_index : Nat) : List Segment3d → Nat → Plan Trajectory → Outcome (Plan Trajectory)
  | [], _, p => some (Except.ok p)
  | seg :: segments, i, p =>
    Outcome.and_then (insert_segment dist fuel p traj_id seg (at_index + i) false)
      (replace_segment_insertions dist fuel traj_id at_index segments (i + 1))

/-- The method `Plan::replace_segment(traj_id, at_index, n_replaced, segments)`; its three
assertions are preconditions. -/
def replace_segment (dist : Waypoint3d → Waypoint3d → ℚ) (fuel : Nat) (p : Plan Trajectory)
    (traj_id : Nat) (at_index : Nat) (n_replaced : Nat) (segments : List Segment3d) :
    Outcome (Plan Trajectory) :=
  Outcome.and_then (replace_segment_erasures dist fuel traj_id at_index n_replaced p)
    (fun p1 => Outcome.and_then
      (replace_segment_insertions dist fuel traj_id at_index segments 0 p1)
      (fun p2 => post_process dist fuel p2))

end Plan

/-! ## The observations of a plan within a time window -/

/-- Modelled from the spec: `TimeWindow::contains(other)`, declared in core/waypoint.hpp which
is not part of the sources; "`contains(other)` iff fully nested". -/
def TimeWindow.contains (tw other : TimeWindow) : Prop :=
  tw.start ≤ other.start ∧ other.stop ≤ tw.stop

instance (tw other : TimeWindow) : Decidable (tw.contains other) := by
  unfold TimeWindow.contains; infer_instance

namespace Plan

/-- The method `Plan::observations(const TimeWindow& tw)`. The function `segment_trace`, which
the sources only call, is the parameter `trace`, applied to the segment, the UAV that gives the
depth and the width of the view, and the ignition raster. -/
def observations (trace : Segment3d → UAV → Raster → Option (List Cell)) (p : Plan Trajectory)
    (tw : TimeWindow) : List PositionTime :=
  p.trajectories.foldl (fun obs traj =>
    let drone := traj.conf.uav
    (List.range traj.size).foldl (fun obs seg_id =>
      let seg := traj.maneuver seg_id
      let obs_time := traj.start_time seg_id
      let obs_end_time := traj.end_time seg_id
      let seg_tw : TimeWindow := ⟨obs_time, obs_end_time⟩
      if tw.contains seg_tw then
        match trace seg drone p.firedata.ignitions with
        | some cells =>
          cells.foldl (fun obs c =>
            if p.firedata.ignitions.get c ≤ obs_time ∧ obs_time ≤ p.firedata.traversal_end.get c
            then obs ++ [⟨p.firedata.ignitions.as_position c, traj.start_time seg_id⟩]
            else obs) obs
        | none => obs
      else obs) obs) p.observed_previously

end Plan

/-! ## Dubins paths -/

/-- Modelled from the spec: the length `L` of `Dubins3dPathLength(from, to, r_min, gamma_max)`,
declared in dubins3d.h which is not part of the sources. The spec has three regimes by the
required slope `γ_req = Δz / L_2d_dubins`, where `L_2d_dubins` is the planar Dubins length at
the radius `r_min`; in the low altitude regime, `|γ_req| ≤ γ_max`, "planar Dubins suffices"
and `L = L_2d / cos(γ_req)`. The planar length `dubins_path_length` after `dubins_init`, the
function `cos` and the length in the two other regimes, of which the spec gives no formula,
are parameters. A quotient by zero is taken as zero. -/
def Dubins3dPathLength.L (dubins_path_length : Waypoint3d → Waypoint3d → ℚ → ℚ)
    (cos : ℚ → ℚ) (L_high_or_medium : Waypoint3d → Waypoint3d → ℚ → ℚ → ℚ)
    (orig dest : Waypoint3d) (r_min gamma_max : ℚ) : ℚ :=
  let L_2d := dubins_path_length orig dest r_min
  let gamma_req := (dest.z - orig.z) / L_2d
  if |gamma_req| ≤ gamma_max then L_2d / cos gamma_req
  else L_high_or_medium orig dest r_min gamma_max

/-! ## The gradient in the arithmetic of the doubles -/

namespace FireData

end FireData

/-! ## Specification-side definitions and concrete inputs -/

/-- The eight neighbours of a cell. -/
def neighbours (c : Cell) : List Cell :=
  [⟨c.x - 1, c.y - 1⟩, ⟨c.x - 1, c.y⟩, ⟨c.x - 1, c.y + 1⟩, ⟨c.x, c.y - 1⟩, ⟨c.x, c.y + 1⟩,
   ⟨c.x + 1, c.y - 1⟩, ⟨c.x + 1, c.y⟩, ⟨c.x + 1, c.y + 1⟩]

/-- The ignition times of the 8-neighbours of `c` that are in the grid and eventually ignited. -/
def ignited_neighbour_times (ignitions : Raster) (c : Cell) : List ℚ :=
  ((neighbours c).filter (fun n => ignitions.is_in n ∧ ignitions.get n < DBL_MAX / 2)).map
    ignitions.get

/-- The offsets `(dx, dy)` visited by the two loops of `compute_traversal_ends` over the
neighbourhood of a cell, in the order of the visit. -/
def offsets : List (Int × Int) :=
  [(-1, -1), (-1, 0), (-1, 1), (0, -1), (0, 0), (0, 1), (1, -1), (1, 0), (1, 1)]

/-- The statement that `m` is the maximum of the list `l`: it is in `l` and bounds `l`. -/
def IsMaximumOf (m : ℚ) (l : List ℚ) : Prop := m ∈ l ∧ ∀ v ∈ l, v ≤ m

/-- A raster of 3 by 1 cells of width 1 whose ignition times 0, 100, 200 grow with `x`. -/
def slope : Raster :=
  { x_width := 3, y_height := 1, x_offset := 0, y_offset := 0, cell_width := 1,
    data := fun x _ => 100 * x }

/-- A raster of 4 by 1 cells of width 1 with ignition times 1, 3, 3, 1: two fronts that meet
on the two middle cells. -/
def plateau : Raster :=
  { x_width := 4, y_height := 1, x_offset := 0, y_offset := 0, cell_width := 1,
    data := fun x _ => if x = 1 ∨ x = 2 then 3 else 1 }

/-- A raster of 2 by 1 cells of width 1 with the negative ignition times -5 and -3. -/
def before_origin : Raster :=
  { x_width := 2, y_height := 1, x_offset := 0, y_offset := 0, cell_width := 1,
    data := fun x _ => if x = 0 then -5 else -3 }

/-- The cells of a raster in the order of the two loops `for x .. for y ..`. -/
def grid_cells {α : Type} (r : GenRaster α) : List Cell :=
  (List.range r.x_width).flatMap (fun (x : Nat) =>
    (List.range r.y_height).map (fun (y : Nat) => (⟨x, y⟩ : Cell)))

/-- The element of `possible_observations` that stands for the cell `c`: its position and the
window from its ignition to its traversal end. -/
def Plan.observation_of (fd : FireData) (c : Cell) : PointTimeWindow :=
  ⟨fd.ignitions.as_position c, ⟨fd.ignitions.get c, fd.traversal_end.get c⟩⟩

/-- A raster of 2 by 1 cells of width 1: the first cell ignites at time 10, the second one is
never ignited. -/
def half_burnt : Raster :=
  { x_width := 2, y_height := 1, x_offset := 0, y_offset := 0, cell_width := 1,
    data := fun x _ => if x = 0 then 10 else DBL_MAX }

/-- The statement that `m` is the minimum of the list `l`: it is in `l` and is below `l`. -/
def IsMinimumOf (m : ℚ) (l : List ℚ) : Prop := m ∈ l ∧ ∀ v ∈ l, m ≤ v

/-- The sum of the finite values of a list of doubles, the NaN left out. -/
def finite_sum (l : List NaNDouble) : ℚ := (l.filterMap id).sum

/-- A plan without trajectory on the raster `slope`, with the time window from 0 to 150: the
cell (2, 0), ignited at 200, is outside the window. -/
def slope_plan : Plan Unit := Plan.new [] (FireData.new slope) ⟨0, 150⟩ []

/-- A plan with one trajectory on the raster `slope`, with the time window from 0 to 50: the
cell (0, 0) is its only possible observation. -/
def far_plan : Plan Unit := Plan.new [()] (FireData.new slope) ⟨0, 50⟩ []

/-- A plan without trajectory on the raster `slope`, with the time window from 0 to 200: every
cell of the grid is a possible observation. -/
def full_plan : Plan Unit := Plan.new [] (FireData.new slope) ⟨0, 200⟩ []

/-- A ghost fire mapper that sees, from any trajectory, the single position (600, 0). -/
def far_ghost : FireData → Unit → List PositionTime := fun _ _ => [⟨⟨600, 0⟩, 0⟩]

/-- The number of modifiable maneuvers of a trajectory, from the first to the last. -/
def Trajectory.modifiable_count (traj : Trajectory) : Nat :=
  (traj.last_modifiable_maneuver - traj.first_modifiable_maneuver + 1).toNat

/-- The pair of maneuvers `i`, `i + 1` of a trajectory makes a tight loop: the test of
`smooth_trajectory`. -/
def Trajectory.tight_loop (dist : Waypoint3d → Waypoint3d → ℚ) (traj : Trajectory) (i : Nat) :
    Prop :=
  div_gt (traj.conf.uav.travel_distance (traj.maneuver i).stop (traj.maneuver (i + 1)).start)
    (dist (traj.maneuver i).stop (traj.maneuver (i + 1)).start) 2

/-- The maneuver `i` of a trajectory makes an observation: at its start time the fire is
traversing the cell under its visibility center. -/
def Trajectory.makes_observation (fd : FireData) (traj : Trajectory) (i : Nat) : Prop :=
  fd.ignitions.get (fd.ignitions.as_cell
      (traj.conf.uav.visibilty_center (traj.maneuver i)).position) ≤ traj.start_time i
  ∧ traj.start_time i ≤ fd.traversal_end.get (fd.ignitions.as_cell
      (traj.conf.uav.visibilty_center (traj.maneuver i)).position)

/-- A UAV of speed 1/300 that sees the cell under the start of a segment, builds its
observation segments along the x axis from the point it is given, and travels along the
axes. -/
def slow_uav : UAV :=
  { speed := 1 / 300
    travel_distance := fun a b => |b.x - a.x| + |b.y - a.y|
    visibilty_center := fun seg => seg.start
    observation_segment := fun x y dir length => ⟨⟨x, y, 0, dir⟩, ⟨x + length, y, 0, dir⟩, length⟩ }

/-- The segment of length 0 and heading 0 at the point `(k, 0, 0)`. -/
def s_at (k : ℚ) : Segment3d := ⟨⟨k, 0, 0, 0⟩, ⟨k, 0, 0, 0⟩, 0⟩

/-- The euclidean distance of two waypoints, with the square root of the rationals, exact on
the squares. -/
def euclidean_dist (a b : Waypoint3d) : ℚ :=
  Rat.sqrt ((b.x - a.x) ^ 2 + (b.y - a.y) ^ 2 + (b.z - a.z) ^ 2)

/-- A trajectory configuration for `slow_uav` starting at time 50, with no fixed prefix or
suffix. -/
def slow_conf : TrajectoryConfig :=
  { uav := slow_uav, start_time := 50, max_duration := 10000, fixed_prefix := none,
    fixed_suffix := none }

/-- The trajectory of `slow_uav` made of the given maneuvers. -/
def traj_of (maneuvers : List Segment3d) : Trajectory := ⟨slow_conf, maneuvers⟩

/-- The plan over the slope whose only trajectory is the one of `slow_uav` made of the given
maneuvers. -/
def plan_of (maneuvers : List Segment3d) : Plan Trajectory :=
  Plan.new [traj_of maneuvers] (FireData.new slope) ⟨0, 1000⟩ []

namespace Plan

/-- The observations that the maneuver `seg_id` of a trajectory adds to the list of
`observations(tw)`, as the specification describes them: none unless the window of the
maneuver is inside `tw`, and then the traced cells whose interval from ignition to traversal
end holds the start time, each with this start time. -/
def observations_of_segment (trace : Segment3d → UAV → Raster → Option (List Cell))
    (p : Plan Trajectory) (tw : TimeWindow) (traj : Trajectory) (seg_id : Nat) :
    List PositionTime :=
  if tw.contains ⟨traj.start_time seg_id, traj.end_time seg_id⟩ then
    match trace (traj.maneuver seg_id) traj.conf.uav p.firedata.ignitions with
    | some cells =>
      (cells.filter (fun c => p.firedata.ignitions.get c ≤ traj.start_time seg_id
          ∧ traj.start_time seg_id ≤ p.firedata.traversal_end.get c)).map
        (fun c => ⟨p.firedata.ignitions.as_position c, traj.start_time seg_id⟩)
    | none => []
  else []

end Plan

/-- The cells on which `FireData::project_on_fire_front(cell, time)` is called, from the first
call to the one that returns the cell: the same tests as `FireData.project_on_fire_front`, with
the cells of the calls kept. -/
def FireData.project_on_fire_front_path (fd : FireData) : Nat → Cell → ℚ → Option (Option (List Cell))
  | 0, _, _ => none
  | fuel + 1, cell, time =>
    if time ≥ fd.ignitions.get cell ∧ time ≤ fd.traversal_end.get cell then some (some [cell])
    else
      match fd.next_cell cell time with
      | none => some none
      | some next_cell =>
        if ¬ fd.ignitions.is_in next_cell ∨ ¬ fd.eventually_ignited next_cell then some none
        else (project_on_fire_front_path fd fuel next_cell time).map (Option.map (cell :: ·))

/-- The value `I(a, b)` of the gradient at the cell `c`: the ignition of the neighbour at the
offset `(a, b)` when it is in the grid and eventually ignited, the ignition of `c` otherwise. -/
def neighbour_ignition (ignitions : Raster) (c : Cell) (a b : Int) : ℚ :=
  if ignitions.is_in ⟨c.x + a, c.y + b⟩ ∧ ignitions.get ⟨c.x + a, c.y + b⟩ < DBL_MAX / 2
  then ignitions.get ⟨c.x + a, c.y + b⟩ else ignitions.get c

/-- The component `dx` of the gradient at the cell `c`, as the specification writes it. -/
def gradient_dx (ignitions : Raster) (c : Cell) : ℚ :=
  neighbour_ignition ignitions c 1 (-1) + 2 * neighbour_ignition ignitions c 1 0
    + neighbour_ignition ignitions c 1 1 - neighbour_ignition ignitions c (-1) (-1)
    - 2 * neighbour_ignition ignitions c (-1) 0 - neighbour_ignition ignitions c (-1) 1

/-- The component `dy` of the gradient at the cell `c`, as the specification writes it. -/
def gradient_dy (ignitions : Raster) (c : Cell) : ℚ :=
  neighbour_ignition ignitions c 1 1 + 2 * neighbour_ignition ignitions c 0 1
    + neighbour_ignition ignitions c (-1) 1 - neighbour_ignition ignitions c 1 (-1)
    - 2 * neighbour_ignition ignitions c 0 (-1) - neighbour_ignition ignitions c (-1) (-1)

/-- A raster of 4 by 1 cells of width 1 with ignition times 300, 200, 100 and a last cell that
is never ignited: the fire spreads towards the origin. -/
def ridge : Raster :=
  { x_width := 4, y_height := 1, x_offset := 0, y_offset := 0, cell_width := 1,
    data := fun x _ => if x = 0 then 300 else if x = 1 then 200 else if x = 2 then 100
      else DBL_MAX }

/-- A trajectory configuration for `slow_uav` starting at time 200, with no fixed prefix or
suffix. -/
def late_conf : TrajectoryConfig :=
  { uav := slow_uav, start_time := 200, max_duration := 10000, fixed_prefix := none,
    fixed_suffix := none }

/-- The plan over the plateau whose only trajectory starts at time 200 with one maneuver, of
length 0, at the cell (1, 0). -/
def plateau_plan : Plan Trajectory :=
  Plan.new [⟨late_conf, [s_at 1]⟩] (FireData.new plateau) ⟨0, 1000⟩ []

/-- A strictly increasing function that agrees with the square root at 0, at 2500 and at
250000: the chords of the graph of the square root between these points. -/
def chord_sqrt (x : ℚ) : ℚ := if x ≤ 2500 then x / 50 else 50 + (x - 2500) / 550

/-- A UAV like `slow_uav` whose travel between two points is three times as long as the way
along the axes, as with wide turns. -/
def winding_uav : UAV :=
  { slow_uav with travel_distance := fun a b => 3 * (|b.x - a.x| + |b.y - a.y|) }

/-- The trajectory of `winding_uav` starting at time 50 made of the given maneuvers, with no
fixed prefix or suffix. -/
def winding_traj (maneuvers : List Segment3d) : Trajectory :=
  ⟨{ uav := winding_uav, start_time := 50, max_duration := 10000, fixed_prefix := none,
      fixed_suffix := none }, maneuvers⟩

/-- The plan over the slope whose only trajectory is the one of `winding_uav` made of the
given maneuvers. -/
def winding_plan (maneuvers : List Segment3d) : Plan Trajectory :=
  Plan.new [winding_traj maneuvers] (FireData.new slope) ⟨0, 1000⟩ []

namespace GenRaster

variable {α : Type}

theorem set_data (r : GenRaster α) (x y : Int) (v : α) (a b : Int) :
    (r.set x y v).data a b = if a = x ∧ b = y then v else r.data a b := rfl

/-- The inner loop over `y` writes the column `x` and nothing else. -/
theorem foldl_set_column (f : Nat → α) (x : Int) (h : Nat) (r : GenRaster α) (a b : Int) :
    ((List.range h).foldl (fun r (y : Nat) => r.set x y (f y)) r).data a b
      = if a = x ∧ 0 ≤ b ∧ b < h then f b.toNat else r.data a b := by
  induction h with
  | zero =>
    rw [if_neg]
    · rfl
    · rintro ⟨_, h1, h2⟩; simp at h2; omega
  | succ n ih =>
    rw [List.range_succ, List.foldl_append, List.foldl_cons, List.foldl_nil, set_data, ih]
    push_cast
    split_ifs with h1 <;> first | rfl | (exfalso; omega) | (rw [h1.2, Int.toNat_ofNat])

/-- The double loop over `x` and `y` writes `f x y` in every cell of the shape `w`, `h`. -/
theorem foldl_set_grid (f : Nat → Nat → α) (w h : Nat) (r : GenRaster α) (a b : Int) :
    ((List.range w).foldl (fun r (x : Nat) =>
        (List.range h).foldl (fun r (y : Nat) => r.set x y (f x y)) r) r).data a b
      = if 0 ≤ a ∧ a < w ∧ 0 ≤ b ∧ b < h then f a.toNat b.toNat else r.data a b := by
  induction w with
  | zero =>
    rw [if_neg]
    · rfl
    · rintro ⟨h1, h2, _⟩; simp at h2; omega
  | succ n ih =>
    rw [List.range_succ, List.foldl_append, List.foldl_cons, List.foldl_nil,
      foldl_set_column (fun y => f n y) n h _ a b, ih]
    push_cast
    split_ifs with h1 <;> first | rfl | (exfalso; omega) | (rw [h1.1, Int.toNat_ofNat])

end GenRaster

/-! ## Theorems -/

namespace FireData

/-- Inside the grid, `traversal_end` holds the value computed by the loop body. -/
theorem traversal_end_get (ignitions : Raster) (c : Cell) (hc : ignitions.is_in c) :
    (new ignitions).traversal_end.get c = traversal_end_value ignitions c.x.toNat c.y.toNat := by
  show (compute_traversal_ends ignitions).data c.x c.y = _
  unfold compute_traversal_ends
  rw [GenRaster.foldl_set_grid (fun x y => traversal_end_value ignitions x y)]
  exact if_pos hc

/-- Inside the grid, `propagation_directions` holds the value computed by the loop body. -/
theorem propagation_directions_get (ignitions : Raster) (c : Cell) (hc : ignitions.is_in c) :
    (new ignitions).propagation_directions.get c
      = propagation_direction_value ignitions c.x.toNat c.y.toNat := by
  show (compute_propagation_direction ignitions).data c.x c.y = _
  unfold compute_propagation_direction
  rw [GenRaster.foldl_set_grid (fun x y => propagation_direction_value ignitions x y)]
  exact if_pos hc

theorem data_toNat (ignitions : Raster) (c : Cell) (hc : ignitions.is_in c) :
    ignitions.data (c.x.toNat : Int) (c.y.toNat : Int) = ignitions.get c := by
  rw [Int.toNat_of_nonneg hc.1, Int.toNat_of_nonneg hc.2.2.1]; rfl

/-- The value written by `compute_traversal_ends` is not before the ignition of an ignited
cell, and is the ignition of a cell that is never ignited. -/
theorem traversal_end_value_spec (ignitions : Raster) (x y : Nat) :
    (ignitions.data x y < DBL_MAX / 2 → ignitions.data x y ≤ traversal_end_value ignitions x y)
    ∧ (¬ ignitions.data x y < DBL_MAX / 2 →
        traversal_end_value ignitions x y = ignitions.data x y) := by
  unfold traversal_end_value
  constructor
  · intro h
    rw [if_pos h]
    split_ifs with h1
    · linarith
    · exact le_of_lt (not_le.mp h1)
  · intro h
    rw [if_neg h]

theorem project_on_fire_front_found (fd : FireData) (t : ℚ) :
    ∀ (fuel : Nat) (c r : Cell), fd.ignitions.is_in c →
      fd.project_on_fire_front fuel c t = some (some r) →
      fd.ignitions.is_in r ∧ fd.ignitions.get r ≤ t ∧ t ≤ fd.traversal_end.get r := by
  intro fuel
  induction fuel with
  | zero => intro c r _ h; simp [project_on_fire_front] at h
  | succ n ih =>
    intro c r hc h
    unfold project_on_fire_front at h
    split_ifs at h with h1
    · simp only [Option.some.injEq] at h
      subst h
      exact ⟨hc, h1.1, h1.2⟩
    · split at h
      · simp at h
      · rename_i nc _
        split_ifs at h with h2
        · simp at h
        · push_neg at h2
          exact ih nc r (by simpa using h2.1) h

/-- When the time is inside the interval of the cell, one call returns the cell. -/
theorem project_on_fire_front_inside (fd : FireData) (fuel : Nat) (c : Cell) (t : ℚ)
    (h1 : fd.ignitions.get c ≤ t) (h2 : t ≤ fd.traversal_end.get c) :
    fd.project_on_fire_front (fuel + 1) c t = some (some c) := by
  rw [project_on_fire_front, if_pos ⟨h1, h2⟩]

/-! ### The quantized direction -/

section Quantization

open Real

/-- The test of the x axis, on real numbers. -/
theorem near_axis_iff (x y : ℝ) :
    (|x| + |y|) ^ 2 < 2 * x ^ 2
      ↔ 0 < x ^ 2 - y ^ 2 ∧ 0 < 2 * (x ^ 2 - y ^ 2) ^ 2 - (x ^ 2 + y ^ 2) ^ 2 := by
  have ha : 0 ≤ |x| * |y| := mul_nonneg (abs_nonneg x) (abs_nonneg y)
  have hx : |x| ^ 2 = x ^ 2 := sq_abs x
  have hy : |y| ^ 2 = y ^ 2 := sq_abs y
  have hexp : (|x| + |y|) ^ 2 = x ^ 2 + 2 * (|x| * |y|) + y ^ 2 := by
    rw [← hx, ← hy]; ring
  have h4 : 4 * (|x| * |y|) ^ 2 = (x ^ 2 + y ^ 2) ^ 2 - (x ^ 2 - y ^ 2) ^ 2 := by
    rw [mul_pow, hx, hy]; ring
  rw [hexp]
  constructor
  · intro h
    have hP : 2 * (|x| * |y|) < x ^ 2 - y ^ 2 := by linarith
    refine ⟨by linarith, ?_⟩
    nlinarith
  · rintro ⟨hP, hE⟩
    have : (2 * (|x| * |y|)) ^ 2 < (x ^ 2 - y ^ 2) ^ 2 := by nlinarith
    have := abs_lt_of_sq_lt_sq this hP.le
    have h2 := le_abs_self (2 * (|x| * |y|))
    linarith

/-- The quantities of the tests in polar coordinates. -/
theorem polar_tests (r θ : ℝ) :
    (r * cos θ) ^ 2 - (r * sin θ) ^ 2 = r ^ 2 * cos (2 * θ)
    ∧ 2 * ((r * cos θ) ^ 2 - (r * sin θ) ^ 2) ^ 2 - ((r * cos θ) ^ 2 + (r * sin θ) ^ 2) ^ 2
        = r ^ 4 * cos (4 * θ) := by
  have h2 : cos (2 * θ) = cos θ ^ 2 - sin θ ^ 2 := cos_two_mul' θ
  have h4 : cos (4 * θ) = 2 * cos (2 * θ) ^ 2 - 1 := by
    rw [show 4 * θ = 2 * (2 * θ) by ring, cos_two_mul]
  have h1 : sin θ ^ 2 + cos θ ^ 2 = 1 := sin_sq_add_cos_sq θ
  constructor
  · rw [h2]; ring
  · rw [h4, h2]
    have : (r * cos θ) ^ 2 + (r * sin θ) ^ 2 = r ^ 2 := by
      have : (r * cos θ) ^ 2 + (r * sin θ) ^ 2 = r ^ 2 * (sin θ ^ 2 + cos θ ^ 2) := by ring
      rw [this, h1, mul_one]
    rw [this]
    ring

/-- No rational square is twice a rational square, zero apart. -/
theorem rat_two_mul_sq_ne (p q : ℚ) (hq : q ≠ 0) : 2 * p ^ 2 ≠ q ^ 2 := by
  intro h
  have hp : p ≠ 0 := by
    rintro rfl
    apply hq
    have : q ^ 2 = 0 := by rw [← h]; ring
    exact pow_eq_zero_iff (two_ne_zero) |>.mp this
  have h2 : ((|q / p| : ℚ) : ℝ) ^ 2 = 2 := by
    have : (|q / p| : ℚ) ^ 2 = 2 := by
      rw [sq_abs, div_pow, ← h]
      field_simp
    exact_mod_cast this
  have h3 : Real.sqrt 2 = ((|q / p| : ℚ) : ℝ) := by
    rw [← h2, Real.sqrt_sq]
    exact_mod_cast abs_nonneg (q / p)
  exact irrational_sqrt_two.ne_rat _ h3

theorem cos_nonneg_shift (a : ℝ) (m : ℤ) (h1 : -(π / 2) ≤ a - m * (2 * π))
    (h2 : a - m * (2 * π) ≤ π / 2) : 0 ≤ cos a := by
  rw [← Real.cos_sub_int_mul_two_pi a m]
  exact Real.cos_nonneg_of_mem_Icc ⟨h1, h2⟩

theorem cos_pos_shift (a : ℝ) (m : ℤ) (h1 : -(π / 2) < a - m * (2 * π))
    (h2 : a - m * (2 * π) < π / 2) : 0 < cos a := by
  rw [← Real.cos_sub_int_mul_two_pi a m]
  exact Real.cos_pos_of_mem_Ioo ⟨h1, h2⟩

theorem cos_nonpos_shift (a : ℝ) (m : ℤ) (h1 : π / 2 ≤ a - m * (2 * π))
    (h2 : a - m * (2 * π) ≤ π + π / 2) : cos a ≤ 0 := by
  rw [← Real.cos_sub_int_mul_two_pi a m]
  exact Real.cos_nonpos_of_pi_div_two_le_of_le h1 h2

theorem cos_neg_shift (a : ℝ) (m : ℤ) (h1 : π / 2 < a - m * (2 * π))
    (h2 : a - m * (2 * π) < π + π / 2) : cos a < 0 := by
  rw [← Real.cos_sub_int_mul_two_pi a m]
  exact Real.cos_neg_of_pi_div_two_lt_of_lt h1 h2

/-- The two tests of `discrete_dir`, read on the real numbers. -/
theorem discrete_dir_tests (d : Direction) :
    ((|d.dx| + |d.dy|) ^ 2 < 2 * d.dx ^ 2
      ↔ 0 < (d.dx : ℝ) ^ 2 - (d.dy : ℝ) ^ 2
        ∧ 0 < 2 * ((d.dx : ℝ) ^ 2 - (d.dy : ℝ) ^ 2) ^ 2 - ((d.dx : ℝ) ^ 2 + (d.dy : ℝ) ^ 2) ^ 2)
    ∧ ((|d.dx| + |d.dy|) ^ 2 < 2 * d.dy ^ 2
      ↔ (d.dx : ℝ) ^ 2 - (d.dy : ℝ) ^ 2 < 0
        ∧ 0 < 2 * ((d.dx : ℝ) ^ 2 - (d.dy : ℝ) ^ 2) ^ 2 - ((d.dx : ℝ) ^ 2 + (d.dy : ℝ) ^ 2) ^ 2) := by
  constructor
  · rw [← near_axis_iff, ← Rat.cast_lt (K := ℝ)]
    push_cast
    rfl
  · have h := near_axis_iff (d.dy : ℝ) (d.dx : ℝ)
    have e1 : (|(d.dy : ℝ)| + |(d.dx : ℝ)|) = (|(d.dx : ℝ)| + |(d.dy : ℝ)|) := add_comm _ _
    have e2 : 2 * ((d.dy : ℝ) ^ 2 - (d.dx : ℝ) ^ 2) ^ 2 - ((d.dy : ℝ) ^ 2 + (d.dx : ℝ) ^ 2) ^ 2
        = 2 * ((d.dx : ℝ) ^ 2 - (d.dy : ℝ) ^ 2) ^ 2 - ((d.dx : ℝ) ^ 2 + (d.dy : ℝ) ^ 2) ^ 2 := by
      ring
    rw [e1, e2] at h
    rw [← Rat.cast_lt (K := ℝ)]
    push_cast
    rw [h]
    constructor
    · rintro ⟨h1, h2⟩; exact ⟨by linarith, h2⟩
    · rintro ⟨h1, h2⟩; exact ⟨by linarith, h2⟩

/-- For a rational pair other than (0, 0) the quantity that vanishes on the rounding boundaries
is not zero. -/
theorem boundary_ne_zero (d : Direction) (hne : ¬ (d.dx = 0 ∧ d.dy = 0)) :
    2 * ((d.dx : ℝ) ^ 2 - (d.dy : ℝ) ^ 2) ^ 2 - ((d.dx : ℝ) ^ 2 + (d.dy : ℝ) ^ 2) ^ 2 ≠ 0 := by
  have hq : d.dx ^ 2 + d.dy ^ 2 ≠ 0 := by
    intro h
    apply hne
    have h1 : d.dx ^ 2 = 0 := by nlinarith [sq_nonneg d.dx, sq_nonneg d.dy]
    have h2 : d.dy ^ 2 = 0 := by nlinarith [sq_nonneg d.dx, sq_nonneg d.dy]
    exact ⟨pow_eq_zero_iff (two_ne_zero) |>.mp h1, pow_eq_zero_iff (two_ne_zero) |>.mp h2⟩
  have h := rat_two_mul_sq_ne (d.dx ^ 2 - d.dy ^ 2) (d.dx ^ 2 + d.dy ^ 2) hq
  intro h0
  apply h
  have : (2 * (d.dx ^ 2 - d.dy ^ 2) ^ 2 : ℝ) = ((d.dx : ℝ) ^ 2 + (d.dy : ℝ) ^ 2) ^ 2 := by
    linarith
  exact_mod_cast this

/-- The value of `discrete_dir` from the signs of the coordinates and of the two quantities
`P = dx² - dy²` and `E = 2·P² - (dx² + dy²)²`. -/
theorem discrete_dir_of_signs (d : Direction) (hne : ¬ (d.dx = 0 ∧ d.dy = 0)) :
    (0 ≤ 2 * ((d.dx : ℝ) ^ 2 - (d.dy : ℝ) ^ 2) ^ 2 - ((d.dx : ℝ) ^ 2 + (d.dy : ℝ) ^ 2) ^ 2 →
        0 < (d.dx : ℝ) ^ 2 - (d.dy : ℝ) ^ 2 →
        ((0 : ℝ) < d.dx → discrete_dir d = 0) ∧ ((d.dx : ℝ) < 0 → discrete_dir d = 4))
    ∧ (0 ≤ 2 * ((d.dx : ℝ) ^ 2 - (d.dy : ℝ) ^ 2) ^ 2 - ((d.dx : ℝ) ^ 2 + (d.dy : ℝ) ^ 2) ^ 2 →
        (d.dx : ℝ) ^ 2 - (d.dy : ℝ) ^ 2 < 0 →
        ((0 : ℝ) < d.dy → discrete_dir d = 2) ∧ ((d.dy : ℝ) < 0 → discrete_dir d = 6))
    ∧ (2 * ((d.dx : ℝ) ^ 2 - (d.dy : ℝ) ^ 2) ^ 2 - ((d.dx : ℝ) ^ 2 + (d.dy : ℝ) ^ 2) ^ 2 ≤ 0 →
        ((0 : ℝ) < d.dx → (0 : ℝ) < d.dy → discrete_dir d = 1)
        ∧ ((0 : ℝ) < d.dx → (d.dy : ℝ) < 0 → discrete_dir d = 7)
        ∧ ((d.dx : ℝ) < 0 → (0 : ℝ) < d.dy → discrete_dir d = 3)
        ∧ ((d.dx : ℝ) < 0 → (d.dy : ℝ) < 0 → discrete_dir d = 5)) := by
  have hE := boundary_ne_zero d hne
  obtain ⟨t1, t2⟩ := discrete_dir_tests d
  refine ⟨fun h0 hP => ?_, fun h0 hP => ?_, fun h0 => ?_⟩
  · have hEpos := lt_of_le_of_ne h0 (Ne.symm hE)
    have c1 := t1.mpr ⟨hP, hEpos⟩
    constructor
    · intro hx
      have hx' : 0 < d.dx := by exact_mod_cast hx
      unfold discrete_dir
      rw [if_pos c1, if_pos hx']
    · intro hx
      have hx' : ¬ 0 < d.dx := by
        have : d.dx < 0 := by exact_mod_cast hx
        exact not_lt.mpr this.le
      unfold discrete_dir
      rw [if_pos c1, if_neg hx']
  · have hEpos := lt_of_le_of_ne h0 (Ne.symm hE)
    have c1 : ¬ (|d.dx| + |d.dy|) ^ 2 < 2 * d.dx ^ 2 := fun h => by
      have := (t1.mp h).1
      linarith
    have c2 := t2.mpr ⟨hP, hEpos⟩
    constructor
    · intro hy
      have hy' : 0 < d.dy := by exact_mod_cast hy
      unfold discrete_dir
      rw [if_neg c1, if_pos c2, if_pos hy']
    · intro hy
      have hy' : ¬ 0 < d.dy := by
        have : d.dy < 0 := by exact_mod_cast hy
        exact not_lt.mpr this.le
      unfold discrete_dir
      rw [if_neg c1, if_pos c2, if_neg hy']
  · have c1 : ¬ (|d.dx| + |d.dy|) ^ 2 < 2 * d.dx ^ 2 := fun h => by
      have := (t1.mp h).2
      linarith
    have c2 : ¬ (|d.dx| + |d.dy|) ^ 2 < 2 * d.dy ^ 2 := fun h => by
      have := (t2.mp h).2
      linarith
    have pos : ∀ q : ℚ, (0 : ℝ) < q → 0 < q := fun q h => by exact_mod_cast h
    have neg : ∀ q : ℚ, (q : ℝ) < 0 → ¬ 0 < q := fun q h => by
      have : q < 0 := by exact_mod_cast h
      exact not_lt.mpr this.le
    refine ⟨fun hx hy => ?_, fun hx hy => ?_, fun hx hy => ?_, fun hx hy => ?_⟩
    · unfold discrete_dir
      rw [if_neg c1, if_neg c2, if_neg hne, if_pos (pos _ hx), if_pos (pos _ hy)]
    · unfold discrete_dir
      rw [if_neg c1, if_neg c2, if_neg hne, if_pos (pos _ hx), if_neg (neg _ hy)]
    · unfold discrete_dir
      rw [if_neg c1, if_neg c2, if_neg hne, if_neg (neg _ hx), if_pos (pos _ hy)]
    · unfold discrete_dir
      rw [if_neg c1, if_neg c2, if_neg hne, if_neg (neg _ hx), if_neg (neg _ hy)]

/-- The value of `discrete_dir` from the signs of the cosines and sine of the angle
`θ = atan2(dy, dx)`, of its double and of its quadruple. -/
theorem discrete_dir_of_angle (d : Direction) (hne : ¬ (d.dx = 0 ∧ d.dy = 0)) :
    (0 ≤ cos (4 * Complex.arg ⟨d.dx, d.dy⟩) → 0 < cos (2 * Complex.arg ⟨d.dx, d.dy⟩) →
        (0 < cos (Complex.arg ⟨d.dx, d.dy⟩) → discrete_dir d = 0)
        ∧ (cos (Complex.arg ⟨d.dx, d.dy⟩) < 0 → discrete_dir d = 4))
    ∧ (0 ≤ cos (4 * Complex.arg ⟨d.dx, d.dy⟩) → cos (2 * Complex.arg ⟨d.dx, d.dy⟩) < 0 →
        (0 < sin (Complex.arg ⟨d.dx, d.dy⟩) → discrete_dir d = 2)
        ∧ (sin (Complex.arg ⟨d.dx, d.dy⟩) < 0 → discrete_dir d = 6))
    ∧ (cos (4 * Complex.arg ⟨d.dx, d.dy⟩) ≤ 0 →
        (0 < cos (Complex.arg ⟨d.dx, d.dy⟩) → 0 < sin (Complex.arg ⟨d.dx, d.dy⟩) →
          discrete_dir d = 1)
        ∧ (0 < cos (Complex.arg ⟨d.dx, d.dy⟩) → sin (Complex.arg ⟨d.dx, d.dy⟩) < 0 →
          discrete_dir d = 7)
        ∧ (cos (Complex.arg ⟨d.dx, d.dy⟩) < 0 → 0 < sin (Complex.arg ⟨d.dx, d.dy⟩) →
          discrete_dir d = 3)
        ∧ (cos (Complex.arg ⟨d.dx, d.dy⟩) < 0 → sin (Complex.arg ⟨d.dx, d.dy⟩) < 0 →
          discrete_dir d = 5)) := by
  have hz : (⟨d.dx, d.dy⟩ : ℂ) ≠ 0 := by
    intro h
    apply hne
    have h1 := congrArg Complex.re h
    have h2 := congrArg Complex.im h
    simp only [Complex.zero_re, Complex.zero_im] at h1 h2
    exact ⟨by exact_mod_cast h1, by exact_mod_cast h2⟩
  have hr : 0 < Complex.abs ⟨d.dx, d.dy⟩ := Complex.abs.pos hz
  have hx : (d.dx : ℝ) = Complex.abs ⟨d.dx, d.dy⟩ * cos (Complex.arg ⟨d.dx, d.dy⟩) :=
    (Complex.abs_mul_cos_arg ⟨d.dx, d.dy⟩).symm
  have hy : (d.dy : ℝ) = Complex.abs ⟨d.dx, d.dy⟩ * sin (Complex.arg ⟨d.dx, d.dy⟩) :=
    (Complex.abs_mul_sin_arg ⟨d.dx, d.dy⟩).symm
  obtain ⟨hP, hE⟩ := polar_tests (Complex.abs ⟨d.dx, d.dy⟩) (Complex.arg ⟨d.dx, d.dy⟩)
  rw [← hx, ← hy] at hP hE
  have hr2 : 0 < Complex.abs ⟨d.dx, d.dy⟩ ^ 2 := pow_pos hr 2
  have hr4 : 0 < Complex.abs ⟨d.dx, d.dy⟩ ^ 4 := pow_pos hr 4
  obtain ⟨s1, s2, s3⟩ := discrete_dir_of_signs d hne
  rw [hE, hP] at s1 s2
  rw [hE] at s3
  have xpos : 0 < cos (Complex.arg ⟨d.dx, d.dy⟩) → (0 : ℝ) < d.dx := fun h => by
    rw [hx]; exact mul_pos hr h
  have xneg : cos (Complex.arg ⟨d.dx, d.dy⟩) < 0 → (d.dx : ℝ) < 0 := fun h => by
    rw [hx]; exact mul_neg_of_pos_of_neg hr h
  have ypos : 0 < sin (Complex.arg ⟨d.dx, d.dy⟩) → (0 : ℝ) < d.dy := fun h => by
    rw [hy]; exact mul_pos hr h
  have yneg : sin (Complex.arg ⟨d.dx, d.dy⟩) < 0 → (d.dy : ℝ) < 0 := fun h => by
    rw [hy]; exact mul_neg_of_pos_of_neg hr h
  refine ⟨fun h4 h2 => ?_, fun h4 h2 => ?_, fun h4 => ?_⟩
  · obtain ⟨a, b⟩ := s1 (mul_nonneg hr4.le h4) (mul_pos hr2 h2)
    exact ⟨fun h => a (xpos h), fun h => b (xneg h)⟩
  · obtain ⟨a, b⟩ := s2 (mul_nonneg hr4.le h4) (mul_neg_of_pos_of_neg hr2 h2)
    exact ⟨fun h => a (ypos h), fun h => b (yneg h)⟩
  · obtain ⟨a, b, c, e⟩ := s3 (mul_nonpos_of_nonneg_of_nonpos hr4.le h4)
    exact ⟨fun h k => a (xpos h) (ypos k), fun h k => b (xpos h) (yneg k),
      fun h k => c (xneg h) (ypos k), fun h k => e (xneg h) (yneg k)⟩

/-- The exact quantization is the one of the source, read on the real numbers: with
`θ = atan2(dy, dx)`, which is the argument of the complex number `dx + i·dy`, and with
`positive_modulo(θ, 2π)` being `θ + 2π` for a negative `θ` and `θ` otherwise, the index
`lround(positive_modulo(θ, 2π) / (π/4)) % 8` is `discrete_dir`. -/
theorem discrete_dir_eq_round (d : Direction) :
    discrete_dir d
      = round ((if Complex.arg ⟨d.dx, d.dy⟩ < 0 then Complex.arg ⟨d.dx, d.dy⟩ + 2 * π
          else Complex.arg ⟨d.dx, d.dy⟩) / (π / 4)) % 8 := by
  by_cases hne : d.dx = 0 ∧ d.dy = 0
  · have hz : (⟨d.dx, d.dy⟩ : ℂ) = 0 := by
      rw [hne.1, hne.2]
      apply Complex.ext <;> simp
    rw [hz, Complex.arg_zero, if_neg (lt_irrefl 0), zero_div, round_zero]
    unfold discrete_dir
    rw [hne.1, hne.2]
    simp
  · obtain ⟨a1, a2, a3⟩ := discrete_dir_of_angle d hne
    have hlo := Complex.neg_pi_lt_arg (⟨d.dx, d.dy⟩ : ℂ)
    have hhi := Complex.arg_le_pi (⟨d.dx, d.dy⟩ : ℂ)
    have hpi := Real.pi_pos
    generalize Complex.arg (⟨d.dx, d.dy⟩ : ℂ) = θ at a1 a2 a3 hlo hhi ⊢
    obtain ⟨φ, hφ, hφneg, hφpos⟩ : ∃ φ : ℝ, φ = (if θ < 0 then θ + 2 * π else θ)
        ∧ (θ < 0 → φ = θ + 2 * π) ∧ (¬ θ < 0 → φ = θ) :=
      ⟨_, rfl, fun h => if_pos h, fun h => if_neg h⟩
    rw [← hφ]
    clear hφ
    have hround := abs_le.mp (abs_sub_round (φ / (π / 4)))
    generalize round (φ / (π / 4)) = n at hround ⊢
    have hdiv : φ / (π / 4) * (π / 4) = φ := by field_simp
    have hb1 : (n : ℝ) * (π / 4) - π / 8 ≤ φ := by
      have := mul_le_mul_of_nonneg_right hround.1 (by positivity : (0 : ℝ) ≤ π / 4)
      rw [sub_mul, hdiv] at this
      linarith
    have hb2 : φ ≤ (n : ℝ) * (π / 4) + π / 8 := by
      have := mul_le_mul_of_nonneg_right hround.2 (by positivity : (0 : ℝ) ≤ π / 4)
      rw [sub_mul, hdiv] at this
      linarith
    clear hround hdiv
    have hφ0 : 0 ≤ φ := by
      by_cases h : θ < 0
      · rw [hφneg h]; linarith
      · rw [hφpos h]; linarith
    have hφ2 : φ < 2 * π := by
      by_cases h : θ < 0
      · rw [hφneg h]; linarith
      · rw [hφpos h]; linarith
    have hn0 : 0 ≤ n := by
      have h : (-1 : ℝ) * (π / 4) < (n : ℝ) * (π / 4) := by linarith
      have := lt_of_mul_lt_mul_right h (by positivity : (0 : ℝ) ≤ π / 4)
      have : (-1 : ℤ) < n := by exact_mod_cast this
      omega
    have hn8 : n ≤ 8 := by
      have h : (n : ℝ) * (π / 4) < (9 : ℝ) * (π / 4) := by linarith
      have := lt_of_mul_lt_mul_right h (by positivity : (0 : ℝ) ≤ π / 4)
      have : n < 9 := by exact_mod_cast this
      omega
    by_cases hneg : θ < 0
    · rw [hφneg hneg] at hb1 hb2
      have hsin : sin θ < 0 := Real.sin_neg_of_neg_of_neg_pi_lt hneg hlo
      clear hφneg hφpos hφ0 hφ2
      interval_cases n <;> push_cast at hb1 hb2
      · exfalso; linarith
      · exfalso; linarith
      · exfalso; linarith
      · exfalso; linarith
      · -- -π < θ ≤ -7π/8
        exact (a1 (cos_nonneg_shift _ (-2) (by push_cast; linarith) (by push_cast; linarith))
          (cos_pos_shift _ (-1) (by push_cast; linarith) (by push_cast; linarith))).2
          (cos_neg_shift _ (-1) (by push_cast; linarith) (by push_cast; linarith))
      · -- -7π/8 ≤ θ ≤ -5π/8
        exact (a3 (cos_nonpos_shift _ (-2) (by push_cast; linarith)
          (by push_cast; linarith))).2.2.2
          (cos_neg_shift _ (-1) (by push_cast; linarith) (by push_cast; linarith)) hsin
      · -- -5π/8 ≤ θ ≤ -3π/8
        exact (a2 (cos_nonneg_shift _ (-1) (by push_cast; linarith) (by push_cast; linarith))
          (cos_neg_shift _ (-1) (by push_cast; linarith) (by push_cast; linarith))).2 hsin
      · -- -3π/8 ≤ θ ≤ -π/8
        exact (a3 (cos_nonpos_shift _ (-1) (by push_cast; linarith)
          (by push_cast; linarith))).2.1
          (cos_pos_shift _ 0 (by push_cast; linarith) (by push_cast; linarith)) hsin
      · -- -π/8 ≤ θ < 0
        exact (a1 (cos_nonneg_shift _ 0 (by push_cast; linarith) (by push_cast; linarith))
          (cos_pos_shift _ 0 (by push_cast; linarith) (by push_cast; linarith))).1
          (cos_pos_shift _ 0 (by push_cast; linarith) (by push_cast; linarith))
    · rw [hφpos hneg] at hb1 hb2
      have hθ0 : 0 ≤ θ := not_lt.mp hneg
      clear hφneg hφpos hφ0 hφ2
      interval_cases n <;> push_cast at hb1 hb2
      · -- 0 ≤ θ ≤ π/8
        exact (a1 (cos_nonneg_shift _ 0 (by push_cast; linarith) (by push_cast; linarith))
          (cos_pos_shift _ 0 (by push_cast; linarith) (by push_cast; linarith))).1
          (cos_pos_shift _ 0 (by push_cast; linarith) (by push_cast; linarith))
      · -- π/8 ≤ θ ≤ 3π/8
        exact (a3 (cos_nonpos_shift _ 0 (by push_cast; linarith)
          (by push_cast; linarith))).1
          (cos_pos_shift _ 0 (by push_cast; linarith) (by push_cast; linarith))
          (Real.sin_pos_of_pos_of_lt_pi (by linarith) (by linarith))
      · -- 3π/8 ≤ θ ≤ 5π/8
        exact (a2 (cos_nonneg_shift _ 1 (by push_cast; linarith) (by push_cast; linarith))
          (cos_neg_shift _ 0 (by push_cast; linarith) (by push_cast; linarith))).1
          (Real.sin_pos_of_pos_of_lt_pi (by linarith) (by linarith))
      · -- 5π/8 ≤ θ ≤ 7π/8
        exact (a3 (cos_nonpos_shift _ 1 (by push_cast; linarith)
          (by push_cast; linarith))).2.2.1
          (cos_neg_shift _ 0 (by push_cast; linarith) (by push_cast; linarith))
          (Real.sin_pos_of_pos_of_lt_pi (by linarith) (by linarith))
      · -- 7π/8 ≤ θ ≤ π
        exact (a1 (cos_nonneg_shift _ 2 (by push_cast; linarith) (by push_cast; linarith))
          (cos_pos_shift _ 1 (by push_cast; linarith) (by push_cast; linarith))).2
          (cos_neg_shift _ 0 (by push_cast; linarith) (by push_cast; linarith))
      · exfalso; linarith
      · exfalso; linarith
      · exfalso; linarith
      · exfalso; linarith

end Quantization

/-! ### The constructor on the concrete rasters -/

theorem new_ignitions (ignitions : Raster) : (new ignitions).ignitions = ignitions := rfl

theorem small_lt_half_max (q : ℚ) (h : q ≤ 1000000) : q < DBL_MAX / 2 := by
  have : (1000000 : ℚ) < DBL_MAX / 2 := by unfold DBL_MAX; norm_num
  linarith

theorem plateau_is_in (c : Cell) : plateau.is_in c ↔ (0 ≤ c.x ∧ c.x < 4 ∧ c.y = 0) := by
  unfold GenRaster.is_in plateau
  constructor
  · rintro ⟨h1, h2, h3, h4⟩
    simp at h2 h4
    exact ⟨h1, h2, by omega⟩
  · rintro ⟨h1, h2, h3⟩
    simp
    omega

theorem plateau_traversal_end_1 : (new plateau).traversal_end.get ⟨1, 0⟩ = 183 := by
  rw [traversal_end_get plateau ⟨1, 0⟩ (by rw [plateau_is_in]; simp)]
  simp [traversal_end_value, max_neighbor, plateau, DBL_MAX]
  norm_num

theorem plateau_traversal_end_2 : (new plateau).traversal_end.get ⟨2, 0⟩ = 183 := by
  rw [traversal_end_get plateau ⟨2, 0⟩ (by rw [plateau_is_in]; simp)]
  simp [traversal_end_value, max_neighbor, plateau, DBL_MAX]
  norm_num

theorem plateau_direction_1 :
    discrete_dir ((new plateau).propagation_directions.get ⟨1, 0⟩) = 0 := by
  rw [propagation_directions_get plateau ⟨1, 0⟩ (by rw [plateau_is_in]; simp)]
  simp [propagation_direction_value, prop_dx, prop_dy, default_ignition, plateau, DBL_MAX,
    discrete_dir]
  norm_num

theorem plateau_direction_2 :
    discrete_dir ((new plateau).propagation_directions.get ⟨2, 0⟩) = 4 := by
  rw [propagation_directions_get plateau ⟨2, 0⟩ (by rw [plateau_is_in]; simp)]
  simp [propagation_direction_value, prop_dx, prop_dy, default_ignition, plateau, DBL_MAX,
    discrete_dir]
  norm_num

theorem plateau_next_1 : (new plateau).next_cell ⟨1, 0⟩ 200 = some ⟨2, 0⟩ := by
  unfold next_cell
  rw [plateau_direction_1, plateau_traversal_end_1]
  norm_num [step_dx, step_dy, new_ignitions, plateau_is_in, GenRaster.get]
  norm_num [plateau]

theorem plateau_next_2 : (new plateau).next_cell ⟨2, 0⟩ 200 = some ⟨1, 0⟩ := by
  unfold next_cell
  rw [plateau_direction_2, plateau_traversal_end_2]
  norm_num [step_dx, step_dy, new_ignitions, plateau_is_in, GenRaster.get]
  norm_num [plateau]

/-- On the plateau, at time 200, the call on the cell (1, 0) is the call on the cell (2, 0). -/
theorem plateau_walk_1 (fuel : Nat) :
    (new plateau).project_on_fire_front (fuel + 1) ⟨1, 0⟩ 200
      = (new plateau).project_on_fire_front fuel ⟨2, 0⟩ 200 := by
  rw [project_on_fire_front, plateau_traversal_end_1, plateau_next_1]
  have h3 : (3 : ℚ) < DBL_MAX / 2 := small_lt_half_max 3 (by norm_num)
  norm_num [new_ignitions, plateau_is_in, eventually_ignited, GenRaster.get]
  norm_num [plateau, h3]

/-- On the plateau, at time 200, the call on the cell (2, 0) is the call on the cell (1, 0). -/
theorem plateau_walk_2 (fuel : Nat) :
    (new plateau).project_on_fire_front (fuel + 1) ⟨2, 0⟩ 200
      = (new plateau).project_on_fire_front fuel ⟨1, 0⟩ 200 := by
  rw [project_on_fire_front, plateau_traversal_end_2, plateau_next_2]
  have h3 : (3 : ℚ) < DBL_MAX / 2 := small_lt_half_max 3 (by norm_num)
  norm_num [new_ignitions, plateau_is_in, eventually_ignited, GenRaster.get]
  norm_num [plateau, h3]

theorem plateau_walk_out_of_fuel (fuel : Nat) :
    (new plateau).project_on_fire_front fuel ⟨1, 0⟩ 200 = none
    ∧ (new plateau).project_on_fire_front fuel ⟨2, 0⟩ 200 = none := by
  induction fuel with
  | zero => exact ⟨rfl, rfl⟩
  | succ n ih => exact ⟨(plateau_walk_1 n).trans ih.2, (plateau_walk_2 n).trans ih.1⟩

theorem slope_is_in (c : Cell) : slope.is_in c ↔ (0 ≤ c.x ∧ c.x < 3 ∧ c.y = 0) := by
  unfold GenRaster.is_in slope
  constructor
  · rintro ⟨h1, h2, h3, h4⟩
    simp at h2 h4
    exact ⟨h1, h2, by omega⟩
  · rintro ⟨h1, h2, h3⟩
    simp
    omega

theorem slope_traversal_end_0 : (new slope).traversal_end.get ⟨0, 0⟩ = 100 := by
  rw [traversal_end_get slope ⟨0, 0⟩ (by rw [slope_is_in]; simp)]
  simp [traversal_end_value, max_neighbor, slope, DBL_MAX]
  norm_num

theorem slope_traversal_end_1 : (new slope).traversal_end.get ⟨1, 0⟩ = 200 := by
  rw [traversal_end_get slope ⟨1, 0⟩ (by rw [slope_is_in]; simp)]
  simp [traversal_end_value, max_neighbor, slope, DBL_MAX]
  norm_num

theorem slope_direction_0 :
    discrete_dir ((new slope).propagation_directions.get ⟨0, 0⟩) = 0 := by
  rw [propagation_directions_get slope ⟨0, 0⟩ (by rw [slope_is_in]; simp)]
  simp [propagation_direction_value, prop_dx, prop_dy, default_ignition, slope, DBL_MAX,
    discrete_dir]
  norm_num

theorem slope_next_0 : (new slope).next_cell ⟨0, 0⟩ 150 = some ⟨1, 0⟩ := by
  unfold next_cell
  rw [slope_direction_0, slope_traversal_end_0]
  norm_num [step_dx, step_dy, new_ignitions, slope_is_in, GenRaster.get]
  norm_num [slope]

/-- On the slope, the cell (0, 0) projects at time 150 on its neighbour (1, 0), in two calls. -/
theorem slope_walk : (new slope).project_on_fire_front 2 ⟨0, 0⟩ 150 = some (some ⟨1, 0⟩) := by
  have h100 : (100 : ℚ) < DBL_MAX / 2 := small_lt_half_max 100 (by norm_num)
  have h1 : (new slope).project_on_fire_front 1 ⟨1, 0⟩ 150 = some (some ⟨1, 0⟩) := by
    apply project_on_fire_front_inside
    · norm_num [new_ignitions, GenRaster.get, slope]
    · rw [slope_traversal_end_1]; norm_num
  rw [project_on_fire_front, slope_traversal_end_0, slope_next_0]
  norm_num [new_ignitions, slope_is_in, eventually_ignited, GenRaster.get]
  rw [h1, if_neg (by norm_num [slope, h100])]

/-- Claim C1. For every fire data, every cell `c` of the grid and every time `t`: when
`project_on_fire_front(c, t)` returns a cell `r`, this cell is in the grid and its interval
from ignition to traversal end contains `t`. -/
theorem C1_project_on_fire_front_on_front (fd : FireData) (fuel : Nat) (c r : Cell) (t : ℚ)
    (hc : fd.ignitions.is_in c) (h : fd.project_on_fire_front fuel c t = some (some r)) :
    fd.ignitions.is_in r ∧ fd.ignitions.get r ≤ t ∧ t ≤ fd.traversal_end.get r :=
  project_on_fire_front_found fd t fuel c r hc h

theorem C1_witness :
    (new slope).ignitions.is_in ⟨1, 0⟩ ∧ (new slope).ignitions.get ⟨1, 0⟩ ≤ 150
      ∧ (150 : ℚ) ≤ (new slope).traversal_end.get ⟨1, 0⟩ :=
  C1_project_on_fire_front_on_front (new slope) 2 ⟨0, 0⟩ ⟨1, 0⟩ 150
    (by rw [new_ignitions, slope_is_in]; simp) slope_walk

/-- Claim C2, failing input. On the raster `plateau` (ignition times 1, 3, 3, 1) the walk of
`project_on_fire_front` from the cell (1, 0) at time 200 never returns: whatever the fuel, it
runs out, because the cells (1, 0) and (2, 0) send the walk to each other. -/
theorem C2_plateau_walk_never_returns :
    ∀ fuel : Nat, (new plateau).project_on_fire_front fuel ⟨1, 0⟩ 200 = none :=
  fun fuel => (plateau_walk_out_of_fuel fuel).1

/-- Claim C3. Projection idempotence: when `t` is inside the interval of `c`, the projection of
`c` at `t` is `c` itself, with any fuel of at least one call; hence a cell `r` returned by a
projection at `t` projects on itself at `t`. -/
theorem C3_projection_idempotent (fd : FireData) (t : ℚ) :
    (∀ (c : Cell) (fuel : Nat), fd.ignitions.is_in c →
        fd.ignitions.get c ≤ t → t ≤ fd.traversal_end.get c →
        fd.project_on_fire_front (fuel + 1) c t = some (some c))
    ∧ (∀ (c r : Cell) (fuel fuel_again : Nat), fd.ignitions.is_in c →
        fd.project_on_fire_front fuel c t = some (some r) →
        fd.project_on_fire_front (fuel_again + 1) r t = some (some r)) := by
  constructor
  · intro c fuel _ h1 h2
    exact project_on_fire_front_inside fd fuel c t h1 h2
  · intro c r fuel fuel_again hc h
    obtain ⟨_, h1, h2⟩ := project_on_fire_front_found fd t fuel c r hc h
    exact project_on_fire_front_inside fd fuel_again r t h1 h2

theorem C3_witness :
    (new slope).project_on_fire_front 1 ⟨1, 0⟩ 150 = some (some ⟨1, 0⟩) :=
  (C3_projection_idempotent (new slope) 150).2 ⟨0, 0⟩ ⟨1, 0⟩ 2 0
    (by rw [new_ignitions, slope_is_in]; simp) slope_walk

theorem half_burnt_is_in (c : Cell) : half_burnt.is_in c ↔ (0 ≤ c.x ∧ c.x < 2 ∧ c.y = 0) := by
  unfold GenRaster.is_in half_burnt
  constructor
  · rintro ⟨h1, h2, h3, h4⟩
    simp at h2 h4
    exact ⟨h1, h2, by omega⟩
  · rintro ⟨h1, h2, h3⟩
    simp
    omega

theorem dbl_max_pos : (0 : ℚ) < DBL_MAX := by unfold DBL_MAX; norm_num

theorem half_burnt_traversal_end_0 :
    (new half_burnt).traversal_end.get ⟨0, 0⟩ = 190 := by
  rw [traversal_end_get half_burnt ⟨0, 0⟩ (by rw [half_burnt_is_in]; simp)]
  simp [traversal_end_value, max_neighbor, half_burnt, DBL_MAX]
  norm_num

theorem half_burnt_traversal_end_1 :
    (new half_burnt).traversal_end.get ⟨1, 0⟩ = DBL_MAX := by
  rw [traversal_end_get half_burnt ⟨1, 0⟩ (by rw [half_burnt_is_in]; simp)]
  have h : ¬ (DBL_MAX < DBL_MAX / 2) := by linarith [dbl_max_pos]
  simp [traversal_end_value, half_burnt, h]

/-- Claim C4. For every ignition raster and every cell of the grid that is eventually ignited,
the traversal end computed by the constructor is not before the ignition time. -/
theorem C4_traversal_end_ge_ignitions (ignitions : Raster) (c : Cell)
    (hc : ignitions.is_in c) (hi : (new ignitions).eventually_ignited c) :
    (new ignitions).ignitions.get c ≤ (new ignitions).traversal_end.get c := by
  have h := (traversal_end_value_spec ignitions c.x.toNat c.y.toNat).1
  rw [data_toNat ignitions c hc] at h
  rw [traversal_end_get ignitions c hc]
  exact h hi

theorem C4_witness :
    (new slope).ignitions.get ⟨0, 0⟩ ≤ (new slope).traversal_end.get ⟨0, 0⟩ :=
  C4_traversal_end_ge_ignitions slope ⟨0, 0⟩ (by rw [slope_is_in]; simp)
    (small_lt_half_max _ (by norm_num [new_ignitions, GenRaster.get, slope]))

/-- Claim C6. For every ignition raster and every cell of the grid that is never ignited, the
traversal end computed by the constructor is the ignition value of the cell itself. -/
theorem C6_traversal_end_never_ignited (ignitions : Raster) (c : Cell)
    (hc : ignitions.is_in c) (hi : ¬ (new ignitions).eventually_ignited c) :
    (new ignitions).traversal_end.get c = (new ignitions).ignitions.get c := by
  have h := (traversal_end_value_spec ignitions c.x.toNat c.y.toNat).2
  rw [data_toNat ignitions c hc] at h
  rw [traversal_end_get ignitions c hc]
  exact h hi

theorem C6_witness :
    (new half_burnt).traversal_end.get ⟨1, 0⟩ = (new half_burnt).ignitions.get ⟨1, 0⟩ :=
  C6_traversal_end_never_ignited half_burnt ⟨1, 0⟩ (by rw [half_burnt_is_in]; simp)
    (by
      have h : ¬ (DBL_MAX < DBL_MAX / 2) := by linarith [dbl_max_pos]
      simpa [eventually_ignited, new_ignitions, GenRaster.get, half_burnt] using h)

/-- A fold that keeps the greatest of the start value and the kept values of the list. -/
theorem foldl_max_isMaximumOf {β : Type} (keep : β → Prop) [DecidablePred keep] (val : β → ℚ) :
    ∀ (l : List β) (m : ℚ),
      IsMaximumOf (l.foldl (fun m o => if keep o then max m (val o) else m) m)
        (m :: (l.filter (fun o => keep o)).map val) := by
  intro l
  induction l with
  | nil => intro m; exact ⟨by simp, by simp⟩
  | cons a l ih =>
    intro m
    rw [List.foldl_cons]
    by_cases ha : keep a
    · obtain ⟨h1, h2⟩ := ih (max m (val a))
      simp only [ha, if_true] at h1 h2 ⊢
      rw [List.filter_cons_of_pos (by simpa using ha), List.map_cons]
      constructor
      · rcases List.mem_cons.mp h1 with h | h
        · rw [h]
          rcases max_choice m (val a) with h3 | h3
          · rw [h3]; exact List.mem_cons_self _ _
          · rw [h3]; exact List.mem_cons_of_mem _ (List.mem_cons_self _ _)
        · exact List.mem_cons_of_mem _ (List.mem_cons_of_mem _ h)
      · intro v hv
        have hmax := h2 (max m (val a)) (List.mem_cons_self _ _)
        rcases List.mem_cons.mp hv with h | h
        · rw [h]; exact le_trans (le_max_left _ _) hmax
        · rcases List.mem_cons.mp h with h | h
          · rw [h]; exact le_trans (le_max_right _ _) hmax
          · exact h2 v (List.mem_cons_of_mem _ h)
    · have := ih m
      simp only [ha, if_false]
      rw [List.filter_cons_of_neg (by simpa using ha)]
      exact this

/-- The guards of the loop body of `max_neighbor` keep the offsets other than (0, 0) whose
cell is in the grid and eventually ignited. -/
theorem max_neighbor_step (ignitions : Raster) (x y : Nat) (dx dy : Int)
    (hdx : dx = -1 ∨ dx = 0 ∨ dx = 1) (hdy : dy = -1 ∨ dy = 0 ∨ dy = 1) (m : ℚ) :
    (if dx = 0 ∧ dy = 0 then m
      else if x = 0 ∧ dx < 0 then m
      else if (x : Int) + dx ≥ ignitions.x_width then m
      else if y = 0 ∧ dy < 0 then m
      else if (y : Int) + dy ≥ ignitions.y_height then m
      else if ignitions.data (x + dx) (y + dy) ≥ DBL_MAX / 2 then m
      else max m (ignitions.data (x + dx) (y + dy)))
    = (if (¬ (dx = 0 ∧ dy = 0) ∧ ignitions.is_in ⟨x + dx, y + dy⟩
          ∧ ignitions.get ⟨x + dx, y + dy⟩ < DBL_MAX / 2)
        then max m (ignitions.get ⟨x + dx, y + dy⟩) else m) := by
  unfold GenRaster.is_in GenRaster.get
  by_cases hc : (¬ (dx = 0 ∧ dy = 0)
      ∧ (0 ≤ (x : Int) + dx ∧ (x : Int) + dx < ignitions.x_width
          ∧ 0 ≤ (y : Int) + dy ∧ (y : Int) + dy < ignitions.y_height)
      ∧ ignitions.data (x + dx) (y + dy) < DBL_MAX / 2)
  · rw [if_pos hc, if_neg hc.1, if_neg (by omega), if_neg (by omega), if_neg (by omega),
      if_neg (by omega), if_neg (not_le.mpr hc.2.2)]
  · rw [if_neg hc]
    split_ifs with h1 h2 h3 h4 h5 h6 <;>
      first
        | rfl
        | (exfalso; apply hc; refine ⟨h1, ⟨?_, ?_, ?_, ?_⟩, not_le.mp h6⟩ <;> omega)

theorem max_neighbor_eq_flat (ignitions : Raster) (x y : Nat) :
    max_neighbor ignitions x y =
      offsets.foldl (fun m o =>
          if (¬ (o.1 = 0 ∧ o.2 = 0) ∧ ignitions.is_in ⟨x + o.1, y + o.2⟩
              ∧ ignitions.get ⟨x + o.1, y + o.2⟩ < DBL_MAX / 2)
          then max m (ignitions.get ⟨x + o.1, y + o.2⟩) else m) 0 := by
  have h : max_neighbor ignitions x y = offsets.foldl (fun m o =>
      if o.1 = 0 ∧ o.2 = 0 then m
      else if x = 0 ∧ o.1 < 0 then m
      else if (x : Int) + o.1 ≥ ignitions.x_width then m
      else if y = 0 ∧ o.2 < 0 then m
      else if (y : Int) + o.2 ≥ ignitions.y_height then m
      else if ignitions.data (x + o.1) (y + o.2) ≥ DBL_MAX / 2 then m
      else max m (ignitions.data (x + o.1) (y + o.2))) 0 := by
    unfold max_neighbor offsets
    simp only [List.foldl_cons, List.foldl_nil]
  rw [h]
  apply List.foldl_ext
  intro m o ho
  apply max_neighbor_step
  · simp [offsets] at ho; rcases ho with h | h | h | h | h | h | h | h | h <;> simp [h]
  · simp [offsets] at ho; rcases ho with h | h | h | h | h | h | h | h | h <;> simp [h]

theorem neighbours_eq_offsets (c : Cell) :
    neighbours c = (offsets.filter (fun o => ¬ (o.1 = 0 ∧ o.2 = 0))).map
      (fun o => (⟨c.x + o.1, c.y + o.2⟩ : Cell)) := by
  simp [neighbours, offsets, List.filter, sub_eq_add_neg]

theorem ignited_neighbour_times_eq (ignitions : Raster) (c : Cell) :
    ignited_neighbour_times ignitions c =
      (offsets.filter (fun o => ¬ (o.1 = 0 ∧ o.2 = 0) ∧ ignitions.is_in ⟨c.x + o.1, c.y + o.2⟩
          ∧ ignitions.get ⟨c.x + o.1, c.y + o.2⟩ < DBL_MAX / 2)).map
        (fun o => ignitions.get ⟨c.x + o.1, c.y + o.2⟩) := by
  unfold ignited_neighbour_times
  rw [neighbours_eq_offsets, List.filter_map, List.filter_filter, List.map_map]
  have hp : (fun a : Int × Int =>
      ((fun n => decide (ignitions.is_in n ∧ ignitions.get n < DBL_MAX / 2))
          ∘ fun o : Int × Int => (⟨c.x + o.1, c.y + o.2⟩ : Cell)) a
        && decide ¬(a.1 = 0 ∧ a.2 = 0))
      = (fun o : Int × Int => decide (¬ (o.1 = 0 ∧ o.2 = 0)
          ∧ ignitions.is_in ⟨c.x + o.1, c.y + o.2⟩
          ∧ ignitions.get ⟨c.x + o.1, c.y + o.2⟩ < DBL_MAX / 2)) := by
    funext o
    simp only [Function.comp, Bool.decide_and, Bool.and_comm]
  rw [hp]
  rfl

/-- The variable `max_neighbor` is the maximum of 0 and of the ignition times of the ignited
neighbours in the grid. -/
theorem max_neighbor_isMaximumOf (ignitions : Raster) (x y : Nat) :
    IsMaximumOf (max_neighbor ignitions x y) (0 :: ignited_neighbour_times ignitions ⟨x, y⟩) := by
  rw [max_neighbor_eq_flat, ignited_neighbour_times_eq]
  exact foldl_max_isMaximumOf
    (fun o : Int × Int => ¬ (o.1 = 0 ∧ o.2 = 0) ∧ ignitions.is_in ⟨x + o.1, y + o.2⟩
      ∧ ignitions.get ⟨x + o.1, y + o.2⟩ < DBL_MAX / 2)
    (fun o => ignitions.get ⟨x + o.1, y + o.2⟩) offsets 0

theorem isMaximumOf_unique (m n : ℚ) (l : List ℚ) (hm : IsMaximumOf m l) (hn : IsMaximumOf n l) :
    m = n :=
  le_antisymm (hn.2 m hm.1) (hm.2 n hn.1)

theorem slope_neighbour_times : ignited_neighbour_times slope ⟨0, 0⟩ = [100] := by
  have h100 : (100 : ℚ) < DBL_MAX / 2 := small_lt_half_max 100 (by norm_num)
  simp [ignited_neighbour_times, neighbours, List.filter, GenRaster.is_in, GenRaster.get, slope, h100]

theorem before_origin_neighbour_times : ignited_neighbour_times before_origin ⟨0, 0⟩ = [-3] := by
  have h : (-3 : ℚ) < DBL_MAX / 2 := small_lt_half_max (-3) (by norm_num)
  simp [ignited_neighbour_times, neighbours, List.filter, GenRaster.is_in, GenRaster.get,
    before_origin, h]

theorem before_origin_is_in (c : Cell) :
    before_origin.is_in c ↔ (0 ≤ c.x ∧ c.x < 2 ∧ c.y = 0) := by
  unfold GenRaster.is_in before_origin
  constructor
  · rintro ⟨h1, h2, h3, h4⟩
    simp at h2 h4
    exact ⟨h1, h2, by omega⟩
  · rintro ⟨h1, h2, h3⟩
    simp
    omega

theorem before_origin_traversal_end_0 : (new before_origin).traversal_end.get ⟨0, 0⟩ = 0 := by
  rw [traversal_end_get before_origin ⟨0, 0⟩ (by rw [before_origin_is_in]; simp)]
  simp [traversal_end_value, max_neighbor, before_origin, DBL_MAX]
  norm_num

/-- Claim C5, failing input. On the raster `before_origin` (ignition times -5 and -3) the cell
(0, 0) is ignited, the maximum ignition time of its ignited neighbours is -3, which is after
its own ignition -5, and yet its traversal end is 0 and not -3: the search of the highest
neighbour starts from `max_neighbor = 0`, which no neighbour holds. -/
theorem C5_negative_times_traversal_end :
    before_origin.is_in ⟨0, 0⟩ ∧ (new before_origin).eventually_ignited ⟨0, 0⟩
      ∧ IsMaximumOf (-3) (ignited_neighbour_times before_origin ⟨0, 0⟩)
      ∧ before_origin.get ⟨0, 0⟩ < -3
      ∧ (new before_origin).traversal_end.get ⟨0, 0⟩ = 0
      ∧ (new before_origin).traversal_end.get ⟨0, 0⟩ ≠ -3 := by
  refine ⟨by rw [before_origin_is_in]; simp, ?_, ?_, ?_, before_origin_traversal_end_0, ?_⟩
  · exact small_lt_half_max _ (by norm_num [new_ignitions, GenRaster.get, before_origin])
  · rw [before_origin_neighbour_times]
    exact ⟨by simp, by simp⟩
  · norm_num [GenRaster.get, before_origin]
  · rw [before_origin_traversal_end_0]; norm_num

/-- What `compute_traversal_ends` computes. For every ignition raster and every eventually
ignited cell `c` of the grid, let `m` be the maximum of 0 and of the ignition times of the
8-neighbours of `c` that are in the grid and eventually ignited: the traversal end of `c` is `m`
when `m` is after the ignition of `c`, and the ignition of `c` plus 180 otherwise. When the
ignition of `c` is not negative, `m` may be taken among the neighbours alone, and a cell without
ignited neighbour gets its ignition plus 180. -/
theorem traversal_end_max_with_zero (ignitions : Raster) (c : Cell)
    (hc : ignitions.is_in c) (hi : (new ignitions).eventually_ignited c) :
    (∀ m : ℚ, IsMaximumOf m (0 :: ignited_neighbour_times ignitions c) →
        (ignitions.get c < m → (new ignitions).traversal_end.get c = m)
        ∧ (m ≤ ignitions.get c →
            (new ignitions).traversal_end.get c = ignitions.get c + 180))
    ∧ (0 ≤ ignitions.get c →
        (∀ n : ℚ, IsMaximumOf n (ignited_neighbour_times ignitions c) →
          (ignitions.get c < n → (new ignitions).traversal_end.get c = n)
          ∧ (n ≤ ignitions.get c →
              (new ignitions).traversal_end.get c = ignitions.get c + 180))
        ∧ (ignited_neighbour_times ignitions c = [] →
            (new ignitions).traversal_end.get c = ignitions.get c + 180)) := by
  have hmax := max_neighbor_isMaximumOf ignitions c.x.toNat c.y.toNat
  rw [Int.toNat_of_nonneg hc.1, Int.toNat_of_nonneg hc.2.2.1] at hmax
  have hte : (new ignitions).traversal_end.get c
      = if max_neighbor ignitions c.x.toNat c.y.toNat ≤ ignitions.get c
        then ignitions.get c + 180 else max_neighbor ignitions c.x.toNat c.y.toNat := by
    rw [traversal_end_get ignitions c hc]
    unfold traversal_end_value
    rw [data_toNat ignitions c hc]
    exact if_pos hi
  have main : ∀ m : ℚ, IsMaximumOf m (0 :: ignited_neighbour_times ignitions c) →
      (ignitions.get c < m → (new ignitions).traversal_end.get c = m)
      ∧ (m ≤ ignitions.get c →
          (new ignitions).traversal_end.get c = ignitions.get c + 180) := by
    intro m hm
    have hmm := isMaximumOf_unique _ _ _ hmax hm
    rw [hte, hmm]
    exact ⟨fun h => if_neg (not_le.mpr h), fun h => if_pos h⟩
  refine ⟨main, fun h0 => ⟨?_, ?_⟩⟩
  · intro n hn
    constructor
    · intro hlt
      refine (main n ⟨List.mem_cons_of_mem _ hn.1, ?_⟩).1 hlt
      intro v hv
      rcases List.mem_cons.mp hv with h | h
      · rw [h]; linarith
      · exact hn.2 v h
    · intro hle
      have hm1 := hmax.1
      have hle2 : max_neighbor ignitions c.x.toNat c.y.toNat ≤ ignitions.get c := by
        rcases List.mem_cons.mp hm1 with h | h
        · rw [h]; exact h0
        · exact le_trans (hn.2 _ h) hle
      exact (main _ hmax).2 hle2
  · intro hnil
    rw [hnil] at hmax
    have h : max_neighbor ignitions c.x.toNat c.y.toNat = 0 := by simpa using hmax.1
    rw [hte, h, if_pos h0]

end FireData

namespace Plan

/-- A loop that appends `g y` for the `y` that pass a test is a filter followed by a map. -/
theorem foldl_append_if {β γ : Type} (P : β → Prop) [DecidablePred P] (g : β → γ) :
    ∀ (l : List β) (acc : List γ),
      l.foldl (fun acc y => if P y then acc ++ [g y] else acc) acc
        = acc ++ (l.filter (fun y => P y)).map g := by
  intro l
  induction l with
  | nil => intro acc; simp
  | cons a l ih =>
    intro acc
    rw [List.foldl_cons, ih]
    by_cases ha : P a
    · rw [if_pos ha, List.filter_cons_of_pos (by simpa using ha)]
      simp
    · rw [if_neg ha, List.filter_cons_of_neg (by simpa using ha)]

/-- Two nested loops that append are a filter followed by a map on the cells in loop order. -/
theorem foldl_foldl_append_if {γ : Type} (P : Cell → Prop) [DecidablePred P] (g : Cell → γ)
    (h : Nat) : ∀ (w : Nat) (acc : List γ),
      (List.range w).foldl (fun acc (x : Nat) =>
        (List.range h).foldl (fun acc (y : Nat) =>
          if P ⟨x, y⟩ then acc ++ [g ⟨x, y⟩] else acc) acc) acc
        = acc ++ (((List.range w).flatMap (fun (x : Nat) =>
            (List.range h).map (fun (y : Nat) => (⟨x, y⟩ : Cell)))).filter (fun c => P c)).map g := by
  intro w
  induction w with
  | zero => intro acc; simp
  | succ n ih =>
    intro acc
    rw [List.range_succ, List.foldl_append, ih, List.foldl_cons, List.foldl_nil,
      foldl_append_if (fun (y : Nat) => P ⟨n, y⟩) (fun (y : Nat) => g ⟨n, y⟩)]
    simp [List.flatMap_append, List.filter_map, List.map_map, Function.comp_def]

/-- The constructor pushes the element of every cell, in loop order, whose ignition time is in
the time window and which is not the cell of a point observed previously. -/
theorem possible_observations_init_eq (fd : FireData) (tw : TimeWindow)
    (observed_previously : List PositionTime) :
    possible_observations_init fd tw observed_previously
      = ((grid_cells fd.ignitions).filter (fun c =>
            tw.start ≤ fd.ignitions.get c ∧ fd.ignitions.get c ≤ tw.stop
            ∧ c ∉ observed_previously.map (fun pt => fd.ignitions.as_cell pt.pt))).map
          (observation_of fd) := by
  have h := foldl_foldl_append_if (fun c =>
      tw.start ≤ fd.ignitions.get c ∧ fd.ignitions.get c ≤ tw.stop
        ∧ c ∉ observed_previously.map (fun pt => fd.ignitions.as_cell pt.pt))
      (observation_of fd) fd.ignitions.y_height fd.ignitions.x_width []
  rw [List.nil_append] at h
  rw [grid_cells, ← h]
  unfold possible_observations_init
  apply List.foldl_ext
  intro acc x _
  apply List.foldl_ext
  intro acc y _
  simp only [GenRaster.get, observation_of]
  split_ifs with h1 h2 h3 h4 <;> first | rfl | (exfalso; tauto)

theorem mem_grid_cells {α : Type} (r : GenRaster α) (c : Cell) :
    c ∈ grid_cells r ↔ r.is_in c := by
  unfold grid_cells GenRaster.is_in
  simp only [List.mem_flatMap, List.mem_map, List.mem_range]
  constructor
  · rintro ⟨x, hx, y, hy, rfl⟩
    simp only [Nat.cast_nonneg, Nat.cast_lt, true_and]
    exact ⟨hx, hy⟩
  · rintro ⟨h1, h2, h3, h4⟩
    refine ⟨c.x.toNat, by omega, c.y.toNat, by omega, ?_⟩
    rw [Int.toNat_of_nonneg h1, Int.toNat_of_nonneg h3]

/-- Claim C7, counterexample. On the raster `half_burnt`, with the time window from 0 to
`DBL_MAX` and nothing observed previously, the constructor puts the cell (1, 0) in
`possible_observations` although this cell is never ignited. -/
theorem C7_counterexample_never_ignited :
    ¬ (FireData.new half_burnt).eventually_ignited ⟨1, 0⟩
    ∧ (Plan.new ([] : List Unit) (FireData.new half_burnt) ⟨0, DBL_MAX⟩ []).possible_observations
        = [⟨⟨0, 0⟩, ⟨10, 190⟩⟩, ⟨⟨1, 0⟩, ⟨DBL_MAX, DBL_MAX⟩⟩] := by
  constructor
  · have h : ¬ (DBL_MAX < DBL_MAX / 2) := by linarith [FireData.dbl_max_pos]
    simpa [FireData.eventually_ignited, FireData.new_ignitions, GenRaster.get, half_burnt] using h
  · show possible_observations_init _ _ _ = _
    rw [possible_observations_init_eq]
    have hg : grid_cells (FireData.new half_burnt).ignitions = [⟨0, 0⟩, ⟨1, 0⟩] := by
      simp [grid_cells, FireData.new_ignitions, half_burnt, List.range_succ]
    have h10 : (10 : ℚ) ≤ DBL_MAX := le_of_lt (by
      have := FireData.small_lt_half_max 10 (by norm_num); linarith [FireData.dbl_max_pos])
    have ho0 : observation_of (FireData.new half_burnt) ⟨0, 0⟩ = ⟨⟨0, 0⟩, ⟨10, 190⟩⟩ := by
      unfold observation_of
      rw [FireData.half_burnt_traversal_end_0]
      simp [FireData.new_ignitions, GenRaster.get, GenRaster.as_position, GenRaster.x_coords,
        GenRaster.y_coords, half_burnt]
    have ho1 : observation_of (FireData.new half_burnt) ⟨1, 0⟩
        = ⟨⟨1, 0⟩, ⟨DBL_MAX, DBL_MAX⟩⟩ := by
      unfold observation_of
      rw [FireData.half_burnt_traversal_end_1]
      simp [FireData.new_ignitions, GenRaster.get, GenRaster.as_position, GenRaster.x_coords,
        GenRaster.y_coords, half_burnt]
    have hi0 : (FireData.new half_burnt).ignitions.get ⟨0, 0⟩ = 10 := by
      simp [FireData.new_ignitions, GenRaster.get, half_burnt]
    have hi1 : (FireData.new half_burnt).ignitions.get ⟨1, 0⟩ = DBL_MAX := by
      simp [FireData.new_ignitions, GenRaster.get, half_burnt]
    rw [hg]
    simp [List.filter, ho0, ho1, hi0, hi1, h10, le_of_lt FireData.dbl_max_pos]

/-- Claim C7, amended. For every fire data, time window and list `observed_previously`, the
list `possible_observations` built by the constructor holds, in the order of the loops, the
element of each cell of the grid whose ignition time is in the time window and which is not
the cell of a point of `observed_previously`, and of no other cell: whether the cell is
eventually ignited plays no part. When the end of the window is below `DBL_MAX / 2` the cells
kept are all eventually ignited, and the claim holds as it stands. -/
theorem C7_possible_observations {Tr : Type} (trajectories : List Tr) (fd : FireData)
    (tw : TimeWindow) (observed_previously : List PositionTime) :
    (Plan.new trajectories fd tw observed_previously).possible_observations
      = ((grid_cells fd.ignitions).filter (fun c =>
            tw.start ≤ fd.ignitions.get c ∧ fd.ignitions.get c ≤ tw.stop
            ∧ c ∉ observed_previously.map (fun pt => fd.ignitions.as_cell pt.pt))).map
          (observation_of fd)
    ∧ (∀ c : Cell, c ∈ grid_cells fd.ignitions ↔ fd.ignitions.is_in c)
    ∧ (tw.stop < DBL_MAX / 2 →
        (Plan.new trajectories fd tw observed_previously).possible_observations
          = ((grid_cells fd.ignitions).filter (fun c =>
                fd.eventually_ignited c
                ∧ tw.start ≤ fd.ignitions.get c ∧ fd.ignitions.get c ≤ tw.stop
                ∧ c ∉ observed_previously.map (fun pt => fd.ignitions.as_cell pt.pt))).map
              (observation_of fd)) := by
  refine ⟨possible_observations_init_eq fd tw observed_previously, mem_grid_cells fd.ignitions,
    fun hstop => ?_⟩
  show possible_observations_init fd tw observed_previously = _
  rw [possible_observations_init_eq]
  congr 1
  apply List.filter_congr
  intro c _
  have hiff : (tw.start ≤ fd.ignitions.get c ∧ fd.ignitions.get c ≤ tw.stop
        ∧ c ∉ observed_previously.map (fun pt => fd.ignitions.as_cell pt.pt))
      ↔ (fd.eventually_ignited c
        ∧ tw.start ≤ fd.ignitions.get c ∧ fd.ignitions.get c ≤ tw.stop
        ∧ c ∉ observed_previously.map (fun pt => fd.ignitions.as_cell pt.pt)) := by
    constructor
    · intro h
      exact ⟨lt_of_le_of_lt h.2.1 hstop, h⟩
    · intro h
      exact h.2
  exact decide_eq_decide.mpr hiff

theorem C7_witness :
    far_plan.possible_observations
      = ((grid_cells (FireData.new slope).ignitions).filter (fun c =>
            (FireData.new slope).eventually_ignited c
            ∧ (0 : ℚ) ≤ (FireData.new slope).ignitions.get c
            ∧ (FireData.new slope).ignitions.get c ≤ 50
            ∧ c ∉ ([] : List PositionTime).map
                (fun pt => (FireData.new slope).ignitions.as_cell pt.pt))).map
          (observation_of (FireData.new slope)) :=
  (C7_possible_observations [()] (FireData.new slope) ⟨0, 50⟩ []).2.2
    (FireData.small_lt_half_max 50 (by norm_num))

theorem lround_intCast (z : Int) : lround (z : ℚ) = z := by
  unfold lround
  split_ifs with h
  · rw [Int.floor_eq_iff]
    constructor <;> norm_num
  · have : ⌊-(z : ℚ) + 1 / 2⌋ = -z := by
      rw [Int.floor_eq_iff]
      constructor <;> push_cast <;> norm_num
    rw [this, neg_neg]

/-- With a cell width other than zero, the cell of the position of a cell is this cell. -/
theorem as_cell_as_position {α : Type} (r : GenRaster α) (hw : r.cell_width ≠ 0) (c : Cell) :
    r.as_cell (r.as_position c) = c := by
  unfold GenRaster.as_cell GenRaster.as_position GenRaster.x_index GenRaster.y_index
    GenRaster.x_coords GenRaster.y_coords
  have hx : (r.x_offset + r.cell_width * (c.x : ℚ) - r.x_offset) / r.cell_width = (c.x : ℚ) := by
    field_simp
  have hy : (r.y_offset + r.cell_width * (c.y : ℚ) - r.y_offset) / r.cell_width = (c.y : ℚ) := by
    field_simp
  simp only [hx, hy, lround_intCast]

/-- A loop of writes leaves alone the cells that are the cell of no element of the list. -/
theorem foldl_set_untouched {β : Type} (f : PointTimeWindow → β) (a b : Int) :
    ∀ (l : List PointTimeWindow) (u : GenRaster β),
      (∀ p ∈ l, u.as_cell p.pt ≠ ⟨a, b⟩) →
      (l.foldl (fun u p => u.set (u.as_cell p.pt).x (u.as_cell p.pt).y (f p)) u).data a b
        = u.data a b := by
  intro l
  induction l with
  | nil => intro u _; rfl
  | cons q l ih =>
    intro u h
    rw [List.foldl_cons, ih (u.set (u.as_cell q.pt).x (u.as_cell q.pt).y (f q))
      (fun p hp => h p (List.mem_cons_of_mem _ hp)), GenRaster.set_data, if_neg]
    rintro ⟨h1, h2⟩
    apply h q (List.mem_cons_self _ _)
    rw [h1, h2]

/-- After a loop of writes, a cell that is the cell of an element of the list holds the value
of the elements of which it is the cell, when they all agree on it. -/
theorem foldl_set_written {β : Type} (f : PointTimeWindow → β) (a b : Int) (v : β) :
    ∀ (l : List PointTimeWindow) (u : GenRaster β),
      (∃ p ∈ l, u.as_cell p.pt = ⟨a, b⟩) →
      (∀ p ∈ l, u.as_cell p.pt = ⟨a, b⟩ → f p = v) →
      (l.foldl (fun u p => u.set (u.as_cell p.pt).x (u.as_cell p.pt).y (f p)) u).data a b
        = v := by
  intro l
  induction l with
  | nil => intro u h; simp at h
  | cons q l ih =>
    intro u hex hall
    rw [List.foldl_cons]
    by_cases hl : ∃ p ∈ l, u.as_cell p.pt = ⟨a, b⟩
    · exact ih (u.set (u.as_cell q.pt).x (u.as_cell q.pt).y (f q)) hl
        (fun p hp hpc => hall p (List.mem_cons_of_mem _ hp) hpc)
    · have hq : u.as_cell q.pt = ⟨a, b⟩ := by
        obtain ⟨p, hp, hpc⟩ := hex
        rcases List.mem_cons.mp hp with h | h
        · rw [← h]; exact hpc
        · exact absurd ⟨p, h, hpc⟩ hl
      rw [foldl_set_untouched f a b l (u.set (u.as_cell q.pt).x (u.as_cell q.pt).y (f q))
        (fun p hp hpc => hl ⟨p, hp, hpc⟩), GenRaster.set_data,
        if_pos (by rw [hq]; exact ⟨rfl, rfl⟩)]
      exact hall q (List.mem_cons_self _ _) hq

/-- The loop of `utility_comp_radial` keeps the shape of the map. -/
theorem foldl_set_shape {β : Type} (f : PointTimeWindow → β) :
    ∀ (l : List PointTimeWindow) (u : GenRaster β),
      (l.foldl (fun u p => u.set (u.as_cell p.pt).x (u.as_cell p.pt).y (f p)) u).x_width
          = u.x_width
      ∧ (l.foldl (fun u p => u.set (u.as_cell p.pt).x (u.as_cell p.pt).y (f p)) u).y_height
          = u.y_height := by
  intro l
  induction l with
  | nil => intro u; exact ⟨rfl, rfl⟩
  | cons q l ih =>
    intro u
    rw [List.foldl_cons]
    exact ih (u.set (u.as_cell q.pt).x (u.as_cell q.pt).y (f q))

theorem utility_map_shape {Tr : Type} (sqrt : ℚ → ℚ) (ghost : FireData → Tr → List PositionTime)
    (p : Plan Tr) :
    (utility_map sqrt ghost p).x_width = p.firedata.ignitions.x_width
    ∧ (utility_map sqrt ghost p).y_height = p.firedata.ignitions.y_height :=
  foldl_set_shape _ p.possible_observations (GenRaster.like p.firedata.ignitions none)

/-- The utility map of a plan built by the constructor, cell by cell: the radial utility of the
cell when it is a possible observation, NaN otherwise. -/
theorem utility_map_get {Tr : Type} (sqrt : ℚ → ℚ) (ghost : FireData → Tr → List PositionTime)
    (trajectories : List Tr) (fd : FireData) (tw : TimeWindow)
    (observed_previously : List PositionTime) (hw : fd.ignitions.cell_width ≠ 0) (c : Cell) :
    (utility_map sqrt ghost (Plan.new trajectories fd tw observed_previously)).get c
      = if fd.ignitions.is_in c ∧ tw.start ≤ fd.ignitions.get c ∧ fd.ignitions.get c ≤ tw.stop
            ∧ c ∉ observed_previously.map (fun pt => fd.ignitions.as_cell pt.pt)
        then some (radial_utility sqrt (observation_of fd c)
          (observations_full ghost (Plan.new trajectories fd tw observed_previously)))
        else none := by
  have hcell : ∀ c0 : Cell,
      (GenRaster.like fd.ignitions (none : NaNDouble)).as_cell (observation_of fd c0).pt = c0 :=
    fun c0 => as_cell_as_position fd.ignitions hw c0
  have hpo : (Plan.new trajectories fd tw observed_previously).possible_observations = _ :=
    possible_observations_init_eq fd tw observed_previously
  unfold utility_map utility_comp_radial GenRaster.get
  simp only []
  rw [hpo]
  split_ifs with h
  · apply foldl_set_written
    · refine ⟨observation_of fd c, ?_, hcell c⟩
      apply List.mem_map_of_mem
      rw [List.mem_filter]
      exact ⟨(mem_grid_cells _ _).mpr h.1, by simpa [GenRaster.get] using h.2⟩
    · intro q hq hqc
      obtain ⟨c0, _, rfl⟩ := List.mem_map.mp hq
      have hc : c0 = c := (hcell c0).symm.trans hqc
      rw [hc]
  · rw [foldl_set_untouched]
    · rfl
    · intro q hq hqc
      obtain ⟨c0, hc0, rfl⟩ := List.mem_map.mp hq
      have hc : c0 = c := (hcell c0).symm.trans hqc
      rw [List.mem_filter] at hc0
      apply h
      rw [← hc]
      exact ⟨(mem_grid_cells _ _).mp hc0.1, by simpa [GenRaster.get] using hc0.2⟩

/-- The variable `min_dist` is the minimum of the square of `MAX_INFORMATIVE_DISTANCE` and of
the squared distances to the done observations. -/
theorem min_dist_isMinimumOf (p : PointTimeWindow) :
    ∀ (done_obs : List PositionTime) (m : ℚ),
      IsMinimumOf (done_obs.foldl (fun m obs => min m (p.pt.dist_squared obs.pt)) m)
        (m :: done_obs.map (fun obs => p.pt.dist_squared obs.pt)) := by
  intro l
  induction l with
  | nil => intro m; exact ⟨by simp, by simp⟩
  | cons a l ih =>
    intro m
    rw [List.foldl_cons, List.map_cons]
    obtain ⟨h1, h2⟩ := ih (min m (p.pt.dist_squared a.pt))
    constructor
    · rcases List.mem_cons.mp h1 with h | h
      · rw [h]
        rcases min_choice m (p.pt.dist_squared a.pt) with h3 | h3
        · rw [h3]; exact List.mem_cons_self _ _
        · rw [h3]; exact List.mem_cons_of_mem _ (List.mem_cons_self _ _)
      · exact List.mem_cons_of_mem _ (List.mem_cons_of_mem _ h)
    · intro v hv
      have hmin := h2 (min m (p.pt.dist_squared a.pt)) (List.mem_cons_self _ _)
      rcases List.mem_cons.mp hv with h | h
      · rw [h]; exact le_trans hmin (min_le_left _ _)
      · rcases List.mem_cons.mp h with h | h
        · rw [h]; exact le_trans hmin (min_le_right _ _)
        · exact h2 v (List.mem_cons_of_mem _ h)

theorem isMinimumOf_unique (m n : ℚ) (l : List ℚ) (hm : IsMinimumOf m l) (hn : IsMinimumOf n l) :
    m = n :=
  le_antisymm (hm.2 n hn.1) (hn.2 m hm.1)

theorem grid_cells_length {α : Type} (r : GenRaster α) :
    (grid_cells r).length = r.x_width * r.y_height := by
  simp [grid_cells, List.length_flatMap, Function.comp_def]

theorem values_length {α : Type} (r : GenRaster α) :
    r.values.length = r.y_height * r.x_width := by
  simp [GenRaster.values, List.length_flatMap, Function.comp_def]

theorem mem_values {α : Type} (r : GenRaster α) (v : α) (hv : v ∈ r.values) :
    ∃ c : Cell, r.is_in c ∧ r.get c = v := by
  unfold GenRaster.values at hv
  simp only [List.mem_flatMap, List.mem_map, List.mem_range] at hv
  obtain ⟨y, hy, x, hx, rfl⟩ := hv
  refine ⟨⟨x, y⟩, ?_, rfl⟩
  unfold GenRaster.is_in
  simp only [Nat.cast_nonneg, Nat.cast_lt, true_and]
  exact ⟨hx, hy⟩

/-- The sum by `std::accumulate` of a list of doubles that all are 1 is the length of the list
added to the start value. -/
theorem foldl_add_ones : ∀ (l : List NaNDouble) (acc : ℚ), (∀ v ∈ l, v = some 1) →
    l.foldl NaNDouble.add (some acc) = some (acc + l.length) := by
  intro l
  induction l with
  | nil => intro acc _; simp
  | cons a l ih =>
    intro acc h
    rw [List.foldl_cons, h a (List.mem_cons_self _ _)]
    show l.foldl NaNDouble.add (some (acc + 1)) = _
    rw [ih (acc + 1) (fun v hv => h v (List.mem_cons_of_mem _ hv))]
    simp only [List.length_cons]
    push_cast
    rw [add_assoc, add_comm (1 : ℚ)]

/-- Without done observation the value written for a possible observation is 1, as soon as
`sqrt` is exact on the square of 500. -/
theorem radial_utility_nil (sqrt : ℚ → ℚ) (hsqrt : sqrt (500 ^ 2) = 500) (p : PointTimeWindow) :
    radial_utility sqrt p [] = 1 := by
  unfold radial_utility min_dist MAX_INFORMATIVE_DISTANCE REDUNDANT_OBS_DIST
  rw [List.foldl_nil, hsqrt]
  norm_num

/-- The value written for a possible observation depends on its position only. -/
theorem radial_utility_congr (sqrt : ℚ → ℚ) (p q : PointTimeWindow)
    (done_obs : List PositionTime) (h : p.pt = q.pt) :
    radial_utility sqrt p done_obs = radial_utility sqrt q done_obs := by
  unfold radial_utility min_dist
  rw [h]

/-- Two possible observations of a plan built by the constructor that fall in the same cell
have the same position: with a cell width other than zero they come from the same cell, and
with the cell width zero every cell has the position of the origin of the raster. -/
theorem possible_observations_same_cell (fd : FireData) (tw : TimeWindow)
    (observed_previously : List PositionTime) (q p : PointTimeWindow)
    (hq : q ∈ possible_observations_init fd tw observed_previously)
    (hp : p ∈ possible_observations_init fd tw observed_previously)
    (h : fd.ignitions.as_cell q.pt = fd.ignitions.as_cell p.pt) : q.pt = p.pt := by
  rw [possible_observations_init_eq] at hq hp
  obtain ⟨c1, _, rfl⟩ := List.mem_map.mp hq
  obtain ⟨c2, _, rfl⟩ := List.mem_map.mp hp
  by_cases hw : fd.ignitions.cell_width = 0
  · show fd.ignitions.as_position c1 = fd.ignitions.as_position c2
    unfold GenRaster.as_position GenRaster.x_coords GenRaster.y_coords
    rw [hw]
    simp
  · have e1 : fd.ignitions.as_cell (observation_of fd c1).pt = c1 :=
      as_cell_as_position fd.ignitions hw c1
    have e2 : fd.ignitions.as_cell (observation_of fd c2).pt = c2 :=
      as_cell_as_position fd.ignitions hw c2
    rw [e1, e2] at h
    rw [h]

/-! ### The concrete plans -/

theorem rat_sqrt_250000 : Rat.sqrt 250000 = 500 := by
  rw [show (250000 : ℚ) = 500 * 500 by norm_num, Rat.sqrt_eq]
  norm_num

theorem rat_sqrt_360000 : Rat.sqrt 360000 = 600 := by
  rw [show (360000 : ℚ) = 600 * 600 by norm_num, Rat.sqrt_eq]
  norm_num

theorem slope_cell_width : (FireData.new slope).ignitions.cell_width ≠ 0 := by
  norm_num [FireData.new_ignitions, slope]

theorem slope_as_cell_origin : (FireData.new slope).ignitions.as_cell ⟨0, 0⟩ = ⟨0, 0⟩ := by
  have h := as_cell_as_position (FireData.new slope).ignitions slope_cell_width ⟨0, 0⟩
  simpa [GenRaster.as_position, GenRaster.x_coords, GenRaster.y_coords, FireData.new_ignitions,
    slope] using h

theorem far_plan_possible_observations :
    far_plan.possible_observations = [⟨⟨0, 0⟩, ⟨0, 100⟩⟩] := by
  show possible_observations_init _ _ _ = _
  rw [possible_observations_init_eq]
  have hg : grid_cells (FireData.new slope).ignitions = [⟨0, 0⟩, ⟨1, 0⟩, ⟨2, 0⟩] := by
    simp [grid_cells, FireData.new_ignitions, slope, List.range_succ]
  have ho0 : observation_of (FireData.new slope) ⟨0, 0⟩ = ⟨⟨0, 0⟩, ⟨0, 100⟩⟩ := by
    unfold observation_of
    rw [FireData.slope_traversal_end_0]
    simp [FireData.new_ignitions, GenRaster.get, GenRaster.as_position, GenRaster.x_coords,
      GenRaster.y_coords, slope]
  have hi0 : (FireData.new slope).ignitions.get ⟨0, 0⟩ = 0 := by
    simp [FireData.new_ignitions, GenRaster.get, slope]
  have hi1 : (FireData.new slope).ignitions.get ⟨1, 0⟩ = 100 := by
    simp [FireData.new_ignitions, GenRaster.get, slope]
  have hi2 : (FireData.new slope).ignitions.get ⟨2, 0⟩ = 200 := by
    norm_num [FireData.new_ignitions, GenRaster.get, slope]
  rw [hg]
  norm_num [List.filter, ho0, hi0, hi1, hi2]

theorem far_plan_observations :
    observations_full far_ghost far_plan = [⟨⟨600, 0⟩, 0⟩] := rfl

/-- On `far_plan`, whose only done observation is 600 away from the cell (0, 0), the utility
map holds 1 at this cell. -/
theorem far_plan_utility :
    (utility_map Rat.sqrt far_ghost far_plan).get ⟨0, 0⟩ = some 1 := by
  unfold far_plan
  rw [utility_map_get Rat.sqrt far_ghost [()] (FireData.new slope) ⟨0, 50⟩ [] slope_cell_width,
    if_pos]
  · have h := far_plan_observations
    unfold far_plan at h
    rw [h]
    unfold radial_utility min_dist MAX_INFORMATIVE_DISTANCE REDUNDANT_OBS_DIST
    have hmin : min ((500 : ℚ) ^ 2)
        ((observation_of (FireData.new slope) ⟨0, 0⟩).pt.dist_squared ⟨600, 0⟩) = 250000 := by
      norm_num [observation_of, Position.dist_squared, GenRaster.as_position,
        GenRaster.x_coords, GenRaster.y_coords, FireData.new_ignitions, slope]
    rw [List.foldl_cons, List.foldl_nil, hmin, rat_sqrt_250000]
    norm_num
  · refine ⟨by rw [FireData.new_ignitions, FireData.slope_is_in]; simp, ?_⟩
    norm_num [FireData.new_ignitions, GenRaster.get, slope]

/-- Claim C9, counterexample. On `far_plan` the cell (0, 0) is the only possible observation and
the only done observation is at the squared distance 360000 from it (600 away). With a square
root that is exact on squares the claimed value is 11/9, and the utility map holds 1. -/
theorem C9_counterexample_far_observation :
    far_plan.possible_observations = [⟨⟨0, 0⟩, ⟨0, 100⟩⟩]
    ∧ IsMinimumOf 360000 ((observations_full far_ghost far_plan).map
        (fun obs => (⟨0, 0⟩ : Position).dist_squared obs.pt))
    ∧ (max (Rat.sqrt 360000) 50 - 50) / (500 - 50) = (11 / 9 : ℚ)
    ∧ (utility_map Rat.sqrt far_ghost far_plan).get
        (far_plan.firedata.ignitions.as_cell ⟨0, 0⟩) = some 1
    ∧ (utility_map Rat.sqrt far_ghost far_plan).get
        (far_plan.firedata.ignitions.as_cell ⟨0, 0⟩)
          ≠ some ((max (Rat.sqrt 360000) 50 - 50) / (500 - 50)) := by
  have hcell : far_plan.firedata.ignitions.as_cell ⟨0, 0⟩ = ⟨0, 0⟩ := slope_as_cell_origin
  have hval : (max (Rat.sqrt 360000) 50 - 50) / (500 - 50) = (11 / 9 : ℚ) := by
    rw [rat_sqrt_360000]; norm_num
  refine ⟨far_plan_possible_observations, ?_, hval, ?_, ?_⟩
  · rw [far_plan_observations]
    norm_num [IsMinimumOf, Position.dist_squared]
  · rw [hcell]; exact far_plan_utility
  · rw [hcell, far_plan_utility, hval]
    norm_num

/-- Claim C9, amended. For every plan built by the constructor and every possible observation
`p`, the utility map holds at the cell of `p` the value `(max (sqrt d) 50 - 50) / (500 - 50)`
where `d` is the minimum of the square of 500 and of the squared distances from `p` to the
points of `observations_full()`: the distance is capped at 500, and `d` is the square of 500
when there is no done observation. -/
theorem C9_radial_utility_capped {Tr : Type} (sqrt : ℚ → ℚ)
    (ghost : FireData → Tr → List PositionTime) (trajectories : List Tr) (fd : FireData)
    (tw : TimeWindow) (observed_previously : List PositionTime) (p : PointTimeWindow)
    (hp : p ∈ (Plan.new trajectories fd tw observed_previously).possible_observations)
    (d : ℚ)
    (hd : IsMinimumOf d (500 ^ 2 ::
      (observations_full ghost (Plan.new trajectories fd tw observed_previously)).map
        (fun obs => p.pt.dist_squared obs.pt))) :
    (utility_map sqrt ghost (Plan.new trajectories fd tw observed_previously)).get
        (fd.ignitions.as_cell p.pt)
      = some ((max (sqrt d) 50 - 50) / (500 - 50)) := by
  have hmin := min_dist_isMinimumOf p
    (observations_full ghost (Plan.new trajectories fd tw observed_previously))
    (MAX_INFORMATIVE_DISTANCE ^ 2)
  have hdd : min_dist p
      (observations_full ghost (Plan.new trajectories fd tw observed_previously)) = d :=
    isMinimumOf_unique _ _ _ hmin hd
  have hval : radial_utility sqrt p
      (observations_full ghost (Plan.new trajectories fd tw observed_previously))
        = (max (sqrt d) 50 - 50) / (500 - 50) := by
    unfold radial_utility
    rw [hdd]
    rfl
  rw [← hval]
  unfold utility_map utility_comp_radial GenRaster.get
  simp only []
  apply foldl_set_written
  · exact ⟨p, hp, rfl⟩
  · intro q hq hqc
    rw [radial_utility_congr sqrt q p _
      (possible_observations_same_cell fd tw observed_previously q p hq hp hqc)]

theorem C9_witness :
    (utility_map Rat.sqrt far_ghost far_plan).get
        ((FireData.new slope).ignitions.as_cell (⟨⟨0, 0⟩, ⟨0, 100⟩⟩ : PointTimeWindow).pt)
      = some ((max (Rat.sqrt 250000) 50 - 50) / (500 - 50)) :=
  C9_radial_utility_capped Rat.sqrt far_ghost [()] (FireData.new slope) ⟨0, 50⟩ []
    ⟨⟨0, 0⟩, ⟨0, 100⟩⟩ (by rw [show Plan.new [()] (FireData.new slope) ⟨0, 50⟩ [] = far_plan from rfl,
      far_plan_possible_observations]; simp) 250000
    (by
      rw [show Plan.new [()] (FireData.new slope) ⟨0, 50⟩ [] = far_plan from rfl,
        far_plan_observations]
      norm_num [IsMinimumOf, Position.dist_squared])

theorem slope_plan_observations (ghost : FireData → Unit → List PositionTime) :
    observations_full ghost slope_plan = [] := rfl

/-- The utility map of `slope_plan`: the radial utility without observation on the two cells in
the time window, NaN on the third cell. -/
theorem slope_plan_utility_map (sqrt : ℚ → ℚ) (ghost : FireData → Unit → List PositionTime) :
    (utility_map sqrt ghost slope_plan).values
      = [some ((max (sqrt (500 ^ 2)) 50 - 50) / (500 - 50)),
         some ((max (sqrt (500 ^ 2)) 50 - 50) / (500 - 50)), none] := by
  have hshape := utility_map_shape sqrt ghost slope_plan
  have hget := utility_map_get sqrt ghost [] (FireData.new slope) ⟨0, 150⟩ [] slope_cell_width
  have hobs : observations_full ghost (Plan.new [] (FireData.new slope) ⟨0, 150⟩ []) = [] := rfl
  have hrad : ∀ p : PointTimeWindow,
      radial_utility sqrt p [] = (max (sqrt (500 ^ 2)) 50 - 50) / (500 - 50) := fun _ => rfl
  have h0 := hget ⟨0, 0⟩
  have h1 := hget ⟨1, 0⟩
  have h2 := hget ⟨2, 0⟩
  rw [if_pos ⟨by rw [FireData.new_ignitions, FireData.slope_is_in]; simp,
    by norm_num [FireData.new_ignitions, GenRaster.get, slope]⟩, hobs, hrad] at h0
  rw [if_pos ⟨by rw [FireData.new_ignitions, FireData.slope_is_in]; simp,
    by norm_num [FireData.new_ignitions, GenRaster.get, slope]⟩, hobs, hrad] at h1
  rw [if_neg (by norm_num [FireData.new_ignitions, GenRaster.get, slope])] at h2
  unfold GenRaster.values
  rw [hshape.1, hshape.2]
  have hw : slope_plan.firedata.ignitions.x_width = 3 := rfl
  have hh : slope_plan.firedata.ignitions.y_height = 1 := rfl
  rw [hw, hh]
  simp only [List.range_succ, List.range_zero, List.nil_append, List.cons_append,
    List.flatMap_cons, List.flatMap_nil, List.map_cons, List.map_nil, List.append_nil]
  exact congrArg₂ List.cons h0 (congrArg₂ List.cons h1 (congrArg₂ List.cons h2 rfl))

/-- Claim C8, failing input. On `slope_plan`, whose third cell is outside the time window and
so holds NaN in the utility map, `utility()` is NaN for every square root function and every
ghost mapper, while the sum of the finite cells of the map is the sum of the two others. -/
theorem C8_utility_nan_outside_window (sqrt : ℚ → ℚ)
    (ghost : FireData → Unit → List PositionTime) :
    (utility_map sqrt ghost slope_plan).values
      = [some ((max (sqrt (500 ^ 2)) 50 - 50) / (500 - 50)),
         some ((max (sqrt (500 ^ 2)) 50 - 50) / (500 - 50)), none]
    ∧ utility sqrt ghost slope_plan = none
    ∧ finite_sum (utility_map sqrt ghost slope_plan).values
        = (max (sqrt (500 ^ 2)) 50 - 50) / (500 - 50)
          + (max (sqrt (500 ^ 2)) 50 - 50) / (500 - 50) := by
  refine ⟨slope_plan_utility_map sqrt ghost, ?_, ?_⟩
  · unfold utility
    rw [slope_plan_utility_map]
    rfl
  · rw [slope_plan_utility_map]
    simp [finite_sum]

/-- Claim C10. For every plan built by the constructor whose trajectories yield no observation,
with a square root that is exact on the square of 500: the utility map holds exactly 1 at the
cell of every possible observation; and when moreover the cell width is not zero and every cell
of the grid is a possible observation, `utility()` is the size of `possible_observations`. -/
theorem C10_utility_without_observation {Tr : Type} (sqrt : ℚ → ℚ)
    (ghost : FireData → Tr → List PositionTime) (trajectories : List Tr) (fd : FireData)
    (tw : TimeWindow) (observed_previously : List PositionTime)
    (hsqrt : sqrt (500 ^ 2) = 500)
    (hnone : observations_full ghost (Plan.new trajectories fd tw observed_previously) = []) :
    (∀ p ∈ (Plan.new trajectories fd tw observed_previously).possible_observations,
        (utility_map sqrt ghost (Plan.new trajectories fd tw observed_previously)).get
          (fd.ignitions.as_cell p.pt) = some 1)
    ∧ (fd.ignitions.cell_width ≠ 0 →
        (∀ c : Cell, fd.ignitions.is_in c →
          observation_of fd c
            ∈ (Plan.new trajectories fd tw observed_previously).possible_observations) →
        utility sqrt ghost (Plan.new trajectories fd tw observed_previously)
          = some ((Plan.new trajectories fd tw
              observed_previously).possible_observations.length : ℚ)) := by
  have hone : ∀ p ∈ (Plan.new trajectories fd tw observed_previously).possible_observations,
      (utility_map sqrt ghost (Plan.new trajectories fd tw observed_previously)).get
        (fd.ignitions.as_cell p.pt) = some 1 := by
    intro p hp
    unfold utility_map utility_comp_radial GenRaster.get
    simp only []
    apply foldl_set_written
    · exact ⟨p, hp, rfl⟩
    · intro q _ _
      rw [hnone, radial_utility_nil sqrt hsqrt]
  refine ⟨hone, ?_⟩
  intro hw hall
  have hcells : ∀ c : Cell, fd.ignitions.is_in c →
      (utility_map sqrt ghost (Plan.new trajectories fd tw observed_previously)).get c
        = some 1 := by
    intro c hc
    have h := hone _ (hall c hc)
    have hcell : fd.ignitions.as_cell (observation_of fd c).pt = c :=
      as_cell_as_position fd.ignitions hw c
    rw [hcell] at h
    exact h
  have hshape := utility_map_shape sqrt ghost (Plan.new trajectories fd tw observed_previously)
  have hvals : ∀ v ∈ (utility_map sqrt ghost
      (Plan.new trajectories fd tw observed_previously)).values, v = some 1 := by
    intro v hv
    obtain ⟨c, hc, rfl⟩ := mem_values _ v hv
    apply hcells
    unfold GenRaster.is_in at hc ⊢
    rw [hshape.1, hshape.2] at hc
    exact hc
  have hlen : (Plan.new trajectories fd tw observed_previously).possible_observations.length
      = fd.ignitions.x_width * fd.ignitions.y_height := by
    have hpo : (Plan.new trajectories fd tw observed_previously).possible_observations = _ :=
      possible_observations_init_eq fd tw observed_previously
    have hfilter : (grid_cells fd.ignitions).filter (fun c =>
        tw.start ≤ fd.ignitions.get c ∧ fd.ignitions.get c ≤ tw.stop
        ∧ c ∉ observed_previously.map (fun pt => fd.ignitions.as_cell pt.pt))
        = grid_cells fd.ignitions := by
      rw [List.filter_eq_self]
      intro c hc
      have hin := hall c ((mem_grid_cells _ _).mp hc)
      rw [hpo] at hin
      obtain ⟨c0, hc0, hcc⟩ := List.mem_map.mp hin
      have h0 : c0 = c := by
        have e1 := as_cell_as_position fd.ignitions hw c0
        have e2 := as_cell_as_position fd.ignitions hw c
        have e3 : (observation_of fd c0).pt = (observation_of fd c).pt := by rw [hcc]
        have e4 : fd.ignitions.as_position c0 = fd.ignitions.as_position c := e3
        rw [← e1, e4, e2]
      rw [List.mem_filter] at hc0
      rw [← h0]
      exact hc0.2
    rw [hpo, List.length_map, hfilter, grid_cells_length]
  unfold utility
  rw [foldl_add_ones _ 0 hvals, values_length, hshape.1, hshape.2, hlen]
  congr 1
  push_cast
  show (0 : ℚ) + (fd.ignitions.y_height : ℚ) * (fd.ignitions.x_width : ℚ)
    = (fd.ignitions.x_width : ℚ) * (fd.ignitions.y_height : ℚ)
  ring

theorem full_plan_all_possible (c : Cell) (hc : (FireData.new slope).ignitions.is_in c) :
    observation_of (FireData.new slope) c ∈ full_plan.possible_observations := by
  have hpo : full_plan.possible_observations = _ :=
    possible_observations_init_eq (FireData.new slope) ⟨0, 200⟩ []
  rw [hpo]
  apply List.mem_map_of_mem
  rw [List.mem_filter]
  refine ⟨(mem_grid_cells _ _).mpr hc, ?_⟩
  rw [FireData.new_ignitions, FireData.slope_is_in] at hc
  have h1 : (0 : ℚ) ≤ (c.x : ℚ) := by exact_mod_cast hc.1
  have h2 : (c.x : ℚ) ≤ 2 := by
    have : c.x ≤ 2 := by omega
    exact_mod_cast this
  have hget : (FireData.new slope).ignitions.get c = 100 * (c.x : ℚ) := rfl
  simp only [hget, List.map_nil, List.not_mem_nil, not_false_eq_true, and_true,
    decide_eq_true_eq]
  constructor <;> linarith

theorem C10_witness :
    utility Rat.sqrt far_ghost full_plan = some (full_plan.possible_observations.length : ℚ) :=
  (C10_utility_without_observation Rat.sqrt far_ghost [] (FireData.new slope) ⟨0, 200⟩ []
    (by rw [show ((500 : ℚ) ^ 2) = 250000 by norm_num]; exact rat_sqrt_250000) rfl).2
    slope_cell_width full_plan_all_possible

end Plan

/-! ## The utility as a function of the done observations -/

namespace Plan

end Plan

/-! ## The projection of segments over the slope -/

namespace FireData

theorem slope_traversal_end_2 : (new slope).traversal_end.get ⟨2, 0⟩ = 380 := by
  rw [traversal_end_get slope ⟨2, 0⟩ (by rw [slope_is_in]; simp)]
  simp [traversal_end_value, max_neighbor, slope, DBL_MAX]
  norm_num

theorem slope_direction_1 :
    discrete_dir ((new slope).propagation_directions.get ⟨1, 0⟩) = 0 := by
  rw [propagation_directions_get slope ⟨1, 0⟩ (by rw [slope_is_in]; simp)]
  simp [propagation_direction_value, prop_dx, prop_dy, default_ignition, slope, DBL_MAX,
    discrete_dir]
  norm_num

theorem slope_direction_2 :
    discrete_dir ((new slope).propagation_directions.get ⟨2, 0⟩) = 0 := by
  rw [propagation_directions_get slope ⟨2, 0⟩ (by rw [slope_is_in]; simp)]
  simp [propagation_direction_value, prop_dx, prop_dy, default_ignition, slope, DBL_MAX,
    discrete_dir]
  norm_num

/-- On the slope, after the traversal end of the cell (1, 0) the walk steps east. -/
theorem slope_next_1 (t : ℚ) (ht : 200 < t) : (new slope).next_cell ⟨1, 0⟩ t = some ⟨2, 0⟩ := by
  unfold next_cell
  rw [slope_direction_1, slope_traversal_end_1]
  simp only [gt_iff_lt, if_pos ht]
  norm_num [step_dx, step_dy, new_ignitions, slope_is_in, GenRaster.get]
  norm_num [slope]

/-- On the slope, after the traversal end of the cell (2, 0) the walk leaves the grid. -/
theorem slope_next_2 (t : ℚ) (ht : 380 < t) : (new slope).next_cell ⟨2, 0⟩ t = none := by
  unfold next_cell
  rw [slope_direction_2, slope_traversal_end_2]
  simp only [gt_iff_lt, if_pos ht]
  norm_num [step_dx, step_dy, new_ignitions, slope_is_in, GenRaster.get]

/-- On the slope, a cell of the grid whose interval holds the time projects on itself. -/
theorem slope_walk_0 (fuel : Nat) :
    (new slope).project_on_fire_front (fuel + 1) ⟨0, 0⟩ 50 = some (some ⟨0, 0⟩) := by
  apply project_on_fire_front_inside
  · norm_num [new_ignitions, GenRaster.get, slope]
  · rw [slope_traversal_end_0]; norm_num

/-- On the slope, the cell (1, 0) projects at time 350 on its neighbour (2, 0). -/
theorem slope_walk_1 (fuel : Nat) :
    (new slope).project_on_fire_front (fuel + 2) ⟨1, 0⟩ 350 = some (some ⟨2, 0⟩) := by
  have h200 : (200 : ℚ) < DBL_MAX / 2 := small_lt_half_max 200 (by norm_num)
  have h2 : (new slope).project_on_fire_front (fuel + 1) ⟨2, 0⟩ 350 = some (some ⟨2, 0⟩) := by
    apply project_on_fire_front_inside
    · norm_num [new_ignitions, GenRaster.get, slope]
    · rw [slope_traversal_end_2]; norm_num
  rw [project_on_fire_front, slope_traversal_end_1, slope_next_1 350 (by norm_num)]
  norm_num [new_ignitions, slope_is_in, eventually_ignited, GenRaster.get]
  rw [h2, if_neg (by norm_num [slope, h200])]

/-- On the slope, the cell (2, 0) has no projection at time 650: the fire has left the grid. -/
theorem slope_walk_2 (fuel : Nat) :
    (new slope).project_on_fire_front (fuel + 1) ⟨2, 0⟩ 650 = some none := by
  rw [project_on_fire_front, slope_traversal_end_2, slope_next_2 650 (by norm_num)]
  norm_num

/-- On the slope, the cell of the point `(z, 0)` is `(z, 0)`. -/
theorem slope_as_cell (z : Int) : (new slope).ignitions.as_cell ⟨(z : ℚ), 0⟩ = ⟨z, 0⟩ := by
  unfold GenRaster.as_cell GenRaster.x_index GenRaster.y_index
  have h1 : ((z : ℚ) - (new slope).ignitions.x_offset) / (new slope).ignitions.cell_width
      = (z : ℚ) := by
    norm_num [new_ignitions, slope]
  have h2 : ((0 : ℚ) - (new slope).ignitions.y_offset) / (new slope).ignitions.cell_width
      = ((0 : Int) : ℚ) := by
    norm_num [new_ignitions, slope]
  rw [h1, h2, Plan.lround_intCast, Plan.lround_intCast]

/-- A segment that starts at `(z, 0)`, seen by `slow_uav` over the slope: its projection is the
observation segment at the projection of the cell `(z, 0)`, when this cell is in the grid. -/
theorem slope_project_segment (fuel : Nat) (seg : Segment3d) (z : Int)
    (hx : seg.start.x = z) (hy : seg.start.y = 0) (t : ℚ) :
    (new slope).project_on_firefront fuel seg slow_uav t
      = if ¬ (0 ≤ z ∧ z < 3) then some none
        else match (new slope).project_on_fire_front fuel ⟨z, 0⟩ t with
          | none => none
          | some (some c) =>
            some (some ⟨⟨c.x, c.y, 0, seg.start.dir⟩, ⟨c.x + seg.length, c.y, 0, seg.start.dir⟩,
              seg.length⟩)
          | some none => some none := by
  unfold project_on_firefront
  have hc : (slow_uav.visibilty_center seg).position = ⟨(z : ℚ), 0⟩ := by
    rw [← hx, ← hy]; rfl
  simp only [hc, slope_as_cell, GenRaster.is_in_position]
  have hin : (new slope).ignitions.is_in ⟨z, 0⟩ ↔ (0 ≤ z ∧ z < 3) := by
    rw [new_ignitions, slope_is_in]; simp
  by_cases h : 0 ≤ z ∧ z < 3
  · rw [if_neg (not_not.mpr (hin.mpr h)), if_neg (not_not.mpr h)]
    cases (new slope).project_on_fire_front fuel ⟨z, 0⟩ t with
    | none => rfl
    | some r =>
      cases r with
      | none => rfl
      | some c =>
        simp only [slow_uav, new_ignitions, GenRaster.x_coords, GenRaster.y_coords, slope]
        norm_num
  · rw [if_pos (fun hh => h (hin.mp hh)), if_pos h]

theorem slope_project_0 (fuel : Nat) :
    (new slope).project_on_firefront (fuel + 1) (s_at 0) slow_uav 50 = some (some (s_at 0)) := by
  rw [slope_project_segment (fuel + 1) (s_at 0) 0 (by norm_num [s_at]) rfl 50, slope_walk_0]
  norm_num [s_at]

theorem slope_project_1 (fuel : Nat) :
    (new slope).project_on_firefront (fuel + 2) (s_at 1) slow_uav 350 = some (some (s_at 2)) := by
  rw [slope_project_segment (fuel + 2) (s_at 1) 1 (by norm_num [s_at]) rfl 350, slope_walk_1]
  norm_num [s_at]

theorem slope_project_2 (fuel : Nat) :
    (new slope).project_on_firefront (fuel + 1) (s_at 2) slow_uav 650 = some none := by
  rw [slope_project_segment (fuel + 1) (s_at 2) 2 (by norm_num [s_at]) rfl 650, slope_walk_2]
  norm_num

end FireData

/-! ## The projection of a segment on the fire front -/

namespace FireData

/-- When the walk from the cell of a visibility center inside the raster returns (the fuel
does not run out): `project_on_firefront(seg, uav, t)` is empty exactly when the visibility
center of the segment is outside the raster or `project_on_fire_front` of the cell of the center
is empty; otherwise it is `uav.observation_segment` at the world coordinates of the projected
cell with the heading `seg.start.dir` and the length `seg.length`, which the rebuilt segment
keeps as soon as `observation_segment` builds segments of the heading and length it is given. -/
theorem project_on_firefront_of_walk (fd : FireData) (fuel : Nat) (seg : Segment3d) (uav : UAV)
    (t : ℚ)
    (hfuel : fd.ignitions.is_in_position (uav.visibilty_center seg).position →
      fd.project_on_fire_front fuel
        (fd.ignitions.as_cell (uav.visibilty_center seg).position) t ≠ none) :
    (fd.project_on_firefront fuel seg uav t = some none
      ↔ (¬ fd.ignitions.is_in_position (uav.visibilty_center seg).position
          ∨ fd.project_on_fire_front fuel
              (fd.ignitions.as_cell (uav.visibilty_center seg).position) t = some none))
    ∧ (∀ c : Cell, fd.ignitions.is_in_position (uav.visibilty_center seg).position →
        fd.project_on_fire_front fuel
          (fd.ignitions.as_cell (uav.visibilty_center seg).position) t = some (some c) →
        fd.project_on_firefront fuel seg uav t
          = some (some (uav.observation_segment (fd.ignitions.x_coords c.x)
              (fd.ignitions.y_coords c.y) seg.start.dir seg.length)))
    ∧ ((∀ x y heading length : ℚ, (uav.observation_segment x y heading length).start.dir = heading
          ∧ (uav.observation_segment x y heading length).length = length) →
        ∀ projected : Segment3d, fd.project_on_firefront fuel seg uav t = some (some projected) →
          projected.start.dir = seg.start.dir ∧ projected.length = seg.length) := by
  unfold project_on_firefront
  simp only []
  by_cases hin : fd.ignitions.is_in_position (uav.visibilty_center seg).position
  · rw [if_neg (not_not.mpr hin)]
    cases hw : fd.project_on_fire_front fuel
        (fd.ignitions.as_cell (uav.visibilty_center seg).position) t with
    | none => exact absurd hw (hfuel hin)
    | some r =>
      cases r with
      | none =>
        refine ⟨⟨fun _ => Or.inr rfl, fun _ => rfl⟩, fun c _ h => by simp at h, ?_⟩
        intro _ projected h
        simp at h
      | some c =>
        refine ⟨⟨fun h => by simp at h, fun h => ?_⟩, fun c' _ h => ?_, ?_⟩
        · rcases h with h | h
          · exact absurd hin h
          · simp at h
        · simp only [Option.some.injEq] at h
          rw [h]
        · intro hobs projected h
          simp only [Option.some.injEq] at h
          rw [← h]
          exact hobs _ _ _ _
  · rw [if_pos hin]
    refine ⟨⟨fun _ => Or.inl hin, fun _ => rfl⟩, fun c h _ => absurd h hin, ?_⟩
    intro _ projected h
    simp at h

end FireData

/-! ## Dubins lengths at a constant altitude -/

/-- Claim C19. For two waypoints at the same altitude and positive `r_min` and `γ_max`, with a
cosine that is 1 at 0, the length `L` of the 3-D path is the planar Dubins length at the radius
`r_min`: the required slope is 0, which is the low altitude regime. -/
theorem C19_flat_length_is_planar (dubins_path_length : Waypoint3d → Waypoint3d → ℚ → ℚ)
    (cos : ℚ → ℚ) (L_high_or_medium : Waypoint3d → Waypoint3d → ℚ → ℚ → ℚ)
    (orig dest : Waypoint3d) (r_min gamma_max : ℚ)
    (hz : orig.z = dest.z) (_hr : 0 < r_min) (hg : 0 < gamma_max) (hcos : cos 0 = 1) :
    Dubins3dPathLength.L dubins_path_length cos L_high_or_medium orig dest r_min gamma_max
      = dubins_path_length orig dest r_min := by
  unfold Dubins3dPathLength.L
  simp only []
  rw [hz, sub_self, zero_div, abs_zero, if_pos hg.le, hcos, div_one]

theorem C19_witness :
    Dubins3dPathLength.L (fun a b _ => |b.x - a.x| + |b.y - a.y|) (fun _ => 1)
        (fun _ _ _ _ => 0) ⟨0, 0, 0, 0⟩ ⟨100, 0, 0, 0⟩ 25 (1 / 10)
      = (fun (a b : Waypoint3d) (_ : ℚ) => |b.x - a.x| + |b.y - a.y|)
          ⟨0, 0, 0, 0⟩ ⟨100, 0, 0, 0⟩ 25 :=
  C19_flat_length_is_planar _ _ _ _ _ 25 (1 / 10) rfl (by norm_num) (by norm_num) rfl

/-! ## Indices and coordinates of the rasters -/

/-- The index of the coordinate of an index is this index, along either axis. -/
theorem index_of_coords (offset cell_width : ℚ) (hw : cell_width ≠ 0) (i : Int) :
    lround ((offset + cell_width * i - offset) / cell_width) = i := by
  have h : (offset + cell_width * (i : ℚ) - offset) / cell_width = (i : ℚ) := by
    field_simp
  rw [h, Plan.lround_intCast]

/-- Claim C20. For every raster with a positive cell width and every cell index `i`, the index
of the coordinate of `i` is `i`, along x and along y, for `Raster` and for `LRaster`; for
`LRaster` the index is within the shape, so that the assertion of the accessor holds. -/
theorem C20_index_of_coords_round_trip (r : Raster) (l : LRaster) (i : Nat)
    (hr : 0 < r.cell_width) (hl : 0 < l.cell_width) :
    r.x_index (r.x_coords i) = i ∧ r.y_index (r.y_coords i) = i
    ∧ (i < l.x_width → LRaster.x_index l (l.x_coords i) = some (i : Int))
    ∧ (i < l.y_height → LRaster.y_index l (l.y_coords i) = some (i : Int)) := by
  refine ⟨?_, ?_, ?_, ?_⟩
  · exact index_of_coords r.x_offset r.cell_width hr.ne' i
  · exact index_of_coords r.y_offset r.cell_width hr.ne' i
  · intro hi
    unfold LRaster.x_index
    have hi' : (i : ℚ) ≤ l.x_width := by exact_mod_cast hi.le
    have h0 : (0 : ℚ) ≤ (i : ℚ) := by positivity
    rw [if_pos]
    · exact congrArg some (index_of_coords l.x_offset l.cell_width hl.ne' i)
    · unfold GenRaster.x_coords
      push_cast
      constructor
      · nlinarith
      · nlinarith
  · intro hi
    unfold LRaster.y_index
    have hi' : (i : ℚ) ≤ l.y_height := by exact_mod_cast hi.le
    have h0 : (0 : ℚ) ≤ (i : ℚ) := by positivity
    rw [if_pos]
    · exact congrArg some (index_of_coords l.y_offset l.cell_width hl.ne' i)
    · unfold GenRaster.y_coords
      push_cast
      constructor
      · nlinarith
      · nlinarith

theorem C20_witness :
    slope.x_index (slope.x_coords ((1 : Nat) : Int)) = ((1 : Nat) : Int)
    ∧ slope.y_index (slope.y_coords ((1 : Nat) : Int)) = ((1 : Nat) : Int)
    ∧ (1 < (GenRaster.like slope (0 : Int)).x_width →
        LRaster.x_index (GenRaster.like slope (0 : Int))
          ((GenRaster.like slope (0 : Int)).x_coords ((1 : Nat) : Int)) = some ((1 : Nat) : Int))
    ∧ (1 < (GenRaster.like slope (0 : Int)).y_height →
        LRaster.y_index (GenRaster.like slope (0 : Int))
          ((GenRaster.like slope (0 : Int)).y_coords ((1 : Nat) : Int)) = some ((1 : Nat) : Int)) :=
  C20_index_of_coords_round_trip slope (GenRaster.like slope (0 : Int)) 1
    (by norm_num [slope]) (by norm_num [GenRaster.like, slope])

namespace FireData

/-! ## The failures and the results of the walk on the cells -/

/-- Inside the grid the traversal end of a cell is not before its ignition. -/
theorem ignitions_le_traversal_end (ignitions : Raster) (c : Cell) (hc : ignitions.is_in c) :
    (new ignitions).ignitions.get c ≤ (new ignitions).traversal_end.get c := by
  rw [traversal_end_get ignitions c hc, new_ignitions, ← data_toNat ignitions c hc]
  by_cases h : ignitions.data (c.x.toNat : Int) (c.y.toNat : Int) < DBL_MAX / 2
  · exact (traversal_end_value_spec ignitions c.x.toNat c.y.toNat).1 h
  · rw [(traversal_end_value_spec ignitions c.x.toNat c.y.toNat).2 h]

/-- One call of the walk whose step fails returns the empty result. -/
theorem project_on_fire_front_step_fails (fd : FireData) (fuel : Nat) (c : Cell) (t : ℚ)
    (hout : ¬ (t ≥ fd.ignitions.get c ∧ t ≤ fd.traversal_end.get c))
    (h : ∀ n, fd.next_cell c t = some n →
      ¬ fd.ignitions.is_in n ∨ ¬ fd.eventually_ignited n) :
    fd.project_on_fire_front (fuel + 1) c t = some none := by
  rw [project_on_fire_front, if_neg hout]
  cases hn : fd.next_cell c t with
  | none => rfl
  | some n => simp only []; rw [if_pos (h n hn)]

/-- Claim C21, failing input. On the raster of `long` of 3 by 1 cells of width 1 at the origin,
the coordinate 3 passes the assertion of `LRaster::x_index`, whose upper bound is
`x_offset + cell_width * x_width`, and the index returned is 3, which is the width and no valid
column; the coordinate `-1/2` passes it too and the index is `-1`. -/
theorem C21_index_outside_shape :
    LRaster.x_index (GenRaster.like slope (0 : Int)) 3 = some 3
    ∧ ¬ ((3 : Int) < (GenRaster.like slope (0 : Int)).x_width)
    ∧ LRaster.x_index (GenRaster.like slope (0 : Int)) (-1 / 2) = some (-1) := by
  refine ⟨?_, ?_, ?_⟩
  · unfold LRaster.x_index
    have h : lround (((3 : ℚ) - (GenRaster.like slope (0 : Int)).x_offset)
        / (GenRaster.like slope (0 : Int)).cell_width) = 3 := by
      have e : ((3 : ℚ) - (GenRaster.like slope (0 : Int)).x_offset)
          / (GenRaster.like slope (0 : Int)).cell_width = ((3 : Int) : ℚ) := by
        norm_num [GenRaster.like, slope]
      rw [e, Plan.lround_intCast]
    rw [h, if_pos (by norm_num [GenRaster.like, slope])]
  · norm_num [GenRaster.like, slope]
  · unfold LRaster.x_index
    have h : lround (((-1 / 2 : ℚ) - (GenRaster.like slope (0 : Int)).x_offset)
        / (GenRaster.like slope (0 : Int)).cell_width) = -1 := by
      have e : ((-1 / 2 : ℚ) - (GenRaster.like slope (0 : Int)).x_offset)
          / (GenRaster.like slope (0 : Int)).cell_width = -1 / 2 := by
        norm_num [GenRaster.like, slope]
      rw [e]
      unfold lround
      rw [if_neg (by norm_num)]
      norm_num
    rw [h, if_pos (by norm_num [GenRaster.like, slope])]

/-- Claim C22. For every ignition raster, every cell `c` of the grid and every time `t`, with
`n` the neighbour of `c` one step along the quantized propagation direction when
`t > traversal_end(c)`, one step against it when `t < ignitions(c)`: if `n` is outside the
grid, or is never ignited, or has an ignition before the one of `c` when walking uphill, after
it when walking downhill, then `project_on_fire_front(c, t)` returns the empty result, with any
fuel of at least one call. -/
theorem C22_walk_failures (ignitions : Raster) (fuel : Nat) (c : Cell) (t : ℚ)
    (hc : ignitions.is_in c) :
    (t > (new ignitions).traversal_end.get c →
      ∀ n : Cell,
        n = ⟨c.x + step_dx (discrete_dir ((new ignitions).propagation_directions.get c)),
            c.y + step_dy (discrete_dir ((new ignitions).propagation_directions.get c))⟩ →
        (¬ ignitions.is_in n ∨ ¬ (new ignitions).eventually_ignited n
          ∨ ignitions.get n < ignitions.get c) →
        (new ignitions).project_on_fire_front (fuel + 1) c t = some none)
    ∧ (t < ignitions.get c →
      ∀ n : Cell,
        n = ⟨c.x - step_dx (discrete_dir ((new ignitions).propagation_directions.get c)),
            c.y - step_dy (discrete_dir ((new ignitions).propagation_directions.get c))⟩ →
        (¬ ignitions.is_in n ∨ ¬ (new ignitions).eventually_ignited n
          ∨ ignitions.get n > ignitions.get c) →
        (new ignitions).project_on_fire_front (fuel + 1) c t = some none) := by
  have hle := ignitions_le_traversal_end ignitions c hc
  rw [new_ignitions] at hle
  constructor
  · intro ht n hn hfail
    apply project_on_fire_front_step_fails
    · intro h; exact absurd h.2 (not_le.mpr ht)
    · intro m hm
      unfold next_cell at hm
      simp only [gt_iff_lt, if_pos (gt_iff_lt.mp ht)] at hm
      rw [← hn, new_ignitions] at hm
      split_ifs at hm with h1
      simp only [Option.some.injEq] at hm
      subst hm
      rw [new_ignitions]
      rcases hfail with h | h | h
      · exact Or.inl h
      · exact Or.inr h
      · exact absurd (Or.inr h) h1
  · intro ht n hn hfail
    have hnot : ¬ t > (new ignitions).traversal_end.get c := by
      intro h
      exact absurd (lt_of_lt_of_le ht hle) (not_lt.mpr h.le)
    apply project_on_fire_front_step_fails
    · intro h; rw [new_ignitions] at h; exact absurd h.1 (not_le.mpr ht)
    · intro m hm
      unfold next_cell at hm
      simp only [if_neg hnot] at hm
      rw [← hn, new_ignitions] at hm
      split_ifs at hm with h1
      simp only [Option.some.injEq] at hm
      subst hm
      rw [new_ignitions]
      rcases hfail with h | h | h
      · exact Or.inl h
      · exact Or.inr h
      · exact absurd (Or.inr h) h1

theorem C22_witness :
    (new slope).project_on_fire_front 1 ⟨2, 0⟩ 650 = some none :=
  (C22_walk_failures slope 0 ⟨2, 0⟩ 650 (by rw [slope_is_in]; simp)).1
    (by rw [slope_traversal_end_2]; norm_num) ⟨3, 0⟩
    (by rw [slope_direction_2]; rfl)
    (Or.inl (by rw [slope_is_in]; simp))

/-- Claim C30. For every fire data, every cell `c` of the grid and every time `t` below
`MAX/2`: a cell that `project_on_fire_front(c, t)` returns is eventually ignited; hence a cell
that is never ignited is returned only for a time of at least `MAX/2`. -/
theorem C30_result_eventually_ignited (fd : FireData) (fuel : Nat) (c r : Cell) (t : ℚ)
    (hc : fd.ignitions.is_in c) (h : fd.project_on_fire_front fuel c t = some (some r)) :
    (t < DBL_MAX / 2 → fd.eventually_ignited r)
    ∧ (¬ fd.eventually_ignited r → DBL_MAX / 2 ≤ t) := by
  have hr := (project_on_fire_front_found fd t fuel c r hc h).2.1
  unfold eventually_ignited
  constructor
  · intro ht
    exact lt_of_le_of_lt hr ht
  · intro hne
    exact le_trans (not_lt.mp hne) hr

theorem C30_witness :
    (150 < DBL_MAX / 2 → (new slope).eventually_ignited ⟨1, 0⟩)
    ∧ (¬ (new slope).eventually_ignited ⟨1, 0⟩ → DBL_MAX / 2 ≤ 150) :=
  C30_result_eventually_ignited (new slope) 2 ⟨0, 0⟩ ⟨1, 0⟩ 150
    (by rw [new_ignitions, slope_is_in]; simp) slope_walk

/-! ## The gradient of the ignitions -/

/-- The lambda `default_ignition` at a cell of the grid and an offset of at most one cell is
the ignition of the neighbour when it is in the grid and eventually ignited, and the ignition
of the cell otherwise. -/
theorem default_ignition_eq (ignitions : Raster) (c : Cell) (hc : ignitions.is_in c)
    (a b : Int) (ha : a = -1 ∨ a = 0 ∨ a = 1) (hb : b = -1 ∨ b = 0 ∨ b = 1) :
    default_ignition ignitions c.x.toNat c.y.toNat a b = neighbour_ignition ignitions c a b := by
  obtain ⟨h1, h2, h3, h4⟩ := hc
  unfold default_ignition neighbour_ignition GenRaster.is_in GenRaster.get
  simp only [Int.toNat_of_nonneg h1, Int.toNat_of_nonneg h3, ge_iff_le]
  have hx : (c.x.toNat = 0 ∧ a < 0) ↔ c.x + a < 0 := by omega
  have hy : (c.y.toNat = 0 ∧ b < 0) ↔ c.y + b < 0 := by omega
  by_cases g1 : c.x + a < 0
  · rw [if_pos (hx.mpr g1), if_neg (by intro h; omega)]
  · rw [if_neg (fun h => g1 (hx.mp h))]
    by_cases g2 : (ignitions.x_width : Int) ≤ c.x + a
    · rw [if_pos g2, if_neg (by intro h; omega)]
    · rw [if_neg g2]
      by_cases g3 : c.y + b < 0
      · rw [if_pos (hy.mpr g3), if_neg (by intro h; omega)]
      · rw [if_neg (fun h => g3 (hy.mp h))]
        by_cases g4 : (ignitions.y_height : Int) ≤ c.y + b
        · rw [if_pos g4, if_neg (by intro h; omega)]
        · rw [if_neg g4]
          by_cases g5 : DBL_MAX / 2 ≤ ignitions.data (c.x + a) (c.y + b)
          · rw [if_pos g5, if_neg (by intro h; exact absurd h.2 (not_lt.mpr g5))]
          · rw [if_neg g5, if_pos ⟨⟨by omega, by omega, by omega, by omega⟩, not_le.mp g5⟩]

/-- In exact arithmetic, for every ignition raster and every cell `c` of the grid that is
eventually ignited, the direction stored in `propagation_directions` at `c` is the one of the
gradient `(dx, dy)` of the specification, `dx = I(1,-1) + 2·I(1,0) + I(1,1) - I(-1,-1) -
2·I(-1,0) - I(-1,1)` and `dy = I(1,1) + 2·I(0,1) + I(-1,1) - I(1,-1) - 2·I(0,-1) - I(-1,-1)`,
where `I(a, b)` is the ignition of the neighbour at the offset `(a, b)` when it is in the grid
and eventually ignited and the ignition of `c` otherwise; and these exact sums are 0 when no
neighbour is in the grid and eventually ignited. -/
theorem gradient_components_exact (ignitions : Raster) (c : Cell) (hc : ignitions.is_in c)
    (hign : (new ignitions).eventually_ignited c) :
    (new ignitions).propagation_directions.get c
      = ⟨gradient_dy ignitions c, gradient_dx ignitions c⟩
    ∧ ((∀ n ∈ neighbours c, ¬ (ignitions.is_in n ∧ ignitions.get n < DBL_MAX / 2)) →
        gradient_dx ignitions c = 0 ∧ gradient_dy ignitions c = 0) := by
  constructor
  · rw [propagation_directions_get ignitions c hc]
    unfold propagation_direction_value
    have h : ignitions.data (c.x.toNat : Int) (c.y.toNat : Int) < DBL_MAX / 2 := by
      rw [data_toNat ignitions c hc]; exact hign
    rw [if_pos h]
    unfold prop_dx prop_dy gradient_dx gradient_dy
    simp only []
    rw [default_ignition_eq ignitions c hc 1 (-1) (by decide) (by decide),
      default_ignition_eq ignitions c hc 1 0 (by decide) (by decide),
      default_ignition_eq ignitions c hc 1 1 (by decide) (by decide),
      default_ignition_eq ignitions c hc (-1) (-1) (by decide) (by decide),
      default_ignition_eq ignitions c hc (-1) 0 (by decide) (by decide),
      default_ignition_eq ignitions c hc (-1) 1 (by decide) (by decide),
      default_ignition_eq ignitions c hc 0 1 (by decide) (by decide),
      default_ignition_eq ignitions c hc 0 (-1) (by decide) (by decide)]
  · intro hnone
    have hI : ∀ a b : Int, (⟨c.x + a, c.y + b⟩ : Cell) ∈ neighbours c →
        neighbour_ignition ignitions c a b = ignitions.get c := by
      intro a b hmem
      unfold neighbour_ignition
      rw [if_neg (hnone _ hmem)]
    have m : ∀ a b : Int, (a = -1 ∨ a = 0 ∨ a = 1) → (b = -1 ∨ b = 0 ∨ b = 1) →
        ¬ (a = 0 ∧ b = 0) → (⟨c.x + a, c.y + b⟩ : Cell) ∈ neighbours c := by
      intro a b ha hb hne
      rcases ha with rfl | rfl | rfl <;> rcases hb with rfl | rfl | rfl <;>
        simp [neighbours, sub_eq_add_neg] at hne ⊢
    unfold gradient_dx gradient_dy
    rw [hI 1 (-1) (m _ _ (by decide) (by decide) (by decide)),
      hI 1 0 (m _ _ (by decide) (by decide) (by decide)),
      hI 1 1 (m _ _ (by decide) (by decide) (by decide)),
      hI (-1) (-1) (m _ _ (by decide) (by decide) (by decide)),
      hI (-1) 0 (m _ _ (by decide) (by decide) (by decide)),
      hI (-1) 1 (m _ _ (by decide) (by decide) (by decide)),
      hI 0 1 (m _ _ (by decide) (by decide) (by decide)),
      hI 0 (-1) (m _ _ (by decide) (by decide) (by decide))]
    constructor <;> ring

/-! ## The walk on the cells never reverses -/

/-- The cell at an offset of at most one cell, other than the cell itself, is a neighbour. -/
theorem offset_mem_neighbours (c : Cell) (a b : Int) (ha : a = -1 ∨ a = 0 ∨ a = 1)
    (hb : b = -1 ∨ b = 0 ∨ b = 1) (hne : ¬ (a = 0 ∧ b = 0)) :
    (⟨c.x + a, c.y + b⟩ : Cell) ∈ neighbours c := by
  rcases ha with rfl | rfl | rfl <;> rcases hb with rfl | rfl | rfl <;>
    simp [neighbours, sub_eq_add_neg] at hne ⊢

/-- The quantized direction is an index from 0 to 7. -/
theorem discrete_dir_bounds (d : Direction) : 0 ≤ discrete_dir d ∧ discrete_dir d < 8 := by
  unfold discrete_dir
  split_ifs <;> decide

/-- The steps of the indices from 0 to 7. -/
theorem step_cases (j : Int) (h0 : 0 ≤ j) (h8 : j < 8) :
    (step_dx j = -1 ∨ step_dx j = 0 ∨ step_dx j = 1)
    ∧ (step_dy j = -1 ∨ step_dy j = 0 ∨ step_dy j = 1)
    ∧ ¬ (step_dx j = 0 ∧ step_dy j = 0) := by
  interval_cases j <;> decide

/-- The traversal end of an ignited cell of the grid is not before the ignition of a neighbour
that is in the grid and eventually ignited. -/
theorem neighbour_le_traversal_end (ignitions : Raster) (c n : Cell) (hc : ignitions.is_in c)
    (hi : ignitions.get c < DBL_MAX / 2) (hn : n ∈ neighbours c) (hnin : ignitions.is_in n)
    (hni : ignitions.get n < DBL_MAX / 2) :
    ignitions.get n ≤ (new ignitions).traversal_end.get c := by
  have hmax := max_neighbor_isMaximumOf ignitions c.x.toNat c.y.toNat
  rw [Int.toNat_of_nonneg hc.1, Int.toNat_of_nonneg hc.2.2.1] at hmax
  have hmem : ignitions.get n ∈ (0 : ℚ) :: ignited_neighbour_times ignitions c := by
    apply List.mem_cons_of_mem
    unfold ignited_neighbour_times
    exact List.mem_map.mpr ⟨n, List.mem_filter.mpr ⟨hn, by simpa using ⟨hnin, hni⟩⟩, rfl⟩
  have hle := hmax.2 _ hmem
  rw [traversal_end_get ignitions c hc]
  unfold traversal_end_value
  rw [data_toNat ignitions c hc, if_pos hi]
  split_ifs with h
  · linarith
  · exact hle

/-- The step taken after the traversal end goes along the direction, to a cell of the grid
whose ignition is not before. -/
theorem next_cell_up (fd : FireData) (c n : Cell) (t : ℚ) (ht : t > fd.traversal_end.get c)
    (h : fd.next_cell c t = some n) :
    n = ⟨c.x + step_dx (discrete_dir (fd.propagation_directions.get c)),
        c.y + step_dy (discrete_dir (fd.propagation_directions.get c))⟩
    ∧ fd.ignitions.is_in n ∧ fd.ignitions.get c ≤ fd.ignitions.get n := by
  unfold next_cell at h
  simp only [gt_iff_lt, if_pos (gt_iff_lt.mp ht)] at h
  split_ifs at h with h1
  simp only [Option.some.injEq] at h
  subst h
  rw [not_or, not_not, not_lt] at h1
  exact ⟨rfl, h1.1, h1.2⟩

/-- The step taken otherwise goes against the direction, to a cell of the grid whose ignition
is not after. -/
theorem next_cell_down (fd : FireData) (c n : Cell) (t : ℚ)
    (ht : ¬ t > fd.traversal_end.get c) (h : fd.next_cell c t = some n) :
    n = ⟨c.x - step_dx (discrete_dir (fd.propagation_directions.get c)),
        c.y - step_dy (discrete_dir (fd.propagation_directions.get c))⟩
    ∧ fd.ignitions.is_in n ∧ fd.ignitions.get n ≤ fd.ignitions.get c := by
  unfold next_cell at h
  simp only [if_neg ht] at h
  split_ifs at h with h1
  simp only [Option.some.injEq] at h
  subst h
  rw [not_or, not_not, not_lt] at h1
  exact ⟨rfl, h1.1, h1.2⟩

/-- The cells of the calls of a walk that returns: the first is the cell of the first call,
the last is the cell returned. -/
theorem project_on_fire_front_path_spec (fd : FireData) (t : ℚ) :
    ∀ (fuel : Nat) (c : Cell),
      (fd.project_on_fire_front_path fuel c t = none ↔ fd.project_on_fire_front fuel c t = none)
      ∧ (fd.project_on_fire_front_path fuel c t = some none
          ↔ fd.project_on_fire_front fuel c t = some none)
      ∧ (∀ r, fd.project_on_fire_front fuel c t = some (some r) →
          ∃ l, fd.project_on_fire_front_path fuel c t = some (some l)
            ∧ l.head? = some c ∧ l.getLast? = some r) := by
  intro fuel
  induction fuel with
  | zero =>
    intro c
    simp [project_on_fire_front_path, project_on_fire_front]
  | succ fuel ih =>
    intro c
    unfold project_on_fire_front_path project_on_fire_front
    by_cases hin : t ≥ fd.ignitions.get c ∧ t ≤ fd.traversal_end.get c
    · rw [if_pos hin, if_pos hin]
      simp
    · rw [if_neg hin, if_neg hin]
      cases hn : fd.next_cell c t with
      | none => simp
      | some n =>
        simp only []
        by_cases hfail : ¬ fd.ignitions.is_in n ∨ ¬ fd.eventually_ignited n
        · rw [if_pos hfail, if_pos hfail]
          simp
        · rw [if_neg hfail, if_neg hfail]
          obtain ⟨i1, i2, i3⟩ := ih n
          refine ⟨?_, ?_, ?_⟩
          · rw [Option.map_eq_none', i1]
          · rw [← i2]
            cases fd.project_on_fire_front_path fuel n t with
            | none => simp
            | some o => cases o <;> simp
          · intro r hr
            obtain ⟨l, hl, hhead, hlast⟩ := i3 r hr
            refine ⟨c :: l, by rw [hl]; rfl, rfl, ?_⟩
            cases l with
            | nil => simp at hhead
            | cons a l => rw [List.getLast?_cons_cons]; exact hlast

/-- A walk from a cell of the grid whose ignition is not after the time takes every step
after the traversal end of the cell it leaves, to a cell whose ignition is not before. -/
theorem walk_up (ignitions : Raster) (t : ℚ) :
    ∀ (fuel : Nat) (c : Cell) (l : List Cell), ignitions.is_in c → ignitions.get c ≤ t →
      (new ignitions).project_on_fire_front_path fuel c t = some (some l) →
      l.head? = some c
      ∧ List.Chain' (fun a b => t > (new ignitions).traversal_end.get a
          ∧ ignitions.get a ≤ ignitions.get b) l
      ∧ ∀ r, l.getLast? = some r → ignitions.get c ≤ ignitions.get r := by
  intro fuel
  induction fuel with
  | zero => intro c l _ _ h; simp [project_on_fire_front_path] at h
  | succ fuel ih =>
    intro c l hc hct h
    unfold project_on_fire_front_path at h
    by_cases hin : t ≥ (new ignitions).ignitions.get c ∧ t ≤ (new ignitions).traversal_end.get c
    · rw [if_pos hin] at h
      simp only [Option.some.injEq] at h
      subst h
      refine ⟨rfl, List.chain'_singleton c, ?_⟩
      intro r hr
      simp only [List.getLast?_singleton, Option.some.injEq] at hr
      rw [hr]
    · rw [if_neg hin] at h
      have hup : t > (new ignitions).traversal_end.get c := by
        by_contra hle
        exact hin ⟨hct, not_lt.mp hle⟩
      cases hn : (new ignitions).next_cell c t with
      | none => rw [hn] at h; simp at h
      | some n =>
        rw [hn] at h
        simp only [] at h
        by_cases hfail : ¬ (new ignitions).ignitions.is_in n ∨ ¬ (new ignitions).eventually_ignited n
        · rw [if_pos hfail] at h; simp at h
        rw [if_neg hfail] at h
        rw [not_or, not_not, not_not] at hfail
        obtain ⟨hnin, hnev⟩ := hfail
        rw [new_ignitions] at hnin
        obtain ⟨hneq, _, hle⟩ := next_cell_up (new ignitions) c n t hup hn
        rw [new_ignitions] at hle
        have hnev' : ignitions.get n < DBL_MAX / 2 := hnev
        have hcev : ignitions.get c < DBL_MAX / 2 := lt_of_le_of_lt hle hnev'
        have hd := discrete_dir_bounds ((new ignitions).propagation_directions.get c)
        obtain ⟨s1, s2, s3⟩ := step_cases _ hd.1 hd.2
        have hmem : n ∈ neighbours c := by
          rw [hneq]; exact offset_mem_neighbours c _ _ s1 s2 s3
        have hte := neighbour_le_traversal_end ignitions c n hc hcev hmem hnin hnev'
        cases hp : (new ignitions).project_on_fire_front_path fuel n t with
        | none => rw [hp] at h; simp at h
        | some o =>
          cases o with
          | none => rw [hp] at h; simp at h
          | some l' =>
            rw [hp] at h
            simp only [Option.map_some', Option.some.injEq] at h
            subst h
            obtain ⟨hhead, hchain, hlast⟩ := ih n l' hnin (le_of_lt (lt_of_le_of_lt hte hup)) hp
            cases l' with
            | nil => simp at hhead
            | cons a l'' =>
              simp only [List.head?_cons, Option.some.injEq] at hhead
              subst hhead
              refine ⟨rfl, List.Chain'.cons ⟨hup, hle⟩ hchain, ?_⟩
              intro r hr
              rw [List.getLast?_cons_cons] at hr
              exact le_trans hle (hlast r hr)

/-- A walk from an ignited cell of the grid whose traversal end is not before the time takes
every step before the ignition of the cell it leaves, to a cell whose ignition is not after. -/
theorem walk_down (ignitions : Raster) (t : ℚ) :
    ∀ (fuel : Nat) (c : Cell) (l : List Cell), ignitions.is_in c →
      ignitions.get c < DBL_MAX / 2 → t ≤ (new ignitions).traversal_end.get c →
      (new ignitions).project_on_fire_front_path fuel c t = some (some l) →
      l.head? = some c
      ∧ List.Chain' (fun a b => t < ignitions.get a ∧ ignitions.get b ≤ ignitions.get a) l
      ∧ ∀ r, l.getLast? = some r → ignitions.get r ≤ ignitions.get c := by
  intro fuel
  induction fuel with
  | zero => intro c l _ _ _ h; simp [project_on_fire_front_path] at h
  | succ fuel ih =>
    intro c l hc hcev hct h
    unfold project_on_fire_front_path at h
    by_cases hin : t ≥ (new ignitions).ignitions.get c ∧ t ≤ (new ignitions).traversal_end.get c
    · rw [if_pos hin] at h
      simp only [Option.some.injEq] at h
      subst h
      refine ⟨rfl, List.chain'_singleton c, ?_⟩
      intro r hr
      simp only [List.getLast?_singleton, Option.some.injEq] at hr
      rw [hr]
    · rw [if_neg hin] at h
      have hbefore : t < ignitions.get c := by
        by_contra hle
        exact hin ⟨not_lt.mp hle, hct⟩
      cases hn : (new ignitions).next_cell c t with
      | none => rw [hn] at h; simp at h
      | some n =>
        rw [hn] at h
        simp only [] at h
        by_cases hfail : ¬ (new ignitions).ignitions.is_in n ∨ ¬ (new ignitions).eventually_ignited n
        · rw [if_pos hfail] at h; simp at h
        rw [if_neg hfail] at h
        rw [not_or, not_not, not_not] at hfail
        obtain ⟨hnin, hnev⟩ := hfail
        rw [new_ignitions] at hnin
        obtain ⟨hneq, _, hle⟩ := next_cell_down (new ignitions) c n t (not_lt.mpr hct) hn
        rw [new_ignitions] at hle
        have hnev' : ignitions.get n < DBL_MAX / 2 := hnev
        have hd := discrete_dir_bounds ((new ignitions).propagation_directions.get c)
        obtain ⟨s1, s2, s3⟩ := step_cases _ hd.1 hd.2
        have hmem : c ∈ neighbours n := by
          have e : c = ⟨n.x + step_dx (discrete_dir ((new ignitions).propagation_directions.get c)),
              n.y + step_dy (discrete_dir ((new ignitions).propagation_directions.get c))⟩ := by
            rw [hneq]
            simp
          rw [e]
          exact offset_mem_neighbours n _ _ s1 s2 s3
        have hte := neighbour_le_traversal_end ignitions n c hnin hnev' hmem hc hcev
        cases hp : (new ignitions).project_on_fire_front_path fuel n t with
        | none => rw [hp] at h; simp at h
        | some o =>
          cases o with
          | none => rw [hp] at h; simp at h
          | some l' =>
            rw [hp] at h
            simp only [Option.map_some', Option.some.injEq] at h
            subst h
            obtain ⟨hhead, hchain, hlast⟩ :=
              ih n l' hnin hnev' (le_of_lt (lt_of_lt_of_le hbefore hte)) hp
            cases l' with
            | nil => simp at hhead
            | cons a l'' =>
              simp only [List.head?_cons, Option.some.injEq] at hhead
              subst hhead
              refine ⟨rfl, List.Chain'.cons ⟨hbefore, hle⟩ hchain, ?_⟩
              intro r hr
              rw [List.getLast?_cons_cons] at hr
              exact le_trans (hlast r hr) hle

/-! ### The walk over the ridge -/

theorem ridge_is_in (c : Cell) : ridge.is_in c ↔ (0 ≤ c.x ∧ c.x < 4 ∧ c.y = 0) := by
  unfold GenRaster.is_in ridge
  constructor
  · rintro ⟨h1, h2, h3, h4⟩
    simp at h2 h4
    exact ⟨h1, h2, by omega⟩
  · rintro ⟨h1, h2, h3⟩
    simp
    omega

theorem ridge_traversal_end_3 : (new ridge).traversal_end.get ⟨3, 0⟩ = DBL_MAX := by
  rw [traversal_end_get ridge ⟨3, 0⟩ (by rw [ridge_is_in]; simp)]
  have h := dbl_max_pos
  simp [traversal_end_value, ridge]
  intro h1
  linarith

theorem ridge_traversal_end_2 : (new ridge).traversal_end.get ⟨2, 0⟩ = 200 := by
  rw [traversal_end_get ridge ⟨2, 0⟩ (by rw [ridge_is_in]; simp)]
  simp [traversal_end_value, max_neighbor, ridge, DBL_MAX]
  norm_num

theorem ridge_traversal_end_1 : (new ridge).traversal_end.get ⟨1, 0⟩ = 300 := by
  rw [traversal_end_get ridge ⟨1, 0⟩ (by rw [ridge_is_in]; simp)]
  simp [traversal_end_value, max_neighbor, ridge, DBL_MAX]
  norm_num

theorem ridge_direction_3 :
    discrete_dir ((new ridge).propagation_directions.get ⟨3, 0⟩) = 0 := by
  rw [propagation_directions_get ridge ⟨3, 0⟩ (by rw [ridge_is_in]; simp)]
  have h := dbl_max_pos
  have e : propagation_direction_value ridge (3 : Int).toNat (0 : Int).toNat = ⟨0, 1⟩ := by
    unfold propagation_direction_value
    rw [if_neg]
    simp [ridge]
    linarith
  show discrete_dir (propagation_direction_value ridge (3 : Int).toNat (0 : Int).toNat) = 0
  rw [e]
  simp [discrete_dir]

theorem ridge_direction_2 :
    discrete_dir ((new ridge).propagation_directions.get ⟨2, 0⟩) = 4 := by
  rw [propagation_directions_get ridge ⟨2, 0⟩ (by rw [ridge_is_in]; simp)]
  simp [propagation_direction_value, prop_dx, prop_dy, default_ignition, ridge, DBL_MAX,
    discrete_dir]
  norm_num

/-- On the ridge, from the cell (3, 0), which is never ignited, the walk steps against the
default direction, to the cell (2, 0). -/
theorem ridge_next_3 : (new ridge).next_cell ⟨3, 0⟩ 250 = some ⟨2, 0⟩ := by
  unfold next_cell
  rw [ridge_direction_3, ridge_traversal_end_3]
  have h : ¬ (250 : ℚ) > DBL_MAX := by unfold DBL_MAX; norm_num
  simp only [if_neg h]
  norm_num [step_dx, step_dy, new_ignitions, ridge_is_in, GenRaster.get]
  norm_num [ridge, DBL_MAX]

/-- On the ridge, from the cell (2, 0), whose traversal end is before the time, the walk
steps along the direction, to the cell (1, 0). -/
theorem ridge_next_2 : (new ridge).next_cell ⟨2, 0⟩ 250 = some ⟨1, 0⟩ := by
  unfold next_cell
  rw [ridge_direction_2, ridge_traversal_end_2]
  norm_num [step_dx, step_dy, new_ignitions, ridge_is_in, GenRaster.get]
  norm_num [ridge]

theorem ridge_path :
    (new ridge).project_on_fire_front_path 3 ⟨3, 0⟩ 250 = some (some [⟨3, 0⟩, ⟨2, 0⟩, ⟨1, 0⟩]) := by
  have h100 : (100 : ℚ) < DBL_MAX / 2 := small_lt_half_max 100 (by norm_num)
  have h200 : (200 : ℚ) < DBL_MAX / 2 := small_lt_half_max 200 (by norm_num)
  have hmax : ¬ (250 : ℚ) ≥ DBL_MAX := by unfold DBL_MAX; norm_num
  have p1 : (new ridge).project_on_fire_front_path 1 ⟨1, 0⟩ 250 = some (some [⟨1, 0⟩]) := by
    rw [project_on_fire_front_path, if_pos]
    rw [ridge_traversal_end_1]
    norm_num [new_ignitions, GenRaster.get, ridge]
  have p2 : (new ridge).project_on_fire_front_path 2 ⟨2, 0⟩ 250
      = some (some [⟨2, 0⟩, ⟨1, 0⟩]) := by
    rw [project_on_fire_front_path, if_neg, ridge_next_2]
    · simp only []
      rw [if_neg, p1]
      · rfl
      · rw [not_or, not_not, not_not, new_ignitions, ridge_is_in]
        refine ⟨by simp, ?_⟩
        unfold eventually_ignited
        norm_num [new_ignitions, GenRaster.get, ridge, h200]
    · rw [ridge_traversal_end_2]
      norm_num
  rw [project_on_fire_front_path, if_neg, ridge_next_3]
  · simp only []
    rw [if_neg, p2]
    · rfl
    · rw [not_or, not_not, not_not, new_ignitions, ridge_is_in]
      refine ⟨by simp, ?_⟩
      unfold eventually_ignited
      norm_num [new_ignitions, GenRaster.get, ridge, h100]
  · intro h
    apply hmax
    have h1 := h.1
    norm_num [new_ignitions, GenRaster.get, ridge] at h1
    exact h1

/-- The cell that a walk returns is the last of the cells of its calls. -/
theorem project_on_fire_front_of_path (fd : FireData) (t : ℚ) (fuel : Nat) (c : Cell)
    (l : List Cell) (h : fd.project_on_fire_front_path fuel c t = some (some l)) :
    ∃ r, fd.project_on_fire_front fuel c t = some (some r) ∧ l.getLast? = some r := by
  obtain ⟨i1, i2, i3⟩ := project_on_fire_front_path_spec fd t fuel c
  cases hp : fd.project_on_fire_front fuel c t with
  | none => rw [i1.mpr hp] at h; simp at h
  | some o =>
    cases o with
    | none => rw [i2.mpr hp] at h; simp at h
    | some r =>
      obtain ⟨l', hl', _, hlast⟩ := i3 r hp
      rw [hl'] at h
      simp only [Option.some.injEq] at h
      subst h
      exact ⟨r, rfl, hlast⟩

/-- Claim C29, counterexample. On the ridge (ignition times 300, 200, 100 and a cell that is
never ignited) the walk from the never ignited cell (3, 0) at time 250, which is before its
ignition, returns the cell (1, 0) through the cell (2, 0); the step from (2, 0) to (1, 0) is
taken after the traversal end of (2, 0), to a cell of later ignition: it is not downhill. -/
theorem C29_counterexample_never_ignited_start :
    ridge.is_in ⟨3, 0⟩ ∧ 250 < ridge.get ⟨3, 0⟩
    ∧ (new ridge).project_on_fire_front 3 ⟨3, 0⟩ 250 = some (some ⟨1, 0⟩)
    ∧ (new ridge).project_on_fire_front_path 3 ⟨3, 0⟩ 250
        = some (some [⟨3, 0⟩, ⟨2, 0⟩, ⟨1, 0⟩])
    ∧ 250 > (new ridge).traversal_end.get ⟨2, 0⟩ ∧ ridge.get ⟨2, 0⟩ < ridge.get ⟨1, 0⟩
    ∧ ¬ List.Chain' (fun a b => 250 < ridge.get a ∧ ridge.get b ≤ ridge.get a)
        [⟨3, 0⟩, ⟨2, 0⟩, ⟨1, 0⟩] := by
  have hmax : (250 : ℚ) < DBL_MAX := by unfold DBL_MAX; norm_num
  refine ⟨by rw [ridge_is_in]; simp, ?_, ?_, ridge_path, ?_, ?_, ?_⟩
  · norm_num [GenRaster.get, ridge, hmax]
  · obtain ⟨r, hr, hlast⟩ := project_on_fire_front_of_path (new ridge) 250 3 ⟨3, 0⟩ _ ridge_path
    simp only [List.getLast?_cons_cons, List.getLast?_singleton, Option.some.injEq] at hlast
    rw [hr, hlast]
  · rw [ridge_traversal_end_2]; norm_num
  · norm_num [GenRaster.get, ridge]
  · intro h
    have h2 := (List.chain'_cons.mp (List.chain'_cons.mp h).2).1.2
    norm_num [GenRaster.get, ridge] at h2

/-- Claim C29, amended. For every ignition raster, every cell `c` of the grid and every time
`t`: when `project_on_fire_front(c, t)` returns `r`, the cells of its calls go from `c` to `r`;
if `t > traversal_end(c)` every step is taken uphill (after the traversal end of the cell it
leaves, to a cell whose ignition is not before) and `ignitions(c) ≤ ignitions(r)`; if
`t < ignitions(c)` and `c` is eventually ignited every step is taken downhill (before the
ignition of the cell it leaves, to a cell whose ignition is not after) and
`ignitions(r) ≤ ignitions(c)`. -/
theorem C29_walk_never_reverses (ignitions : Raster) (fuel : Nat) (c r : Cell) (t : ℚ)
    (hc : ignitions.is_in c)
    (h : (new ignitions).project_on_fire_front fuel c t = some (some r)) :
    ∃ l, (new ignitions).project_on_fire_front_path fuel c t = some (some l)
      ∧ l.head? = some c ∧ l.getLast? = some r
      ∧ (t > (new ignitions).traversal_end.get c →
          List.Chain' (fun a b => t > (new ignitions).traversal_end.get a
            ∧ ignitions.get a ≤ ignitions.get b) l
          ∧ ignitions.get c ≤ ignitions.get r)
      ∧ (t < ignitions.get c → (new ignitions).eventually_ignited c →
          List.Chain' (fun a b => t < ignitions.get a ∧ ignitions.get b ≤ ignitions.get a) l
          ∧ ignitions.get r ≤ ignitions.get c) := by
  obtain ⟨l, hl, hhead, hlast⟩ := (project_on_fire_front_path_spec (new ignitions) t fuel c).2.2 r h
  have hle := ignitions_le_traversal_end ignitions c hc
  rw [new_ignitions] at hle
  refine ⟨l, hl, hhead, hlast, ?_, ?_⟩
  · intro ht
    obtain ⟨_, hchain, hlast'⟩ := walk_up ignitions t fuel c l hc (le_trans hle ht.le) hl
    exact ⟨hchain, hlast' r hlast⟩
  · intro ht hev
    obtain ⟨_, hchain, hlast'⟩ :=
      walk_down ignitions t fuel c l hc hev (le_trans ht.le hle) hl
    exact ⟨hchain, hlast' r hlast⟩

theorem C29_witness :
    ∃ l, (new slope).project_on_fire_front_path 2 ⟨0, 0⟩ 150 = some (some l)
      ∧ l.head? = some ⟨0, 0⟩ ∧ l.getLast? = some ⟨1, 0⟩
      ∧ (150 > (new slope).traversal_end.get ⟨0, 0⟩ →
          List.Chain' (fun a b => 150 > (new slope).traversal_end.get a
            ∧ slope.get a ≤ slope.get b) l
          ∧ slope.get ⟨0, 0⟩ ≤ slope.get ⟨1, 0⟩)
      ∧ (150 < slope.get ⟨0, 0⟩ → (new slope).eventually_ignited ⟨0, 0⟩ →
          List.Chain' (fun a b => 150 < slope.get a ∧ slope.get b ≤ slope.get a) l
          ∧ slope.get ⟨1, 0⟩ ≤ slope.get ⟨0, 0⟩) :=
  C29_walk_never_reverses slope 2 ⟨0, 0⟩ ⟨1, 0⟩ 150 (by rw [slope_is_in]; simp) slope_walk

/-! ## The steps of the quantized direction -/

/-- The index of an angle from 0 to `2π`, `2π` excluded, is from 0 to 8. -/
theorem round_index_bounds (x : ℝ) (h0 : 0 ≤ x) (h2 : x < 2 * Real.pi) :
    0 ≤ round (x / (Real.pi / 4)) ∧ round (x / (Real.pi / 4)) ≤ 8 := by
  have hpi := Real.pi_pos
  have hy0 : 0 ≤ x / (Real.pi / 4) := div_nonneg h0 (by positivity)
  have hy8 : x / (Real.pi / 4) < 8 := by
    rw [div_lt_iff₀ (by positivity)]
    linarith
  rw [round_eq]
  constructor
  · exact Int.floor_nonneg.mpr (by linarith)
  · have : ⌊x / (Real.pi / 4) + 1 / 2⌋ < 9 := by
      rw [Int.floor_lt]
      push_cast
      linarith
    omega

/-- Claim C24. For every angle `θ` from `-π` to `π`, with `positive_modulo(θ, 2π)` being
`θ + 2π` for a negative `θ` and `θ` otherwise: the index
`lround(positive_modulo(θ, 2π) / (π/4))` is from 0 to 8, so that the assertion holds; after the
reduction modulo 8 the step `(dx, dy)` has both components among -1, 0 and 1 and is not (0, 0);
the indices 0 to 7 give the steps (1,0), (1,1), (0,1), (-1,1), (-1,0), (-1,-1), (0,-1),
(1,-1); and the index `discrete_dir` that the walk computes from a stored direction is from 0
to 7, with a step that is not (0, 0). -/
theorem C24_quantization_steps (θ : ℝ) (h1 : -Real.pi ≤ θ) (h2 : θ ≤ Real.pi) :
    (0 ≤ round ((if θ < 0 then θ + 2 * Real.pi else θ) / (Real.pi / 4))
      ∧ round ((if θ < 0 then θ + 2 * Real.pi else θ) / (Real.pi / 4)) ≤ 8)
    ∧ ((step_dx (round ((if θ < 0 then θ + 2 * Real.pi else θ) / (Real.pi / 4)) % 8) = -1
        ∨ step_dx (round ((if θ < 0 then θ + 2 * Real.pi else θ) / (Real.pi / 4)) % 8) = 0
        ∨ step_dx (round ((if θ < 0 then θ + 2 * Real.pi else θ) / (Real.pi / 4)) % 8) = 1)
      ∧ (step_dy (round ((if θ < 0 then θ + 2 * Real.pi else θ) / (Real.pi / 4)) % 8) = -1
        ∨ step_dy (round ((if θ < 0 then θ + 2 * Real.pi else θ) / (Real.pi / 4)) % 8) = 0
        ∨ step_dy (round ((if θ < 0 then θ + 2 * Real.pi else θ) / (Real.pi / 4)) % 8) = 1)
      ∧ ¬ (step_dx (round ((if θ < 0 then θ + 2 * Real.pi else θ) / (Real.pi / 4)) % 8) = 0
        ∧ step_dy (round ((if θ < 0 then θ + 2 * Real.pi else θ) / (Real.pi / 4)) % 8) = 0))
    ∧ ((step_dx 0, step_dy 0) = (1, 0) ∧ (step_dx 1, step_dy 1) = (1, 1)
      ∧ (step_dx 2, step_dy 2) = (0, 1) ∧ (step_dx 3, step_dy 3) = (-1, 1)
      ∧ (step_dx 4, step_dy 4) = (-1, 0) ∧ (step_dx 5, step_dy 5) = (-1, -1)
      ∧ (step_dx 6, step_dy 6) = (0, -1) ∧ (step_dx 7, step_dy 7) = (1, -1))
    ∧ (∀ d : Direction, 0 ≤ discrete_dir d ∧ discrete_dir d < 8
        ∧ ¬ (step_dx (discrete_dir d) = 0 ∧ step_dy (discrete_dir d) = 0)) := by
  have hpi := Real.pi_pos
  have hx0 : 0 ≤ (if θ < 0 then θ + 2 * Real.pi else θ) := by
    split_ifs with h
    · linarith
    · exact not_lt.mp h
  have hx2 : (if θ < 0 then θ + 2 * Real.pi else θ) < 2 * Real.pi := by
    split_ifs with h
    · linarith
    · linarith
  refine ⟨round_index_bounds _ hx0 hx2, ?_, by decide, ?_⟩
  · exact step_cases _ (Int.emod_nonneg _ (by decide)) (Int.emod_lt_of_pos _ (by decide))
  · intro d
    have hd := discrete_dir_bounds d
    exact ⟨hd.1, hd.2, (step_cases _ hd.1 hd.2).2.2⟩

theorem C24_witness :
    0 ≤ round ((if (0 : ℝ) < 0 then (0 : ℝ) + 2 * Real.pi else 0) / (Real.pi / 4))
      ∧ round ((if (0 : ℝ) < 0 then (0 : ℝ) + 2 * Real.pi else 0) / (Real.pi / 4)) ≤ 8 :=
  (C24_quantization_steps 0 (neg_nonpos.mpr Real.pi_pos.le) Real.pi_pos.le).1

end FireData

namespace Plan

/-! ## The observations within a time window -/

/-- A loop that appends a list for each element appends their concatenation. -/
theorem foldl_append_flatMap {β γ : Type} (f : β → List γ) :
    ∀ (l : List β) (acc : List γ),
      l.foldl (fun acc a => acc ++ f a) acc = acc ++ l.flatMap f := by
  intro l
  induction l with
  | nil => intro acc; simp
  | cons a l ih =>
    intro acc
    rw [List.foldl_cons, ih, List.flatMap_cons, List.append_assoc]

/-- The body of the loop over the maneuvers of `observations(tw)` appends the observations of
the maneuver. -/
theorem observations_body (trace : Segment3d → UAV → Raster → Option (List Cell))
    (p : Plan Trajectory) (tw : TimeWindow) (traj : Trajectory) (seg_id : Nat)
    (obs : List PositionTime) :
    (if tw.contains ⟨traj.start_time seg_id, traj.end_time seg_id⟩ then
      match trace (traj.maneuver seg_id) traj.conf.uav p.firedata.ignitions with
      | some cells =>
        cells.foldl (fun obs c =>
          if p.firedata.ignitions.get c ≤ traj.start_time seg_id
              ∧ traj.start_time seg_id ≤ p.firedata.traversal_end.get c
          then obs ++ [⟨p.firedata.ignitions.as_position c, traj.start_time seg_id⟩]
          else obs) obs
      | none => obs
    else obs) = obs ++ observations_of_segment trace p tw traj seg_id := by
  unfold observations_of_segment
  split_ifs with h
  · cases trace (traj.maneuver seg_id) traj.conf.uav p.firedata.ignitions with
    | none => simp
    | some cells =>
      exact foldl_append_if (fun c => p.firedata.ignitions.get c ≤ traj.start_time seg_id
          ∧ traj.start_time seg_id ≤ p.firedata.traversal_end.get c)
        (fun c => (⟨p.firedata.ignitions.as_position c, traj.start_time seg_id⟩ : PositionTime))
        cells obs
  · simp

/-- The list of `observations(tw)`: the observations made previously, then the observations of
every maneuver of every trajectory, in order. -/
theorem observations_eq (trace : Segment3d → UAV → Raster → Option (List Cell))
    (p : Plan Trajectory) (tw : TimeWindow) :
    observations trace p tw
      = p.observed_previously ++ p.trajectories.flatMap (fun traj =>
          (List.range traj.size).flatMap (observations_of_segment trace p tw traj)) := by
  unfold observations
  rw [← foldl_append_flatMap]
  apply List.foldl_ext
  intro obs traj _
  simp only []
  rw [← foldl_append_flatMap]
  apply List.foldl_ext
  intro obs seg_id _
  exact observations_body trace p tw traj seg_id obs

/-- Claim C26. For every plan and time window `tw`, the list of `observations(tw)` is
`observed_previously`, in its order, followed by what the maneuvers of the trajectories add in
turn; a maneuver whose window from start time to end time is not inside `tw` adds nothing; and
an element that a maneuver adds is the position of a cell `c` of its trace with
`ignitions(c) ≤ start_time ≤ traversal_end(c)`, with the start time of the maneuver. -/
theorem C26_observations (trace : Segment3d → UAV → Raster → Option (List Cell))
    (p : Plan Trajectory) (tw : TimeWindow) :
    observations trace p tw
      = p.observed_previously ++ p.trajectories.flatMap (fun traj =>
          (List.range traj.size).flatMap (observations_of_segment trace p tw traj))
    ∧ (∀ (traj : Trajectory) (seg_id : Nat),
        ¬ tw.contains ⟨traj.start_time seg_id, traj.end_time seg_id⟩ →
        observations_of_segment trace p tw traj seg_id = [])
    ∧ (∀ (traj : Trajectory) (seg_id : Nat) (o : PositionTime),
        o ∈ observations_of_segment trace p tw traj seg_id ↔
          (tw.contains ⟨traj.start_time seg_id, traj.end_time seg_id⟩
            ∧ ∃ cells, trace (traj.maneuver seg_id) traj.conf.uav p.firedata.ignitions
                = some cells
              ∧ ∃ c ∈ cells, p.firedata.ignitions.get c ≤ traj.start_time seg_id
                ∧ traj.start_time seg_id ≤ p.firedata.traversal_end.get c
                ∧ o = ⟨p.firedata.ignitions.as_position c, traj.start_time seg_id⟩)) := by
  refine ⟨observations_eq trace p tw, ?_, ?_⟩
  · intro traj seg_id h
    unfold observations_of_segment
    rw [if_neg h]
  · intro traj seg_id o
    unfold observations_of_segment
    by_cases h : tw.contains ⟨traj.start_time seg_id, traj.end_time seg_id⟩
    · rw [if_pos h]
      cases trace (traj.maneuver seg_id) traj.conf.uav p.firedata.ignitions with
      | none => simp
      | some cells =>
        simp only [List.mem_map, List.mem_filter, decide_eq_true_eq, Option.some.injEq,
          exists_eq_left']
        constructor
        · rintro ⟨c, ⟨hc, h1, h2⟩, rfl⟩
          exact ⟨h, c, hc, h1, h2, rfl⟩
        · rintro ⟨_, c, hc, h1, h2, rfl⟩
          exact ⟨c, ⟨hc, h1, h2⟩, rfl⟩
    · rw [if_neg h]
      simp [h]

end Plan
/-! ## The projection of a segment over the plateau -/

namespace FireData

/-- On the plateau, the cell of the point `(z, 0)` is `(z, 0)`. -/
theorem plateau_as_cell (z : Int) : (new plateau).ignitions.as_cell ⟨(z : ℚ), 0⟩ = ⟨z, 0⟩ := by
  unfold GenRaster.as_cell GenRaster.x_index GenRaster.y_index
  have h1 : ((z : ℚ) - (new plateau).ignitions.x_offset) / (new plateau).ignitions.cell_width
      = (z : ℚ) := by
    norm_num [new_ignitions, plateau]
  have h2 : ((0 : ℚ) - (new plateau).ignitions.y_offset) / (new plateau).ignitions.cell_width
      = ((0 : Int) : ℚ) := by
    norm_num [new_ignitions, plateau]
  rw [h1, h2, Plan.lround_intCast, Plan.lround_intCast]

/-- On the plateau, the projection at time 200 of the segment at the cell (1, 0) runs out of
any fuel, as the walk on the cells does. -/
theorem plateau_project_out_of_fuel (fuel : Nat) :
    (new plateau).project_on_firefront fuel (s_at 1) slow_uav 200 = none := by
  unfold project_on_firefront
  have hc : (slow_uav.visibilty_center (s_at 1)).position = ⟨((1 : Int) : ℚ), 0⟩ := by
    norm_num [slow_uav, s_at, Waypoint3d.position]
  simp only [hc, plateau_as_cell, GenRaster.is_in_position]
  rw [if_neg (not_not.mpr (by rw [new_ignitions, plateau_is_in]; simp)),
    (plateau_walk_out_of_fuel fuel).1]

end FireData

namespace Plan

/-! ## The possible observations of the constructor -/

/-- No cell comes twice in the loops over the cells of a raster. -/
theorem grid_cells_nodup {α : Type} (r : GenRaster α) : (grid_cells r).Nodup := by
  unfold grid_cells
  rw [List.nodup_flatMap]
  constructor
  · intro x _
    apply List.Nodup.map _ (List.nodup_range _)
    intro a b h
    simpa using h
  · apply List.Pairwise.imp _ (List.nodup_range _)
    intro a b hab
    rw [Function.onFun, List.disjoint_iff_ne]
    intro c1 h1 c2 h2 he
    obtain ⟨y1, _, rfl⟩ := List.mem_map.mp h1
    obtain ⟨y2, _, rfl⟩ := List.mem_map.mp h2
    simp only [Cell.mk.injEq, Nat.cast_inj] at he
    exact hab he.1

/-- Claim C28. For every ignition raster, time window and list `observed_previously`, the
list `possible_observations` that the constructor of `Plan` builds is made of the elements of
cells of the grid of which none comes twice; the element of a cell `c` carries the position of
`c` and the window from `ignitions(c)` to `traversal_end(c)`, whose start is not after its end;
and with a cell width other than 0 no two elements are in the same cell. -/
theorem C28_possible_observations_windows {Tr : Type} (trajectories : List Tr)
    (ignitions : Raster) (tw : TimeWindow) (observed_previously : List PositionTime) :
    (∃ cells : List Cell, cells.Nodup ∧ (∀ c ∈ cells, ignitions.is_in c)
      ∧ (Plan.new trajectories (FireData.new ignitions) tw
            observed_previously).possible_observations
          = cells.map (fun c => ⟨ignitions.as_position c,
              ⟨ignitions.get c, (FireData.new ignitions).traversal_end.get c⟩⟩))
    ∧ (∀ o ∈ (Plan.new trajectories (FireData.new ignitions) tw
          observed_previously).possible_observations, o.tw.start ≤ o.tw.stop)
    ∧ (ignitions.cell_width ≠ 0 →
        ((Plan.new trajectories (FireData.new ignitions) tw
          observed_previously).possible_observations.map
            (fun o => ignitions.as_cell o.pt)).Nodup) := by
  have hpo : (Plan.new trajectories (FireData.new ignitions) tw
      observed_previously).possible_observations
      = possible_observations_init (FireData.new ignitions) tw observed_previously := rfl
  rw [hpo, possible_observations_init_eq]
  have hnodup := (grid_cells_nodup (FireData.new ignitions).ignitions).filter (fun c =>
    decide (tw.start ≤ (FireData.new ignitions).ignitions.get c
      ∧ (FireData.new ignitions).ignitions.get c ≤ tw.stop
      ∧ c ∉ observed_previously.map (fun pt => (FireData.new ignitions).ignitions.as_cell pt.pt)))
  have hin : ∀ c ∈ (grid_cells (FireData.new ignitions).ignitions).filter (fun c =>
      decide (tw.start ≤ (FireData.new ignitions).ignitions.get c
        ∧ (FireData.new ignitions).ignitions.get c ≤ tw.stop
        ∧ c ∉ observed_previously.map
            (fun pt => (FireData.new ignitions).ignitions.as_cell pt.pt))),
      ignitions.is_in c := by
    intro c hc
    exact (mem_grid_cells _ c).mp (List.mem_filter.mp hc).1
  refine ⟨⟨_, hnodup, hin, rfl⟩, ?_, ?_⟩
  · intro o ho
    obtain ⟨c, hc, rfl⟩ := List.mem_map.mp ho
    exact FireData.ignitions_le_traversal_end ignitions c (hin c hc)
  · intro hw
    rw [List.map_map]
    have hid : ∀ c : Cell,
        ((fun o : PointTimeWindow => ignitions.as_cell o.pt) ∘ observation_of
          (FireData.new ignitions)) c = c := by
      intro c
      exact as_cell_as_position ignitions hw c
    rw [List.map_congr_left (fun c _ => hid c), List.map_id']
    exact hnodup

/-! ## The range of the radial utility -/

/-- The variable `min_dist` is at most the square of `MAX_INFORMATIVE_DISTANCE`, is not
negative, and is below a bound exactly when this square or a squared distance is. -/
theorem min_dist_bounds (p : PointTimeWindow) (O : List PositionTime) :
    0 ≤ min_dist p O ∧ min_dist p O ≤ 250000
    ∧ (∀ b : ℚ, b < 250000 → (min_dist p O ≤ b ↔ ∃ o ∈ O, p.pt.dist_squared o.pt ≤ b))
    ∧ (min_dist p O = 250000 ↔ ∀ o ∈ O, 250000 ≤ p.pt.dist_squared o.pt) := by
  have hmin := min_dist_isMinimumOf p O (MAX_INFORMATIVE_DISTANCE ^ 2)
  have h500 : MAX_INFORMATIVE_DISTANCE ^ 2 = 250000 := by
    unfold MAX_INFORMATIVE_DISTANCE; norm_num
  rw [h500] at hmin
  have hmd : min_dist p O
      = O.foldl (fun m obs => min m (p.pt.dist_squared obs.pt)) 250000 := by
    unfold min_dist; rw [h500]
  rw [← hmd] at hmin
  obtain ⟨hmem, hle⟩ := hmin
  have hsq : ∀ o : PositionTime, 0 ≤ p.pt.dist_squared o.pt := by
    intro o; unfold Position.dist_squared; positivity
  refine ⟨?_, hle _ (List.mem_cons_self _ _), ?_, ?_⟩
  · rcases List.mem_cons.mp hmem with h | h
    · rw [h]; norm_num
    · obtain ⟨o, _, ho⟩ := List.mem_map.mp h
      rw [← ho]; exact hsq o
  · intro b hb
    constructor
    · intro h
      rcases List.mem_cons.mp hmem with h1 | h1
      · rw [h1] at h; exact absurd h (not_le.mpr hb)
      · obtain ⟨o, ho, he⟩ := List.mem_map.mp h1
        exact ⟨o, ho, by rw [he]; exact h⟩
    · rintro ⟨o, ho, h⟩
      exact le_trans (hle _ (List.mem_cons_of_mem _ (List.mem_map.mpr ⟨o, ho, rfl⟩))) h
  · constructor
    · intro h o ho
      rw [← h]
      exact hle _ (List.mem_cons_of_mem _ (List.mem_map.mpr ⟨o, ho, rfl⟩))
    · intro h
      apply le_antisymm (hle _ (List.mem_cons_self _ _))
      rcases List.mem_cons.mp hmem with h1 | h1
      · rw [h1]
      · obtain ⟨o, ho, he⟩ := List.mem_map.mp h1
        rw [← he]; exact h o ho

theorem chord_sqrt_strictMonoOn : StrictMonoOn chord_sqrt (Set.Ici 0) := by
  intro x _ y _ hxy
  unfold chord_sqrt
  split_ifs with h1 h2 h2
  · linarith
  · have : x / 50 ≤ 50 := by linarith
    have : 0 < (y - 2500) / 550 := by
      apply div_pos <;> linarith
    linarith
  · linarith
  · linarith

/-- Claim C31, counterexample. With the only done observation at the distance 500 of a
possible observation, `Rat.sqrt` being exact on the square of 500, the utility written is 1
although an observation is within the distance 500. If "within" is read as "at a distance
below" instead, the other half of the claim fails: with the only done observation at the
distance 50 the utility written is 0 although no observation is at a distance below 50. -/
theorem C31_counterexample_observation_at_500 :
    (radial_utility Rat.sqrt ⟨⟨0, 0⟩, ⟨0, 100⟩⟩ [⟨⟨500, 0⟩, 0⟩] = 1
      ∧ ∃ o ∈ [(⟨⟨500, 0⟩, 0⟩ : PositionTime)],
          Position.dist_squared ⟨0, 0⟩ o.pt ≤ MAX_INFORMATIVE_DISTANCE ^ 2)
    ∧ (radial_utility Rat.sqrt ⟨⟨0, 0⟩, ⟨0, 100⟩⟩ [⟨⟨50, 0⟩, 0⟩] = 0
      ∧ ¬ ∃ o ∈ [(⟨⟨50, 0⟩, 0⟩ : PositionTime)],
          Position.dist_squared ⟨0, 0⟩ o.pt < REDUNDANT_OBS_DIST ^ 2) := by
  have s50 : Rat.sqrt 2500 = 50 := by
    rw [show (2500 : ℚ) = 50 * 50 by norm_num, Rat.sqrt_eq]
    norm_num
  refine ⟨⟨?_, ?_⟩, ?_, ?_⟩
  · unfold radial_utility min_dist MAX_INFORMATIVE_DISTANCE REDUNDANT_OBS_DIST
    simp only [List.foldl_cons, List.foldl_nil, Position.dist_squared]
    norm_num [rat_sqrt_250000]
  · refine ⟨⟨⟨500, 0⟩, 0⟩, by simp, ?_⟩
    unfold Position.dist_squared MAX_INFORMATIVE_DISTANCE
    norm_num
  · unfold radial_utility min_dist MAX_INFORMATIVE_DISTANCE REDUNDANT_OBS_DIST
    simp only [List.foldl_cons, List.foldl_nil, Position.dist_squared]
    norm_num [s50]
  · rintro ⟨o, ho, h⟩
    simp only [List.mem_singleton] at ho
    rw [ho] at h
    unfold Position.dist_squared REDUNDANT_OBS_DIST at h
    norm_num at h

/-- Claim C31, amended. For every possible observation and every list of done observations,
with a square root that is strictly increasing on the numbers that are not negative and exact
on the squares of 50 and 500: the value that the radial utility map writes is from 0 to 1; it
is 0 exactly when some observation is at a distance of at most 50, `REDUNDANT_OBS_DIST`, of the
possible observation; and it is 1 exactly when every observation is at a distance of at least
500, `MAX_INFORMATIVE_DISTANCE`, that is when no observation is at a distance below 500. -/
theorem C31_radial_utility_range (sqrt : ℚ → ℚ) (hmono : StrictMonoOn sqrt (Set.Ici 0))
    (h50 : sqrt (REDUNDANT_OBS_DIST ^ 2) = REDUNDANT_OBS_DIST)
    (h500 : sqrt (MAX_INFORMATIVE_DISTANCE ^ 2) = MAX_INFORMATIVE_DISTANCE)
    (p : PointTimeWindow) (O : List PositionTime) :
    (0 ≤ radial_utility sqrt p O ∧ radial_utility sqrt p O ≤ 1)
    ∧ (radial_utility sqrt p O = 0
        ↔ ∃ o ∈ O, p.pt.dist_squared o.pt ≤ REDUNDANT_OBS_DIST ^ 2)
    ∧ (radial_utility sqrt p O = 1
        ↔ ∀ o ∈ O, MAX_INFORMATIVE_DISTANCE ^ 2 ≤ p.pt.dist_squared o.pt) := by
  have e50 : REDUNDANT_OBS_DIST ^ 2 = 2500 := by unfold REDUNDANT_OBS_DIST; norm_num
  have e500 : MAX_INFORMATIVE_DISTANCE ^ 2 = 250000 := by
    unfold MAX_INFORMATIVE_DISTANCE; norm_num
  rw [e50] at h50 ⊢
  rw [e500] at h500 ⊢
  have h50 : sqrt 2500 = 50 := h50
  have h500 : sqrt 250000 = 500 := h500
  obtain ⟨hm0, hm500, hlow, hhigh⟩ := min_dist_bounds p O
  have hle : ∀ b : ℚ, 0 ≤ b → (sqrt (min_dist p O) ≤ sqrt b ↔ min_dist p O ≤ b) :=
    fun b hb => hmono.le_iff_le hm0 hb
  have hs500 : sqrt (min_dist p O) ≤ 500 := by
    have := (hle 250000 (by norm_num)).mpr hm500
    rw [h500] at this
    exact this
  have hu : radial_utility sqrt p O = (max (sqrt (min_dist p O)) 50 - 50) / 450 := by
    unfold radial_utility MAX_INFORMATIVE_DISTANCE REDUNDANT_OBS_DIST
    norm_num
  rw [hu]
  refine ⟨⟨?_, ?_⟩, ?_, ?_⟩
  · apply div_nonneg _ (by norm_num)
    linarith [le_max_right (sqrt (min_dist p O)) 50]
  · rw [div_le_one (by norm_num)]
    have : max (sqrt (min_dist p O)) 50 ≤ 500 := max_le hs500 (by norm_num)
    linarith
  · rw [← hlow 2500 (by norm_num), ← hle 2500 (by norm_num), h50]
    constructor
    · intro h
      have h1 : max (sqrt (min_dist p O)) 50 = 50 := by
        have := (div_eq_zero_iff.mp h).resolve_right (by norm_num)
        linarith
      rw [← h1]
      exact le_max_left _ _
    · intro h
      rw [max_eq_right h]
      norm_num
  · rw [← hhigh]
    constructor
    · intro h
      have h1 : max (sqrt (min_dist p O)) 50 = 500 := by
        have := (div_eq_one_iff_eq (by norm_num : (450 : ℚ) ≠ 0)).mp h
        linarith
      have h2 : sqrt (min_dist p O) = 500 := by
        rcases max_choice (sqrt (min_dist p O)) 50 with hc | hc
        · rw [hc] at h1; exact h1
        · rw [hc] at h1; norm_num at h1
      apply le_antisymm hm500
      have h3 : sqrt 250000 ≤ sqrt (min_dist p O) := by rw [h500, h2]
      exact (hmono.le_iff_le (by norm_num : (250000 : ℚ) ∈ Set.Ici 0) hm0).mp h3
    · intro h
      rw [h, h500]
      norm_num

theorem C31_witness :
    (0 ≤ radial_utility chord_sqrt ⟨⟨0, 0⟩, ⟨0, 100⟩⟩ [⟨⟨30, 40⟩, 0⟩]
      ∧ radial_utility chord_sqrt ⟨⟨0, 0⟩, ⟨0, 100⟩⟩ [⟨⟨30, 40⟩, 0⟩] ≤ 1)
    ∧ (radial_utility chord_sqrt ⟨⟨0, 0⟩, ⟨0, 100⟩⟩ [⟨⟨30, 40⟩, 0⟩] = 0
        ↔ ∃ o ∈ [(⟨⟨30, 40⟩, 0⟩ : PositionTime)],
            Position.dist_squared (⟨⟨0, 0⟩, ⟨0, 100⟩⟩ : PointTimeWindow).pt o.pt
              ≤ REDUNDANT_OBS_DIST ^ 2)
    ∧ (radial_utility chord_sqrt ⟨⟨0, 0⟩, ⟨0, 100⟩⟩ [⟨⟨30, 40⟩, 0⟩] = 1
        ↔ ∀ o ∈ [(⟨⟨30, 40⟩, 0⟩ : PositionTime)],
            MAX_INFORMATIVE_DISTANCE ^ 2
              ≤ Position.dist_squared (⟨⟨0, 0⟩, ⟨0, 100⟩⟩ : PointTimeWindow).pt o.pt) :=
  C31_radial_utility_range chord_sqrt chord_sqrt_strictMonoOn
    (by norm_num [chord_sqrt, REDUNDANT_OBS_DIST])
    (by norm_num [chord_sqrt, MAX_INFORMATIVE_DISTANCE])
    ⟨⟨0, 0⟩, ⟨0, 100⟩⟩ [⟨⟨30, 40⟩, 0⟩]

end Plan

/-! ## The gradient of a lone cell -/

namespace FireData

end FireData

/-! ## The outcomes of the calls and the indices of the loops -/

/-- An index that is not negative is unchanged by the conversion to `size_t`. -/
theorem to_size_t_of_nonneg (z : Int) (h : 0 ≤ z) : to_size_t z = z.toNat := by
  unfold to_size_t
  rw [if_neg (by omega)]

/-- The index `-1` or `-2` wraps around to an index that no loop reaches from 0 or 1. -/
theorem to_size_t_of_neg (z : Int) (h : z < 0) (h2 : -2 ≤ z) : 1 < to_size_t z := by
  unfold to_size_t
  rw [if_pos h]
  have : (2 : Int) ^ 64 = 18446744073709551616 := by norm_num
  omega

namespace Trajectory

/-- The last modifiable maneuver is a maneuver of the trajectory. -/
theorem last_lt_size (traj : Trajectory) : traj.last_modifiable_maneuver < traj.size := by
  unfold Trajectory.last_modifiable_maneuver
  split <;> omega

/-- The last modifiable maneuver is at least `-2`. -/
theorem last_ge (traj : Trajectory) : -2 ≤ traj.last_modifiable_maneuver := by
  unfold Trajectory.last_modifiable_maneuver
  split <;> omega

/-- A trajectory whose last modifiable maneuver is negative has at most one maneuver. -/
theorem size_le_one_of_last_neg (traj : Trajectory) (h : traj.last_modifiable_maneuver < 0) :
    traj.size ≤ 1 := by
  unfold Trajectory.last_modifiable_maneuver at h
  split at h <;> omega

/-- Erasing a maneuver leaves the configuration. -/
theorem erased_conf (traj : Trajectory) (k : Nat) : (traj.erased k).conf = traj.conf := rfl

theorem erased_first (traj : Trajectory) (k : Nat) :
    (traj.erased k).first_modifiable_maneuver = traj.first_modifiable_maneuver := rfl

/-- Erasing a maneuver of the trajectory moves the last modifiable maneuver down by one. -/
theorem erased_last (traj : Trajectory) (k : Nat) (hk : k < traj.size) :
    (traj.erased k).last_modifiable_maneuver = traj.last_modifiable_maneuver - 1 := by
  unfold Trajectory.size at hk
  unfold Trajectory.last_modifiable_maneuver Trajectory.erased Trajectory.with_maneuvers
    Trajectory.size
  simp only []
  have hlen : (traj.maneuvers.eraseIdx k).length = traj.maneuvers.length - 1 := by
    rw [List.length_eraseIdx, if_pos hk]
  rw [hlen]
  omega

/-- The maneuvers below the erased one stay. -/
theorem erased_maneuver (traj : Trajectory) (k i : Nat) (h : i < k) :
    (traj.erased k).maneuver i = traj.maneuver i := by
  unfold Trajectory.erased Trajectory.with_maneuvers Trajectory.maneuver
  simp only [List.getD_eq_getElem?_getD]
  rw [List.getElem?_eraseIdx, if_pos h]

/-- A mutation that touches no fixed slot and keeps the duration is accepted. -/
theorem mutation_accepted (traj edited : Trajectory) (slot_free : Prop) [Decidable slot_free]
    (h1 : slot_free) (h2 : edited.duration ≤ traj.conf.max_duration) :
    traj.mutation edited slot_free = Except.ok edited :=
  if_pos ⟨h1, h2⟩

/-- An accepted mutation touches no fixed slot, keeps the duration and gives the edited
trajectory. -/
theorem mutation_ok (traj edited result : Trajectory) (slot_free : Prop) [Decidable slot_free]
    (h : traj.mutation edited slot_free = Except.ok result) :
    result = edited ∧ slot_free ∧ edited.duration ≤ traj.conf.max_duration := by
  unfold mutation at h
  split at h
  · rename_i hc
    simp only [Except.ok.injEq] at h
    exact ⟨h.symm, hc.1, hc.2⟩
  · simp at h

end Trajectory

namespace Plan

/-! ## The loop over the trajectories -/

/-- A loop over the trajectories that leaves each of them leaves the list. -/
theorem for_each_identity (f : Trajectory → Outcome Trajectory) :
    ∀ l : List Trajectory, (∀ a ∈ l, f a = some (Except.ok a)) →
      for_each_trajectory f l = some (Except.ok l) := by
  intro l
  induction l with
  | nil => intro _; rfl
  | cons a l ih =>
    intro h
    unfold for_each_trajectory
    rw [h a (List.mem_cons_self a l), Outcome.and_then,
      ih (fun x hx => h x (List.mem_cons_of_mem a hx))]
    rfl

/-- The results of a loop over the trajectories are the results of the trajectories, in
order. -/
theorem for_each_pointwise (f : Trajectory → Outcome Trajectory) :
    ∀ (l r : List Trajectory), for_each_trajectory f l = some (Except.ok r) →
      List.Forall₂ (fun a b => f a = some (Except.ok b)) l r := by
  intro l
  induction l with
  | nil =>
    intro r h
    unfold for_each_trajectory at h
    simp only [Option.some.injEq, Except.ok.injEq] at h
    subst h
    exact List.Forall₂.nil
  | cons a l ih =>
    intro r h
    unfold for_each_trajectory at h
    cases hfa : f a with
    | none => rw [hfa] at h; simp [Outcome.and_then] at h
    | some o =>
      cases o with
      | error e => rw [hfa] at h; simp [Outcome.and_then] at h
      | ok b0 =>
        cases hl : for_each_trajectory f l with
        | none => rw [hfa, hl] at h; simp [Outcome.and_then] at h
        | some o2 =>
          cases o2 with
          | error e => rw [hfa, hl] at h; simp [Outcome.and_then] at h
          | ok r0 =>
            rw [hfa, hl] at h
            simp only [Outcome.and_then, Option.some.injEq, Except.ok.injEq] at h
            subst h
            exact List.Forall₂.cons hfa (ih r0 hl)

/-- Every element of the result of a loop over the trajectories is the result of an element. -/
theorem for_each_mem (f : Trajectory → Outcome Trajectory) (l r : List Trajectory)
    (h : for_each_trajectory f l = some (Except.ok r)) :
    ∀ b ∈ r, ∃ a ∈ l, f a = some (Except.ok b) := by
  have hp := for_each_pointwise f l r h
  clear h
  intro b hb
  induction hp with
  | nil => simp at hb
  | @cons a1 b1 l1 r1 hab _ ih =>
    rcases List.mem_cons.mp hb with hb | hb
    · exact ⟨a1, List.mem_cons_self _ _, by rw [hb]; exact hab⟩
    · obtain ⟨a2, ha2, hfa2⟩ := ih hb
      exact ⟨a2, List.mem_cons_of_mem _ ha2, hfa2⟩

/-- A sequence of two calls returns when both do. -/
theorem and_then_ok {α β : Type} (o : Outcome α) (f : α → Outcome β) (b : β)
    (h : Outcome.and_then o f = some (Except.ok b)) :
    ∃ a, o = some (Except.ok a) ∧ f a = some (Except.ok b) := by
  cases o with
  | none => simp [Outcome.and_then] at h
  | some r =>
    cases r with
    | error e => simp [Outcome.and_then] at h
    | ok a => exact ⟨a, rfl, h⟩

/-! ## The steps of the two loops of the post-processing -/

theorem project_loop_done (fd : FireData) (walk_fuel fuel : Nat) (traj : Trajectory)
    (seg_id : Nat) (h0 : 0 ≤ traj.last_modifiable_maneuver)
    (h : ¬ (seg_id : Int) ≤ traj.last_modifiable_maneuver) :
    project_on_fire_front_loop fd walk_fuel fuel traj seg_id = some (Except.ok traj) := by
  have hg : ¬ seg_id ≤ to_size_t traj.last_modifiable_maneuver := by
    rw [to_size_t_of_nonneg _ h0]; omega
  cases fuel with
  | zero => unfold project_on_fire_front_loop; rw [if_neg hg]
  | succ fuel => unfold project_on_fire_front_loop; rw [if_neg hg]

/-- The test of the loop of `project_on_fire_front` and the read of `traj[seg_id]` pass at a
modifiable maneuver. -/
theorem project_loop_enter (traj : Trajectory) (seg_id : Nat)
    (h : (seg_id : Int) ≤ traj.last_modifiable_maneuver) :
    seg_id ≤ to_size_t traj.last_modifiable_maneuver ∧ ¬ traj.size ≤ seg_id := by
  have hs := traj.last_lt_size
  rw [to_size_t_of_nonneg _ (by omega)]
  omega

theorem project_loop_keep (fd : FireData) (walk_fuel fuel : Nat) (traj : Trajectory)
    (seg_id : Nat) (h : (seg_id : Int) ≤ traj.last_modifiable_maneuver)
    (hp : fd.project_on_firefront walk_fuel (traj.maneuver seg_id) traj.conf.uav
      (traj.start_time seg_id) = some (some (traj.maneuver seg_id))) :
    project_on_fire_front_loop fd walk_fuel (fuel + 1) traj seg_id
      = project_on_fire_front_loop fd walk_fuel fuel traj (seg_id + 1) := by
  obtain ⟨hg, hs⟩ := project_loop_enter traj seg_id h
  rw [project_on_fire_front_loop, if_pos hg, if_neg hs]
  simp only [hp]
  rw [if_neg (not_not.mpr rfl)]

theorem project_loop_replace (fd : FireData) (walk_fuel fuel : Nat) (traj : Trajectory)
    (seg_id : Nat) (projected : Segment3d) (h : (seg_id : Int) ≤ traj.last_modifiable_maneuver)
    (hp : fd.project_on_firefront walk_fuel (traj.maneuver seg_id) traj.conf.uav
      (traj.start_time seg_id) = some (some projected))
    (hne : projected ≠ traj.maneuver seg_id)
    (hfirst : traj.first_modifiable_maneuver ≤ seg_id)
    (hdur : (traj.replaced seg_id projected).duration ≤ traj.conf.max_duration) :
    project_on_fire_front_loop fd walk_fuel (fuel + 1) traj seg_id
      = project_on_fire_front_loop fd walk_fuel fuel (traj.replaced seg_id projected)
          (seg_id + 1) := by
  obtain ⟨hg, hs⟩ := project_loop_enter traj seg_id h
  rw [project_on_fire_front_loop, if_pos hg, if_neg hs]
  simp only [hp]
  rw [if_pos hne]
  unfold Trajectory.replace_segment
  rw [Trajectory.mutation_accepted _ _ _ ⟨hfirst, h⟩ hdur]

theorem project_loop_erase (fd : FireData) (walk_fuel fuel : Nat) (traj : Trajectory)
    (seg_id : Nat) (h : (seg_id : Int) ≤ traj.last_modifiable_maneuver)
    (hp : fd.project_on_firefront walk_fuel (traj.maneuver seg_id) traj.conf.uav
      (traj.start_time seg_id) = some none)
    (hfirst : traj.first_modifiable_maneuver ≤ seg_id)
    (hdur : (traj.erased seg_id).duration ≤ traj.conf.max_duration) :
    project_on_fire_front_loop fd walk_fuel (fuel + 1) traj seg_id
      = project_on_fire_front_loop fd walk_fuel fuel (traj.erased seg_id) seg_id := by
  obtain ⟨hg, hs⟩ := project_loop_enter traj seg_id h
  rw [project_on_fire_front_loop, if_pos hg, if_neg hs]
  simp only [hp]
  unfold Trajectory.erase_segment
  rw [Trajectory.mutation_accepted _ _ _ ⟨hfirst, h⟩ hdur]

theorem smooth_loop_done (dist : Waypoint3d → Waypoint3d → ℚ) (fuel : Nat) (traj : Trajectory)
    (seg_id : Nat) (h0 : 0 ≤ traj.last_modifiable_maneuver)
    (h : ¬ (seg_id : Int) < traj.last_modifiable_maneuver) :
    smooth_trajectory_loop dist fuel traj seg_id = some (Except.ok traj) := by
  have hg : ¬ seg_id < to_size_t traj.last_modifiable_maneuver := by
    rw [to_size_t_of_nonneg _ h0]; omega
  cases fuel with
  | zero => unfold smooth_trajectory_loop; rw [if_neg hg]
  | succ fuel => unfold smooth_trajectory_loop; rw [if_neg hg]

/-- The test of the loop of `smooth_trajectory` and the reads of `traj[seg_id]` and
`traj[seg_id + 1]` pass below the last modifiable maneuver. -/
theorem smooth_loop_enter (traj : Trajectory) (seg_id : Nat)
    (h : (seg_id : Int) < traj.last_modifiable_maneuver) :
    seg_id < to_size_t traj.last_modifiable_maneuver ∧ ¬ traj.size ≤ seg_id + 1 := by
  have hs := traj.last_lt_size
  rw [to_size_t_of_nonneg _ (by omega)]
  omega

/-- When the test of the loop of `smooth_trajectory` passes and the reads are within the
trajectory, the index is below the last modifiable maneuver. -/
theorem smooth_loop_entered (traj : Trajectory) (seg_id : Nat)
    (hg : seg_id < to_size_t traj.last_modifiable_maneuver) (hs : ¬ traj.size ≤ seg_id + 1) :
    (seg_id : Int) < traj.last_modifiable_maneuver := by
  by_cases h0 : traj.last_modifiable_maneuver < 0
  · have := traj.size_le_one_of_last_neg h0
    omega
  · rw [to_size_t_of_nonneg _ (by omega)] at hg
    omega

theorem smooth_loop_advance (dist : Waypoint3d → Waypoint3d → ℚ) (fuel : Nat)
    (traj : Trajectory) (seg_id : Nat) (h : (seg_id : Int) < traj.last_modifiable_maneuver)
    (hn : ¬ traj.tight_loop dist seg_id) :
    smooth_trajectory_loop dist (fuel + 1) traj seg_id
      = smooth_trajectory_loop dist fuel traj (seg_id + 1) := by
  obtain ⟨hg, hs⟩ := smooth_loop_enter traj seg_id h
  rw [smooth_trajectory_loop, if_pos hg, if_neg hs]
  exact if_neg hn

theorem smooth_loop_erase (dist : Waypoint3d → Waypoint3d → ℚ) (fuel : Nat)
    (traj : Trajectory) (seg_id : Nat) (h : (seg_id : Int) < traj.last_modifiable_maneuver)
    (ht : traj.tight_loop dist seg_id)
    (hfirst : traj.first_modifiable_maneuver ≤ seg_id + 1)
    (hdur : (traj.erased (seg_id + 1)).duration ≤ traj.conf.max_duration) :
    smooth_trajectory_loop dist (fuel + 1) traj seg_id
      = smooth_trajectory_loop dist fuel (traj.erased (seg_id + 1)) seg_id := by
  obtain ⟨hg, hs⟩ := smooth_loop_enter traj seg_id h
  rw [smooth_trajectory_loop, if_pos hg, if_neg hs]
  have hacc : traj.erase_segment (seg_id + 1) = Except.ok (traj.erased (seg_id + 1)) := by
    unfold Trajectory.erase_segment
    exact Trajectory.mutation_accepted _ _ _ ⟨hfirst, by push_cast; omega⟩ hdur
  simp only [hacc]
  exact if_pos ht

/-- A loop of `smooth_trajectory` that returns without fuel has passed no test. -/
theorem smooth_loop_zero (dist : Waypoint3d → Waypoint3d → ℚ) (traj : Trajectory)
    (seg_id : Nat) (result : Trajectory)
    (h : smooth_trajectory_loop dist 0 traj seg_id = some (Except.ok result)) :
    ¬ seg_id < to_size_t traj.last_modifiable_maneuver ∧ result = traj := by
  unfold smooth_trajectory_loop at h
  split at h
  · simp at h
  · rename_i hg
    simp only [Option.some.injEq, Except.ok.injEq] at h
    exact ⟨hg, h.symm⟩

/-- The three ways in which an iteration of the loop of `smooth_trajectory` leads to a normal
return: the test fails; the pair makes a tight loop and the next maneuver is erased; or the
index advances. -/
theorem smooth_loop_cases (dist : Waypoint3d → Waypoint3d → ℚ) (fuel : Nat)
    (traj : Trajectory) (seg_id : Nat) (result : Trajectory)
    (h : smooth_trajectory_loop dist (fuel + 1) traj seg_id = some (Except.ok result)) :
    (¬ seg_id < to_size_t traj.last_modifiable_maneuver ∧ result = traj)
    ∨ ((seg_id : Int) < traj.last_modifiable_maneuver ∧ traj.tight_loop dist seg_id
        ∧ smooth_trajectory_loop dist fuel (traj.erased (seg_id + 1)) seg_id
            = some (Except.ok result))
    ∨ ((seg_id : Int) < traj.last_modifiable_maneuver ∧ ¬ traj.tight_loop dist seg_id
        ∧ smooth_trajectory_loop dist fuel traj (seg_id + 1) = some (Except.ok result)) := by
  rw [smooth_trajectory_loop] at h
  by_cases hg : seg_id < to_size_t traj.last_modifiable_maneuver
  · rw [if_pos hg] at h
    by_cases hs : traj.size ≤ seg_id + 1
    · rw [if_pos hs] at h
      simp at h
    · rw [if_neg hs] at h
      have hlt := smooth_loop_entered traj seg_id hg hs
      by_cases ht : traj.tight_loop dist seg_id
      · right; left
        have ht2 : div_gt (traj.conf.uav.travel_distance (traj.maneuver seg_id).stop
            (traj.maneuver (seg_id + 1)).start)
            (dist (traj.maneuver seg_id).stop (traj.maneuver (seg_id + 1)).start) 2 := ht
        simp only [if_pos ht2] at h
        cases he : traj.erase_segment (seg_id + 1) with
        | error e => rw [he] at h; simp at h
        | ok erased =>
          rw [he] at h
          have := Trajectory.mutation_ok _ _ _ _ he
          rw [this.1] at h
          exact ⟨hlt, ht, h⟩
      · right; right
        have ht2 : ¬ div_gt (traj.conf.uav.travel_distance (traj.maneuver seg_id).stop
            (traj.maneuver (seg_id + 1)).start)
            (dist (traj.maneuver seg_id).stop (traj.maneuver (seg_id + 1)).start) 2 := ht
        simp only [if_neg ht2] at h
        exact ⟨hlt, ht, h⟩
  · rw [if_neg hg] at h
    simp only [Option.some.injEq, Except.ok.injEq] at h
    exact Or.inl ⟨hg, h.symm⟩

/-! ## The postcondition of the smoothing -/

/-- What the loop of `smooth_trajectory` returns, from an index that is 0 or 1 or not above the
last modifiable maneuver: the configuration is the one it started from, the last modifiable
maneuver is not negative and, the pairs from `lo` to `seg_id` making no tight loop, no pair of
maneuvers from `lo` to the last modifiable one does. -/
theorem smooth_loop_post (dist : Waypoint3d → Waypoint3d → ℚ) (lo : Nat) :
    ∀ (fuel : Nat) (traj : Trajectory) (seg_id : Nat) (result : Trajectory),
      smooth_trajectory_loop dist fuel traj seg_id = some (Except.ok result) →
      (seg_id ≤ 1 ∨ (seg_id : Int) ≤ traj.last_modifiable_maneuver) →
      (∀ j : Nat, lo ≤ j → j < seg_id → (j : Int) < traj.last_modifiable_maneuver →
        ¬ traj.tight_loop dist j) →
      result.conf = traj.conf
      ∧ 0 ≤ result.last_modifiable_maneuver
      ∧ ∀ j : Nat, lo ≤ j → (j : Int) < result.last_modifiable_maneuver →
          ¬ result.tight_loop dist j := by
  have hexit : ∀ (traj : Trajectory) (seg_id : Nat),
      ¬ seg_id < to_size_t traj.last_modifiable_maneuver →
      (seg_id ≤ 1 ∨ (seg_id : Int) ≤ traj.last_modifiable_maneuver) →
      (∀ j : Nat, lo ≤ j → j < seg_id → (j : Int) < traj.last_modifiable_maneuver →
        ¬ traj.tight_loop dist j) →
      0 ≤ traj.last_modifiable_maneuver
      ∧ ∀ j : Nat, lo ≤ j → (j : Int) < traj.last_modifiable_maneuver →
          ¬ traj.tight_loop dist j := by
    intro traj seg_id hg hsmall hinv
    have h0 : 0 ≤ traj.last_modifiable_maneuver := by
      by_contra hneg
      have h1 := to_size_t_of_neg _ (not_le.mp hneg) traj.last_ge
      omega
    rw [to_size_t_of_nonneg _ h0] at hg
    exact ⟨h0, fun j hlo hj => hinv j hlo (by omega) hj⟩
  intro fuel
  induction fuel with
  | zero =>
    intro traj seg_id result hres hsmall hinv
    obtain ⟨hg, hr⟩ := smooth_loop_zero dist traj seg_id result hres
    subst hr
    exact ⟨rfl, hexit result seg_id hg hsmall hinv⟩
  | succ fuel ih =>
    intro traj seg_id result hres hsmall hinv
    rcases smooth_loop_cases dist fuel traj seg_id result hres with
      ⟨hg, hr⟩ | ⟨h, ht, hrec⟩ | ⟨h, ht, hrec⟩
    · subst hr
      exact ⟨rfl, hexit result seg_id hg hsmall hinv⟩
    · have hsize := traj.last_lt_size
      have hlast := traj.erased_last (seg_id + 1) (by omega)
      exact ih (traj.erased (seg_id + 1)) seg_id result hrec (Or.inr (by omega)) (by
        intro j hlo hj hjl
        have e1 := traj.erased_maneuver (seg_id + 1) j (by omega)
        have e2 := traj.erased_maneuver (seg_id + 1) (j + 1) (by omega)
        unfold Trajectory.tight_loop
        rw [e1, e2, Trajectory.erased_conf]
        exact hinv j hlo hj (by omega))
    · exact ih traj (seg_id + 1) result hrec (Or.inr (by push_cast; omega)) (by
        intro j hlo hj hjl
        by_cases hjs : j = seg_id
        · rw [hjs]; exact ht
        · exact hinv j hlo (by omega) hjl)

/-- When the last modifiable maneuver is not negative and no pair of maneuvers from `seg_id` to
it makes a tight loop, the loop of `smooth_trajectory` leaves the trajectory as it is. -/
theorem smooth_loop_identity (dist : Waypoint3d → Waypoint3d → ℚ) (traj : Trajectory)
    (h0 : 0 ≤ traj.last_modifiable_maneuver) :
    ∀ (fuel seg_id : Nat), (traj.last_modifiable_maneuver - seg_id).toNat ≤ fuel →
      (∀ j : Nat, seg_id ≤ j → (j : Int) < traj.last_modifiable_maneuver →
        ¬ traj.tight_loop dist j) →
      smooth_trajectory_loop dist fuel traj seg_id = some (Except.ok traj) := by
  intro fuel
  induction fuel with
  | zero =>
    intro seg_id hfuel _
    exact smooth_loop_done dist 0 traj seg_id h0 (by omega)
  | succ fuel ih =>
    intro seg_id hfuel hloose
    by_cases h : (seg_id : Int) < traj.last_modifiable_maneuver
    · rw [smooth_loop_advance dist fuel traj seg_id h (hloose seg_id (le_refl _) h)]
      apply ih
      · push_cast; omega
      · intro j hj hjl
        exact hloose j (by omega) hjl
    · exact smooth_loop_done dist (fuel + 1) traj seg_id h0 h

/-- The first modifiable maneuver is the maneuver 0 or 1. -/
theorem first_le_one (traj : Trajectory) : traj.first_modifiable_maneuver ≤ 1 := by
  unfold Trajectory.first_modifiable_maneuver
  split <;> omega

/-- What `smooth_trajectory` returns: the plan it got but for the trajectories, in each of
which the last modifiable maneuver is not negative and no pair of modifiable maneuvers makes a
tight loop. -/
theorem smooth_trajectory_post (dist : Waypoint3d → Waypoint3d → ℚ) (fuel : Nat)
    (p q : Plan Trajectory) (h : smooth_trajectory dist fuel p = some (Except.ok q)) :
    ∀ traj ∈ q.trajectories, 0 ≤ traj.last_modifiable_maneuver
      ∧ ∀ j : Nat, traj.first_modifiable_maneuver ≤ j →
        (j : Int) < traj.last_modifiable_maneuver → ¬ traj.tight_loop dist j := by
  unfold smooth_trajectory at h
  obtain ⟨r, h2, hq⟩ := and_then_ok _ _ _ h
  simp only [Option.some.injEq, Except.ok.injEq] at hq
  subst hq
  intro traj htraj
  obtain ⟨traj1, _, hres⟩ := for_each_mem _ _ _ h2 traj htraj
  have hpost := smooth_loop_post dist traj1.first_modifiable_maneuver fuel traj1
    traj1.first_modifiable_maneuver traj hres (Or.inl (first_le_one traj1))
    (fun j hlo hj _ => absurd hj (by omega))
  have hfirst : traj.first_modifiable_maneuver = traj1.first_modifiable_maneuver := by
    unfold Trajectory.first_modifiable_maneuver
    rw [hpost.1]
  rw [hfirst]
  exact hpost.2

/-- A plan in whose trajectories the last modifiable maneuver is not negative and no pair of
modifiable maneuvers makes a tight loop is left as it is by `smooth_trajectory`. -/
theorem smooth_trajectory_fixed (dist : Waypoint3d → Waypoint3d → ℚ) (fuel : Nat)
    (q : Plan Trajectory)
    (hloose : ∀ traj ∈ q.trajectories, 0 ≤ traj.last_modifiable_maneuver
      ∧ ∀ j : Nat, traj.first_modifiable_maneuver ≤ j →
        (j : Int) < traj.last_modifiable_maneuver → ¬ traj.tight_loop dist j)
    (hfuel : ∀ traj ∈ q.trajectories, traj.modifiable_count ≤ fuel) :
    smooth_trajectory dist fuel q = some (Except.ok q) := by
  unfold smooth_trajectory
  rw [for_each_identity _ _ (fun traj htraj => smooth_loop_identity dist traj
    (hloose traj htraj).1 fuel traj.first_modifiable_maneuver (by
      have := hfuel traj htraj
      unfold Trajectory.modifiable_count at this
      omega) (hloose traj htraj).2)]
  rfl

/-- Claim C25. For every plan on which `smooth_trajectory` returns a plan `q`: no two
consecutive modifiable maneuvers `current`, `next` of a trajectory of `q` pass the test
`travel_distance(current.end, next.start) / dist(current.end, next.start) > 2`; hence a second
call of `smooth_trajectory`, with a fuel that is at least the numbers of modifiable maneuvers,
returns `q`: it erases nothing. -/
theorem C25_smooth_trajectory_postcondition (dist : Waypoint3d → Waypoint3d → ℚ) (fuel : Nat)
    (p q : Plan Trajectory) (h : smooth_trajectory dist fuel p = some (Except.ok q)) :
    (∀ traj ∈ q.trajectories, ∀ j : Nat, traj.first_modifiable_maneuver ≤ j →
      (j : Int) < traj.last_modifiable_maneuver →
      ¬ div_gt (traj.conf.uav.travel_distance (traj.maneuver j).stop (traj.maneuver (j + 1)).start)
          (dist (traj.maneuver j).stop (traj.maneuver (j + 1)).start) 2)
    ∧ (∀ fuel2 : Nat, (∀ traj ∈ q.trajectories, traj.modifiable_count ≤ fuel2) →
        smooth_trajectory dist fuel2 q = some (Except.ok q)) :=
  ⟨fun traj htraj => (smooth_trajectory_post dist fuel p q h traj htraj).2,
    fun fuel2 hfuel =>
      smooth_trajectory_fixed dist fuel2 q (smooth_trajectory_post dist fuel p q h) hfuel⟩

/-! ## The frame of the smoothing -/

/-- Erasing an element leaves the elements before it. -/
theorem take_eraseIdx_of_le {α : Type} :
    ∀ (l : List α) (k m : Nat), m ≤ k → (l.eraseIdx k).take m = l.take m := by
  intro l
  induction l with
  | nil => intro k m _; simp
  | cons a l ih =>
    intro k m h
    cases k with
    | zero =>
      have : m = 0 := by omega
      rw [this]; simp
    | succ k =>
      cases m with
      | zero => simp
      | succ m =>
        simp only [List.eraseIdx_cons_succ, List.take_succ_cons]
        rw [ih k m (by omega)]

/-- Erasing an element of the list moves the elements after it down by one. -/
theorem drop_eraseIdx_of_le {α : Type} :
    ∀ (l : List α) (k m : Nat), k ≤ m → k < l.length →
      (l.eraseIdx k).drop m = l.drop (m + 1) := by
  intro l
  induction l with
  | nil => intro k m _ h; simp at h
  | cons a l ih =>
    intro k m h hk
    cases k with
    | zero => simp
    | succ k =>
      cases m with
      | zero => omega
      | succ m =>
        simp only [List.eraseIdx_cons_succ, List.drop_succ_cons]
        exact ih k m (by omega) (by simpa using hk)

/-- What the loop of `smooth_trajectory` leaves: the configuration, the order of the
maneuvers, of which it only erases some, the maneuvers up to `seg_id` and the maneuvers after
the last modifiable one. -/
theorem smooth_loop_frame (dist : Waypoint3d → Waypoint3d → ℚ) :
    ∀ (fuel : Nat) (traj : Trajectory) (seg_id : Nat) (result : Trajectory),
      smooth_trajectory_loop dist fuel traj seg_id = some (Except.ok result) →
      result.conf = traj.conf
      ∧ result.maneuvers.Sublist traj.maneuvers
      ∧ result.maneuvers.take (seg_id + 1) = traj.maneuvers.take (seg_id + 1)
      ∧ result.maneuvers.drop (result.last_modifiable_maneuver + 1).toNat
          = traj.maneuvers.drop (traj.last_modifiable_maneuver + 1).toNat := by
  intro fuel
  induction fuel with
  | zero =>
    intro traj seg_id result hres
    obtain ⟨_, hr⟩ := smooth_loop_zero dist traj seg_id result hres
    subst hr
    exact ⟨rfl, List.Sublist.refl _, rfl, rfl⟩
  | succ fuel ih =>
    intro traj seg_id result hres
    rcases smooth_loop_cases dist fuel traj seg_id result hres with
      ⟨_, hr⟩ | ⟨h, ht, hrec⟩ | ⟨h, ht, hrec⟩
    · subst hr
      exact ⟨rfl, List.Sublist.refl _, rfl, rfl⟩
    · have hsize := traj.last_lt_size
      have hk : seg_id + 1 < traj.maneuvers.length := by
        unfold Trajectory.size at hsize; omega
      have hlast := traj.erased_last (seg_id + 1) (by unfold Trajectory.size; exact hk)
      obtain ⟨i1, i2, i3, i4⟩ := ih (traj.erased (seg_id + 1)) seg_id result hrec
      have hman : (traj.erased (seg_id + 1)).maneuvers
          = traj.maneuvers.eraseIdx (seg_id + 1) := rfl
      rw [hman] at i2 i3 i4
      refine ⟨i1, i2.trans (List.eraseIdx_sublist _ _), ?_, ?_⟩
      · rw [i3, take_eraseIdx_of_le _ _ _ (le_refl _)]
      · rw [i4, hlast]
        have e1 : (traj.last_modifiable_maneuver - 1 + 1).toNat
            = traj.last_modifiable_maneuver.toNat := by omega
        have e2 : (traj.last_modifiable_maneuver + 1).toNat
            = traj.last_modifiable_maneuver.toNat + 1 := by omega
        rw [e1, e2]
        exact drop_eraseIdx_of_le _ _ _ (by omega) hk
    · obtain ⟨i1, i2, i3, i4⟩ := ih traj (seg_id + 1) result hrec
      refine ⟨i1, i2, ?_, i4⟩
      have := congrArg (List.take (seg_id + 1)) i3
      rw [List.take_take, List.take_take] at this
      simpa using this

/-- Claim C32. For every plan on which `smooth_trajectory` returns a plan `q`: the
trajectories of `q` are those of the plan, in order, each with its configuration and with
maneuvers that are an order-preserving sub-sequence of the original ones, so that no maneuver
is altered or added; the maneuvers up to the first modifiable one, which are the fixed prefix
and the first modifiable maneuver, are kept in place; and the maneuvers after the last
modifiable one, which are the fixed suffix, are kept. The rest of the plan is as it was. -/
theorem C32_smooth_trajectory_frame (dist : Waypoint3d → Waypoint3d → ℚ) (fuel : Nat)
    (p q : Plan Trajectory) (h : smooth_trajectory dist fuel p = some (Except.ok q)) :
    List.Forall₂ (fun (traj result : Trajectory) =>
        result.conf = traj.conf
        ∧ result.maneuvers.Sublist traj.maneuvers
        ∧ result.maneuvers.take (traj.first_modifiable_maneuver + 1)
            = traj.maneuvers.take (traj.first_modifiable_maneuver + 1)
        ∧ result.maneuvers.drop (result.last_modifiable_maneuver + 1).toNat
            = traj.maneuvers.drop (traj.last_modifiable_maneuver + 1).toNat)
      p.trajectories q.trajectories
    ∧ q.time_window = p.time_window ∧ q.firedata = p.firedata
    ∧ q.possible_observations = p.possible_observations
    ∧ q.observed_previously = p.observed_previously := by
  unfold smooth_trajectory at h
  obtain ⟨r, h2, hq⟩ := and_then_ok _ _ _ h
  simp only [Option.some.injEq, Except.ok.injEq] at hq
  subst hq
  refine ⟨?_, rfl, rfl, rfl, rfl⟩
  apply List.Forall₂.imp _ (for_each_pointwise _ _ _ h2)
  intro traj result hres
  exact smooth_loop_frame dist fuel traj traj.first_modifiable_maneuver result hres

end Plan

namespace FireData

end FireData

namespace Plan

/-! ## The mutation operators of the plan -/

theorem euclidean_dist_s_at (a b : ℚ) :
    euclidean_dist (s_at a).stop (s_at b).start = |b - a| := by
  unfold euclidean_dist s_at
  simp only [sub_self]
  rw [show (b - a) ^ 2 + (0 : ℚ) ^ 2 + 0 ^ 2 = (b - a) * (b - a) by ring, Rat.sqrt_eq]

/-- The loop of `project_on_fire_front` over the only trajectory of a concrete plan. -/
theorem project_plan_of (fuel : Nat) (ms ms' : List Segment3d)
    (h : project_on_fire_front_loop (FireData.new slope) fuel fuel (traj_of ms) 0
      = some (Except.ok (traj_of ms'))) :
    project_on_fire_front fuel (plan_of ms) = some (Except.ok (plan_of ms')) := by
  unfold project_on_fire_front
  have ht : (plan_of ms).trajectories = [traj_of ms] := rfl
  have hf : (plan_of ms).firedata = FireData.new slope := rfl
  have h0 : (traj_of ms).first_modifiable_maneuver = 0 := rfl
  rw [ht, hf, for_each_trajectory, h0, h]
  rfl

/-- The loop of `smooth_trajectory` over the only trajectory of a concrete plan. -/
theorem smooth_plan_of (dist : Waypoint3d → Waypoint3d → ℚ) (fuel : Nat)
    (ms ms' : List Segment3d)
    (h : smooth_trajectory_loop dist fuel (traj_of ms) 0 = some (Except.ok (traj_of ms'))) :
    smooth_trajectory dist fuel (plan_of ms) = some (Except.ok (plan_of ms')) := by
  unfold smooth_trajectory
  have ht : (plan_of ms).trajectories = [traj_of ms] := rfl
  have h0 : (traj_of ms).first_modifiable_maneuver = 0 := rfl
  rw [ht, for_each_trajectory, h0, h]
  rfl

/-- The post-processing of a concrete plan, from its two loops. -/
theorem post_process_plan_of (dist : Waypoint3d → Waypoint3d → ℚ) (fuel : Nat)
    (ms ms' ms'' : List Segment3d)
    (h1 : project_on_fire_front_loop (FireData.new slope) fuel fuel (traj_of ms) 0
      = some (Except.ok (traj_of ms')))
    (h2 : smooth_trajectory_loop dist fuel (traj_of ms') 0 = some (Except.ok (traj_of ms''))) :
    post_process dist fuel (plan_of ms) = some (Except.ok (plan_of ms'')) := by
  unfold post_process
  rw [project_plan_of fuel ms ms' h1, Outcome.and_then, smooth_plan_of dist fuel ms' ms'' h2]

theorem traj_of_uav (ms : List Segment3d) : (traj_of ms).conf.uav = slow_uav := rfl

theorem traj_of_max_duration (ms : List Segment3d) : (traj_of ms).conf.max_duration = 10000 :=
  rfl

theorem traj_of_start_time_0 (ms : List Segment3d) : (traj_of ms).start_time 0 = 50 := rfl

theorem traj_of_maneuver_0 (m : Segment3d) (ms : List Segment3d) :
    (traj_of (m :: ms)).maneuver 0 = m := rfl

theorem traj_of_maneuver_1 (m m1 : Segment3d) (ms : List Segment3d) :
    (traj_of (m :: m1 :: ms)).maneuver 1 = m1 := rfl

/-- The start time of the second maneuver of a concrete trajectory. -/
theorem traj_of_start_time_1 (m m1 : Segment3d) (ms : List Segment3d) :
    (traj_of (m :: m1 :: ms)).start_time 1
      = 50 + 300 * m.length + 300 * (|m1.start.x - m.stop.x| + |m1.start.y - m.stop.y|) := by
  simp only [Trajectory.start_time, Trajectory.maneuver, traj_of, List.getD_cons_zero,
    List.getD_cons_succ, slow_conf, slow_uav]
  ring

/-- The duration of a concrete trajectory of one maneuver. -/
theorem traj_of_duration_1 (m : Segment3d) : (traj_of [m]).duration = 300 * m.length := by
  have hs : (traj_of [m]).size = 1 := rfl
  unfold Trajectory.duration Trajectory.end_time
  rw [hs, if_neg (by decide)]
  simp only [Nat.sub_self, traj_of_start_time_0, traj_of_maneuver_0]
  simp only [traj_of, slow_conf, slow_uav]
  ring

/-- The duration of a concrete trajectory of two maneuvers. -/
theorem traj_of_duration_2 (m m1 : Segment3d) :
    (traj_of [m, m1]).duration
      = 300 * m.length + 300 * (|m1.start.x - m.stop.x| + |m1.start.y - m.stop.y|)
        + 300 * m1.length := by
  have hs : (traj_of [m, m1]).size = 2 := rfl
  unfold Trajectory.duration Trajectory.end_time
  rw [hs, if_neg (by decide)]
  simp only [Nat.add_one_sub_one, Nat.reduceSub, traj_of_start_time_1, traj_of_maneuver_1]
  simp only [traj_of, slow_conf, slow_uav]
  ring

theorem traj_of_replaced_1 (m m1 by_segment : Segment3d) (ms : List Segment3d) :
    (traj_of (m :: m1 :: ms)).replaced 1 by_segment = traj_of (m :: by_segment :: ms) :=
  rfl

theorem traj_of_erased_1 (m m1 : Segment3d) (ms : List Segment3d) :
    (traj_of (m :: m1 :: ms)).erased 1 = traj_of (m :: ms) := rfl

/-- The first maneuver of a concrete trajectory is kept when it is its own projection at the
time 50. -/
theorem project_first_kept (fuel : Nat) (m : Segment3d) (ms : List Segment3d)
    (hp : (FireData.new slope).project_on_firefront 4 m slow_uav 50 = some (some m)) :
    project_on_fire_front_loop (FireData.new slope) 4 (fuel + 1) (traj_of (m :: ms)) 0
      = project_on_fire_front_loop (FireData.new slope) 4 fuel (traj_of (m :: ms)) 1 := by
  apply project_loop_keep
  · unfold Trajectory.last_modifiable_maneuver Trajectory.size traj_of slow_conf
    simp only [List.length_cons, Option.isSome_none, Bool.false_eq_true, if_false]
    omega
  · rw [traj_of_maneuver_0, traj_of_uav, traj_of_start_time_0]
    exact hp

theorem project_slope_01 :
    project_on_fire_front_loop (FireData.new slope) 4 4 (traj_of [s_at 0, s_at 1]) 0
      = some (Except.ok (traj_of [s_at 0, s_at 2])) := by
  rw [project_first_kept 3 _ _ (FireData.slope_project_0 3)]
  rw [project_loop_replace (FireData.new slope) 4 2 (traj_of [s_at 0, s_at 1]) 1 (s_at 2)
    (by decide) (by
      rw [traj_of_maneuver_1, traj_of_uav, traj_of_start_time_1]
      norm_num [s_at]
      exact FireData.slope_project_1 2) (by
      rw [traj_of_maneuver_1]
      simp [s_at]) (by decide) (by
      rw [traj_of_replaced_1, traj_of_duration_2, traj_of_max_duration]
      norm_num [s_at])]
  rw [traj_of_replaced_1]
  exact project_loop_done _ 4 2 _ 2 (by decide) (by decide)

theorem project_slope_02 :
    project_on_fire_front_loop (FireData.new slope) 4 4 (traj_of [s_at 0, s_at 2]) 0
      = some (Except.ok (traj_of [s_at 0])) := by
  rw [project_first_kept 3 _ _ (FireData.slope_project_0 3)]
  rw [project_loop_erase (FireData.new slope) 4 2 (traj_of [s_at 0, s_at 2]) 1 (by decide) (by
      rw [traj_of_maneuver_1, traj_of_uav, traj_of_start_time_1]
      norm_num [s_at]
      exact FireData.slope_project_2 3) (by decide) (by
      rw [traj_of_erased_1, traj_of_duration_1, traj_of_max_duration]
      norm_num [s_at])]
  rw [traj_of_erased_1]
  exact project_loop_done _ 4 2 _ 1 (by decide) (by decide)

theorem smooth_slope_02 :
    smooth_trajectory_loop euclidean_dist 4 (traj_of [s_at 0, s_at 2]) 0
      = some (Except.ok (traj_of [s_at 0, s_at 2])) := by
  rw [smooth_loop_advance euclidean_dist 3 (traj_of [s_at 0, s_at 2]) 0 (by decide) (by
    unfold Trajectory.tight_loop div_gt
    rw [traj_of_maneuver_0, traj_of_maneuver_1, traj_of_uav, euclidean_dist_s_at]
    norm_num [s_at, slow_uav])]
  exact smooth_loop_done _ 3 _ 1 (by decide) (by decide)

theorem post_process_slope_01 :
    post_process euclidean_dist 4 (plan_of [s_at 0, s_at 1])
      = some (Except.ok (plan_of [s_at 0, s_at 2])) :=
  post_process_plan_of _ 4 _ _ _ project_slope_01 smooth_slope_02

theorem post_process_slope_02 :
    post_process euclidean_dist 4 (plan_of [s_at 0, s_at 2])
      = some (Except.ok (plan_of [s_at 0])) :=
  post_process_plan_of _ 4 _ _ _ project_slope_02
    (smooth_loop_done _ 4 _ 0 (by decide) (by decide))

theorem C25_witness :
    smooth_trajectory euclidean_dist 4 (plan_of [s_at 0, s_at 2])
      = some (Except.ok (plan_of [s_at 0, s_at 2])) :=
  (C25_smooth_trajectory_postcondition euclidean_dist 4 (plan_of [s_at 0, s_at 2])
    (plan_of [s_at 0, s_at 2]) (smooth_plan_of euclidean_dist 4 _ _ smooth_slope_02)).2 4
    (by
      intro traj htraj
      simp only [plan_of, Plan.new, List.mem_singleton] at htraj
      rw [htraj]
      decide)

/-! ## The smoothing of a trajectory with no maneuver -/

/-- Claim C16, failing input. On the plan over the slope whose only trajectory has no maneuver
and no fixed slot, which has 0 modifiable maneuvers, the loop of `smooth_trajectory` does not
return without executing its body: `last_modifiable_maneuver()` is `-1`, which the comparison
with the `size_t` index `seg_id = 0` reads as `2 ^ 64 - 1`; the test `0 < 2 ^ 64 - 1` passes
and the first iteration reads `traj[0]` and `traj[1]`, which do not exist. -/
theorem C16_empty_trajectory_out_of_range :
    (traj_of []).modifiable_count = 0
    ∧ (traj_of []).last_modifiable_maneuver = -1
    ∧ to_size_t (traj_of []).last_modifiable_maneuver = 2 ^ 64 - 1
    ∧ (∀ dist : Waypoint3d → Waypoint3d → ℚ, smooth_trajectory dist 0 (plan_of []) = none)
    ∧ (∀ (dist : Waypoint3d → Waypoint3d → ℚ) (fuel : Nat),
        smooth_trajectory dist (fuel + 1) (plan_of []) = some (Except.error Fault.out_of_range)) := by
  have hl : (traj_of []).last_modifiable_maneuver = -1 := by decide
  have hw : to_size_t (traj_of []).last_modifiable_maneuver = 2 ^ 64 - 1 := by
    rw [hl]; decide
  have ht : (plan_of []).trajectories = [traj_of []] := rfl
  have h0 : (traj_of []).first_modifiable_maneuver = 0 := rfl
  have hg : 0 < to_size_t (traj_of []).last_modifiable_maneuver := by rw [hw]; decide
  have hs : (traj_of []).size ≤ 0 + 1 := by decide
  refine ⟨by decide, hl, hw, ?_, ?_⟩
  · intro dist
    unfold smooth_trajectory
    rw [ht, for_each_trajectory, h0, smooth_trajectory_loop, if_pos hg]
    rfl
  · intro dist fuel
    unfold smooth_trajectory
    rw [ht, for_each_trajectory, h0, smooth_trajectory_loop, if_pos hg, if_pos hs]
    rfl

/-! ## The post-processing twice -/

/-- Claim C14, failing input. Over the slope, with the maneuvers at 0 and at 1,
`post_process` moves the second maneuver, flown at time 350, to the cell 2 that the fire is
traversing then. This delays it to the time 650, when the fire has left the grid: in the plan
that `post_process` returns this maneuver makes no observation, and the second call of
`post_process` erases it. -/
theorem C14_second_call_erases :
    post_process euclidean_dist 4 (plan_of [s_at 0, s_at 1])
      = some (Except.ok (plan_of [s_at 0, s_at 2]))
    ∧ post_process euclidean_dist 4 (plan_of [s_at 0, s_at 2])
      = some (Except.ok (plan_of [s_at 0]))
    ∧ (plan_of [s_at 0]).trajectories ≠ (plan_of [s_at 0, s_at 2]).trajectories := by
  refine ⟨post_process_slope_01, post_process_slope_02, ?_⟩
  simp [plan_of, Plan.new, traj_of]

/-- Claim C15, failing input. Over the slope, with the maneuvers at 0 and at 1,
`project_on_fire_front` moves the second maneuver, flown at time 350, to the cell 2, which the
fire traverses from 200 to 380; in the trajectory it returns this maneuver starts at the time
650, after the traversal end of the cell under its visibility center: it makes no
observation. -/
theorem C15_projected_maneuver_misses_front :
    project_on_fire_front 4 (plan_of [s_at 0, s_at 1])
      = some (Except.ok (plan_of [s_at 0, s_at 2]))
    ∧ traj_of [s_at 0, s_at 2] ∈ (plan_of [s_at 0, s_at 2]).trajectories
    ∧ (traj_of [s_at 0, s_at 2]).first_modifiable_maneuver ≤ 1
    ∧ (1 : Int) ≤ (traj_of [s_at 0, s_at 2]).last_modifiable_maneuver
    ∧ (traj_of [s_at 0, s_at 2]).start_time 1 = 650
    ∧ (FireData.new slope).traversal_end.get ((FireData.new slope).ignitions.as_cell
        ((traj_of [s_at 0, s_at 2]).conf.uav.visibilty_center
          ((traj_of [s_at 0, s_at 2]).maneuver 1)).position) = 380
    ∧ ¬ (traj_of [s_at 0, s_at 2]).makes_observation (FireData.new slope) 1 := by
  have hstart : (traj_of [s_at 0, s_at 2]).start_time 1 = 650 := by
    rw [traj_of_start_time_1]
    norm_num [s_at]
  have hcell : (FireData.new slope).ignitions.as_cell
      ((traj_of [s_at 0, s_at 2]).conf.uav.visibilty_center
        ((traj_of [s_at 0, s_at 2]).maneuver 1)).position = ⟨2, 0⟩ := by
    have h := FireData.slope_as_cell 2
    simp only [Int.cast_ofNat] at h
    exact h
  refine ⟨project_plan_of 4 _ _ project_slope_01, ?_, by decide, by decide, hstart, ?_, ?_⟩
  · simp [plan_of, Plan.new]
  · rw [hcell, FireData.slope_traversal_end_2]
  · unfold Trajectory.makes_observation
    rw [hcell, FireData.slope_traversal_end_2, hstart]
    norm_num

/-! ## The projection of a plan over the plateau -/

/-- Claim C27, failing input. On `plateau_plan`, whose maneuver is over the cell (1, 0) of the
plateau and starts at time 200, `project_on_fire_front` does not return, whatever the fuel: the
projection of the maneuver is the walk on the cells that the cells (1, 0) and (2, 0) send to
each other for ever. -/
theorem C27_projection_never_returns :
    ∀ fuel : Nat, project_on_fire_front fuel plateau_plan = none := by
  intro fuel
  unfold project_on_fire_front
  have ht : plateau_plan.trajectories = [⟨late_conf, [s_at 1]⟩] := rfl
  have hf : plateau_plan.firedata = FireData.new plateau := rfl
  have h0 : (⟨late_conf, [s_at 1]⟩ : Trajectory).first_modifiable_maneuver = 0 := rfl
  have hlast : 0 ≤ to_size_t (⟨late_conf, [s_at 1]⟩ : Trajectory).last_modifiable_maneuver := by
    decide
  have hsize : ¬ (⟨late_conf, [s_at 1]⟩ : Trajectory).size ≤ 0 := by decide
  have hloop : project_on_fire_front_loop (FireData.new plateau) fuel fuel
      ⟨late_conf, [s_at 1]⟩ 0 = none := by
    cases fuel with
    | zero =>
      unfold project_on_fire_front_loop
      rw [if_pos hlast]
    | succ n =>
      rw [project_on_fire_front_loop, if_pos hlast, if_neg hsize]
      have hp : (FireData.new plateau).project_on_firefront (n + 1)
          ((⟨late_conf, [s_at 1]⟩ : Trajectory).maneuver 0)
          (⟨late_conf, [s_at 1]⟩ : Trajectory).conf.uav
          ((⟨late_conf, [s_at 1]⟩ : Trajectory).start_time 0) = none :=
        FireData.plateau_project_out_of_fuel (n + 1)
      simp only [hp]
  rw [ht, hf, for_each_trajectory, h0, hloop]
  rfl

/-! ## The frame of the smoothing on a winding trajectory -/

/-- With `winding_uav` every pair of maneuvers at distinct points makes a tight loop. -/
theorem winding_tight (a b : ℚ) (ms : List Segment3d) (hab : a < b) :
    (winding_traj (s_at a :: s_at b :: ms)).tight_loop euclidean_dist 0 := by
  unfold Trajectory.tight_loop div_gt
  have h0 : (winding_traj (s_at a :: s_at b :: ms)).maneuver 0 = s_at a := rfl
  have h1 : (winding_traj (s_at a :: s_at b :: ms)).maneuver (0 + 1) = s_at b := rfl
  have hu : (winding_traj (s_at a :: s_at b :: ms)).conf.uav = winding_uav := rfl
  rw [h0, h1, hu, euclidean_dist_s_at]
  have hpos : 0 < b - a := by linarith
  rw [abs_of_pos hpos, if_neg hpos.ne']
  simp only [winding_uav, slow_uav, s_at, sub_self, abs_zero, add_zero]
  rw [abs_of_pos hpos, gt_iff_lt, lt_div_iff₀ hpos]
  linarith

/-- The duration of a winding trajectory of one maneuver. -/
theorem winding_duration_1 (m : Segment3d) : (winding_traj [m]).duration = 300 * m.length := by
  have hs : (winding_traj [m]).size = 1 := rfl
  unfold Trajectory.duration Trajectory.end_time
  rw [hs, if_neg (by decide)]
  simp only [Nat.sub_self, Trajectory.start_time, Trajectory.maneuver, winding_traj,
    List.getD_cons_zero, winding_uav, slow_uav]
  ring

/-- The duration of a winding trajectory of two maneuvers. -/
theorem winding_duration_2 (m m1 : Segment3d) :
    (winding_traj [m, m1]).duration
      = 300 * m.length + 900 * (|m1.start.x - m.stop.x| + |m1.start.y - m.stop.y|)
        + 300 * m1.length := by
  have hs : (winding_traj [m, m1]).size = 2 := rfl
  unfold Trajectory.duration Trajectory.end_time
  rw [hs, if_neg (by decide)]
  simp only [Nat.add_one_sub_one, Nat.reduceSub, Trajectory.start_time, Trajectory.maneuver,
    winding_traj, List.getD_cons_zero, List.getD_cons_succ, winding_uav, slow_uav]
  ring

/-- With `winding_uav`, the smoothing of the maneuvers at 0, 1 and 2 erases the second one,
then the third one, and keeps the first. -/
theorem smooth_winding :
    smooth_trajectory euclidean_dist 4 (winding_plan [s_at 0, s_at 1, s_at 2])
      = some (Except.ok (winding_plan [s_at 0])) := by
  have hmax : ∀ ms, (winding_traj ms).conf.max_duration = 10000 := fun _ => rfl
  have e1 : (winding_traj [s_at 0, s_at 1, s_at 2]).erased (0 + 1)
      = winding_traj [s_at 0, s_at 2] := rfl
  have e2 : (winding_traj [s_at 0, s_at 2]).erased (0 + 1) = winding_traj [s_at 0] := rfl
  have hloop : smooth_trajectory_loop euclidean_dist 4 (winding_traj [s_at 0, s_at 1, s_at 2]) 0
      = some (Except.ok (winding_traj [s_at 0])) := by
    rw [smooth_loop_erase euclidean_dist 3 (winding_traj [s_at 0, s_at 1, s_at 2]) 0 (by decide)
      (winding_tight 0 1 [s_at 2] (by norm_num)) (by decide) (by
        rw [e1, winding_duration_2, hmax]
        norm_num [s_at])]
    rw [e1, smooth_loop_erase euclidean_dist 2 (winding_traj [s_at 0, s_at 2]) 0 (by decide)
      (winding_tight 0 2 [] (by norm_num)) (by decide) (by
        rw [e2, winding_duration_1, hmax]
        norm_num [s_at])]
    rw [e2]
    exact smooth_loop_done euclidean_dist 2 (winding_traj [s_at 0]) 0 (by decide) (by decide)
  unfold smooth_trajectory
  have ht : (winding_plan [s_at 0, s_at 1, s_at 2]).trajectories
      = [winding_traj [s_at 0, s_at 1, s_at 2]] := rfl
  have h0 : (winding_traj [s_at 0, s_at 1, s_at 2]).first_modifiable_maneuver = 0 := rfl
  rw [ht, for_each_trajectory, h0, hloop]
  rfl

theorem C32_witness :
    List.Forall₂ (fun (traj result : Trajectory) =>
        result.conf = traj.conf
        ∧ result.maneuvers.Sublist traj.maneuvers
        ∧ result.maneuvers.take (traj.first_modifiable_maneuver + 1)
            = traj.maneuvers.take (traj.first_modifiable_maneuver + 1)
        ∧ result.maneuvers.drop (result.last_modifiable_maneuver + 1).toNat
            = traj.maneuvers.drop (traj.last_modifiable_maneuver + 1).toNat)
      (winding_plan [s_at 0, s_at 1, s_at 2]).trajectories
      (winding_plan [s_at 0]).trajectories :=
  (C32_smooth_trajectory_frame euclidean_dist 4 (winding_plan [s_at 0, s_at 1, s_at 2])
    (winding_plan [s_at 0]) smooth_winding).1

end Plan

/-! ## The projection of a segment that never returns -/

namespace FireData

/-- Claim C17, failing input. On the plateau (ignition times 1, 3, 3, 1), for the segment at
the cell (1, 0), whose visibility center is inside the raster, and the time 200:
`project_on_fire_front` of the cell of the center does not return, whatever the fuel, and
neither does `project_on_firefront`, which is then neither empty nor a segment. -/
theorem C17_projection_of_segment_never_returns :
    (new plateau).ignitions.is_in_position (slow_uav.visibilty_center (s_at 1)).position
    ∧ (new plateau).ignitions.as_cell (slow_uav.visibilty_center (s_at 1)).position = ⟨1, 0⟩
    ∧ ∀ fuel : Nat,
        (new plateau).project_on_fire_front fuel ⟨1, 0⟩ 200 = none
        ∧ (new plateau).project_on_firefront fuel (s_at 1) slow_uav 200 = none := by
  have hc : (slow_uav.visibilty_center (s_at 1)).position = ⟨((1 : Int) : ℚ), 0⟩ := by
    norm_num [slow_uav, s_at, Waypoint3d.position]
  refine ⟨?_, ?_, fun fuel => ⟨(plateau_walk_out_of_fuel fuel).1,
    plateau_project_out_of_fuel fuel⟩⟩
  · unfold GenRaster.is_in_position
    rw [hc, plateau_as_cell, new_ignitions, plateau_is_in]
    simp
  · rw [hc, plateau_as_cell]

end FireData

namespace Plan

/-! ## The replacement of segments -/

end Plan

end SAOP
